import Mathlib

/-!
# Verified model of the `task_templating` validator / command pipeline

This file is a shallow embedding, in Lean 4, of the core of the
`task_templating` repository (Go): the two-tier validator
(`internal/validator/{types,errors,schema,semantic,validate}.go`), the Beads
command builder (`internal/beads/{mapping,beads}.go`) and the command
executor (`internal/beads/exec.go`).  Definitions mirror the Go source,
function by function, keeping the original names.

Modelling conventions used throughout:

* Go slices become `List`; where the code distinguishes a `nil` slice from an
  empty one (the result of `json.Unmarshal`), an `Option (List _)` is used.
* Go maps are modelled either as insertion-ordered association lists
  (`List (k × v)`, for maps that are only read back by key) or as functions
  built by pointwise update (for the in-degree / adjacency maps of Kahn's
  algorithm).  Go's map *iteration* order is unspecified; every loop in the
  source that ranges over a map therefore takes the iteration order as an
  explicit parameter here, which lets us reason about all possible runs.
* `json.RawMessage` fields that the code probes with trial decoding
  (`depends_on`, `constraints`, `files_scope`, `effects`) are modelled by the
  inductive `RawField`, whose constructors are exactly the cases the Go code
  distinguishes: field absent (`nil RawMessage`), JSON `null`, an array of
  strings, a JSON object (decodable into `NotApplicable`), anything else.
* `strings.ToLower`, `strings.TrimSpace`, `strings.ReplaceAll` are modelled by
  `String.toLower`, `String.trim`, `String.replace`.
* `int` is modelled by `Int` where the value can go negative in the source
  (the in-degree counters) and by `Nat` for counters that only ever grow.
-/

set_option autoImplicit false

namespace TaskTemplating

/-! ## Document model (`internal/validator/types.go`) -/

/-- `InputSpec` — a single input a task requires. -/
structure InputSpec where
  Name : String := ""
  Type' : String := ""
  Constraints : String := ""
  Source : String := ""
  deriving DecidableEq, Repr, Inhabited

/-- `OutputSpec` — a single output a task produces. -/
structure OutputSpec where
  Name : String := ""
  Type' : String := ""
  Constraints : String := ""
  Destination : String := ""
  deriving DecidableEq, Repr, Inhabited

/-- `EffectSpec` — a declared side effect. -/
structure EffectSpec where
  Type' : String := ""
  Target : String := ""
  deriving DecidableEq, Repr, Inhabited

/-- `ErrorSpec` — an expected failure mode. -/
structure ErrorSpec where
  Condition : String := ""
  Behavior : String := ""
  Output : String := ""
  deriving DecidableEq, Repr, Inhabited

/-- `NotApplicable` — the explicit N/A marker for contextual fields. -/
structure NotApplicable where
  Status : String := ""
  Reason : String := ""
  deriving DecidableEq, Repr, Inhabited

/-- Model of a `json.RawMessage` field that the Go code probes by trial
decoding (array of strings first, then `NotApplicable` object).  The
constructors partition raw JSON values by the behaviour the Go code can
observe:

* `absent`  — the `RawMessage` is `nil` (field missing from the document);
* `nullLit` — the literal JSON `null` (decoding into `[]string` succeeds and
  leaves the slice `nil`);
* `strList xs` — a JSON array of strings (decodes to a non-nil slice, empty
  for `[]`);
* `naObj status reason rawText` — a JSON object; decoding into
  `NotApplicable` succeeds with the given field values (`rawText` is the
  original JSON text, used in error messages);
* `invalid rawText` — any other JSON value (both trial decodings fail). -/
inductive RawField where
  | absent
  | nullLit
  | strList (xs : List String)
  | naObj (status reason rawText : String)
  | invalid (rawText : String)
  deriving DecidableEq, Repr, Inhabited

/-- Model of the `effects` `json.RawMessage` field, which
`parseEffectsOrNA` probes with a different trial order (string first, then
array of `EffectSpec`):

* `absent` — `nil` `RawMessage`;
* `nullLit` — JSON `null` (decoding into a Go `string` is a no-op without
  error, so the first trial "succeeds" with the zero value `""`);
* `strLit s` — a JSON string;
* `effList es` — a JSON array of effect objects;
* `otherE` — anything else (both trials fail). -/
inductive EffectsField where
  | absent
  | nullLit
  | strLit (s : String)
  | effList (es : List EffectSpec)
  | otherE (rawText : String)
  deriving DecidableEq, Repr, Inhabited

/-- `TaskNode` — a single task in the graph. -/
structure TaskNode where
  TaskID : String := ""
  TaskName : String := ""
  Goal : String := ""
  Inputs : List InputSpec := []
  Outputs : List OutputSpec := []
  Acceptance : List String := []
  DependsOn : RawField := .absent
  Constraints : RawField := .absent
  FilesScope : RawField := .absent
  NonGoals : List String := []
  Effects : EffectsField := .absent
  ErrorCases : List ErrorSpec := []
  Priority : String := ""
  Estimate : String := ""
  Notes : String := ""
  deriving DecidableEq, Repr, Inhabited

/-- `Milestone` — a named grouping of tasks. -/
structure Milestone where
  Name : String := ""
  DependsOnMilestones : List String := []
  TaskIDs : List String := []
  deriving DecidableEq, Repr, Inhabited

/-- `Defaults` — inheritable default field values (unused by the checks
modelled here, kept for completeness of the document model). -/
structure Defaults where
  Constraints : List String := []
  Acceptance : List String := []
  NonGoals : List String := []
  deriving DecidableEq, Repr, Inhabited

/-- `TaskGraph` — the top-level task graph document.  `Milestones` is an
`Option` because the Go code distinguishes a `nil` slice (field absent) from
a present list (`checkMilestones` returns early on `nil`). -/
structure TaskGraph where
  Version : String := ""
  Defaults : Option Defaults := none
  Milestones : Option (List Milestone) := none
  Tasks : List TaskNode := []
  deriving DecidableEq, Repr, Inhabited

/-- The `Milestones` slice as ranged over by Go loops (`nil` ranges as empty). -/
def TaskGraph.milestoneList (g : TaskGraph) : List Milestone :=
  g.Milestones.getD []

/-- `ParseDependsOn` — extracts `depends_on`, which can be either a list of
task IDs or a `NotApplicable` object.  The first component of a successful
result is `none` when the Go slice would be `nil` (field absent or JSON
`null`) and `some xs` when it decoded to a (possibly empty) array. -/
def TaskNode.ParseDependsOn (t : TaskNode) :
    Except String (Option (List String) × Option NotApplicable) :=
  match t.DependsOn with
  | .absent => .ok (none, none)
  | .nullLit => .ok (none, none)
  | .strList xs => .ok (some xs, none)
  | .naObj status reason rawText =>
      if status = "N/A" then .ok (none, some ⟨status, reason⟩)
      else .error ("depends_on must be either an array of task IDs or \x7b\"status\": \"N/A\", \"reason\": \"...\"\x7d, got: " ++ rawText)
  | .invalid rawText =>
      .error ("depends_on must be either an array of task IDs or \x7b\"status\": \"N/A\", \"reason\": \"...\"\x7d, got: " ++ rawText)

/-- `ParseFilesScope` — extracts `files_scope`, same shape as
`ParseDependsOn`. -/
def TaskNode.ParseFilesScope (t : TaskNode) :
    Except String (Option (List String) × Option NotApplicable) :=
  match t.FilesScope with
  | .absent => .ok (none, none)
  | .nullLit => .ok (none, none)
  | .strList xs => .ok (some xs, none)
  | .naObj status reason rawText =>
      if status = "N/A" then .ok (none, some ⟨status, reason⟩)
      else .error ("files_scope must be either an array of file paths or \x7b\"status\": \"N/A\", \"reason\": \"...\"\x7d, got: " ++ rawText)
  | .invalid rawText =>
      .error ("files_scope must be either an array of file paths or \x7b\"status\": \"N/A\", \"reason\": \"...\"\x7d, got: " ++ rawText)

/-- The dependency list a consumer loop sees after
`deps, _, err := t.ParseDependsOn(); if err != nil { continue }`:
ranging over a `nil` slice is ranging over the empty list, and a parse
error is skipped. -/
def depsOf (t : TaskNode) : List String :=
  match t.ParseDependsOn with
  | .ok (some xs, _) => xs
  | .ok (none, _) => []
  | .error _ => []

/-! ## Go string primitives

The Go standard-library string functions the source uses, modelled
character-by-character (Lean's own `String.toLower`, `String.trim`,
`String.replace`, `String.isPrefixOf` are compiled primitives whose Lean
models do not reduce inside the kernel, so they cannot be used in a
development whose concrete instances must evaluate by `decide`/`rfl`). -/

/-- If `w` is a prefix of `s`, return the remainder. -/
def matchAt : List Char → List Char → Option (List Char)
  | [], s => some s
  | _ :: _, [] => none
  | a :: w', b :: s' => if a = b then matchAt w' s' else none

/-- `strings.HasPrefix s pre` (Go argument order). -/
def hasPrefixGo (s pre : String) : Bool :=
  (matchAt pre.data s.data).isSome

/-- Substring search helper: does `w` occur in the char list? -/
def hasSubAux (w : List Char) : List Char → Bool
  | [] => (matchAt w []).isSome
  | c :: s' => (matchAt w (c :: s')).isSome || hasSubAux w s'

/-- `strings.Contains s sub`. -/
def containsSub (s sub : String) : Bool :=
  hasSubAux sub.data s.data

/-- `strings.ToLower` (ASCII case mapping; the source only compares against
ASCII literals). -/
def toLowerGo (s : String) : String :=
  String.mk (s.data.map Char.toLower)

/-- The white-space set of `strings.TrimSpace` (`unicode.IsSpace` over the
Latin-1 range; the exotic higher code points are not modelled). -/
def isSpaceGo (c : Char) : Bool :=
  c = ' ' || c = '\t' || c = '\n' || c = '\x0b' || c = '\x0c' || c = '\r'
    || c = '\x85' || c = '\xa0'

/-- `strings.TrimSpace`. -/
def trimSpaceGo (s : String) : String :=
  String.mk (((s.data.dropWhile isSpaceGo).reverse.dropWhile isSpaceGo).reverse)

/-- Fuel-indexed body of `strings.ReplaceAll` (left-to-right, non-overlapping;
one character is consumed per step, so `s.length` fuel is always enough for
a non-empty pattern). -/
def replaceAllAux (old new : List Char) : Nat → List Char → List Char
  | _, [] => []
  | 0, s => s
  | fuel + 1, c :: s =>
      match matchAt old (c :: s) with
      | some rest => new ++ replaceAllAux old new fuel rest
      | none => c :: replaceAllAux old new fuel s

/-- `strings.ReplaceAll s old new` for a non-empty `old` (the executor's
placeholders are never empty; Go's special empty-pattern behaviour is not
modelled). -/
def replaceAllGo (s old new : String) : String :=
  if old.data = [] then s
  else String.mk (replaceAllAux old.data new.data s.data.length s.data)

/-! ## Field mapping and description composition (`internal/beads/mapping.go`) -/

/-- `MapPriority` — maps a task template priority string to a bd numeric
priority.  Returns 2 (medium) as default for empty or unrecognized values. -/
def MapPriority (priority : String) : Nat :=
  let p := toLowerGo priority
  if p = "critical" then 0
  else if p = "high" then 1
  else if p = "medium" then 2
  else if p = "low" then 3
  else 2

/-- `MapEstimate` — maps a task template estimate string to minutes.
Returns 0 for "unknown" or empty string, signaling the estimate should be
omitted. -/
def MapEstimate (estimate : String) : Nat :=
  let e := toLowerGo estimate
  if e = "trivial" then 15
  else if e = "small" then 60
  else if e = "medium" then 240
  else if e = "large" then 480
  else 0

/-- `parseStringArrayOrNA` — attempts to parse a `json.RawMessage` as a
string array.  Returns `none` (Go `nil`) if the field is `nil`, `null`,
an N/A object, or anything else that fails to decode as `[]string`. -/
def parseStringArrayOrNA (raw : RawField) : Option (List String) :=
  match raw with
  | .absent => none
  | .nullLit => none
  | .strList xs => some xs
  | .naObj _ _ _ => none
  | .invalid _ => none

/-- `parseEffectsOrNA` — attempts to parse the effects field (a string like
"None", an array of `EffectSpec`, or N/A). -/
def parseEffectsOrNA (raw : EffectsField) : String :=
  match raw with
  | .absent => ""
  | .nullLit => ""
  | .strLit s => s
  | .effList es =>
      String.intercalate "; " (es.map (fun e => e.Type' ++ ": " ++ e.Target))
  | .otherE _ => ""

/-- `ComposeDescription` — builds a structured markdown description from task
template fields.  Sections with no data or N/A status are omitted. -/
def ComposeDescription (task : TaskNode) : String :=
  task.Goal
  ++ (if task.Inputs.length > 0 then
        "\n\n## Inputs\n"
        ++ String.join (task.Inputs.map (fun i =>
             "- **" ++ i.Name ++ "** (`" ++ i.Type' ++ "`): " ++ i.Constraints
               ++ " -- Source: " ++ i.Source ++ "\n"))
      else "")
  ++ (if task.Outputs.length > 0 then
        "\n## Outputs\n"
        ++ String.join (task.Outputs.map (fun o =>
             "- **" ++ o.Name ++ "** (`" ++ o.Type' ++ "`): " ++ o.Constraints
               ++ " -- Dest: " ++ o.Destination ++ "\n"))
      else "")
  ++ (let constraints := (parseStringArrayOrNA task.Constraints).getD []
      if constraints.length > 0 then
        "\n## Constraints\n"
        ++ String.join (constraints.map (fun c => "- " ++ c ++ "\n"))
      else "")
  ++ (if task.NonGoals.length > 0 then
        "\n## Non-Goals\n"
        ++ String.join (task.NonGoals.map (fun ng => "- " ++ ng ++ "\n"))
      else "")
  ++ (if task.ErrorCases.length > 0 then
        "\n## Error Cases\n"
        ++ String.join (task.ErrorCases.map (fun ec =>
             "- **" ++ ec.Condition ++ "**: " ++ ec.Behavior ++ " -> "
               ++ ec.Output ++ "\n"))
      else "")

/-- One hexadecimal digit (lower case), for `\uXXXX` escapes. -/
def hexDigit (n : Nat) : Char :=
  if n < 10 then Char.ofNat (48 + n) else Char.ofNat (87 + n)

/-- JSON string quoting as performed by Go's `encoding/json` (with its
default HTML escaping of `<`, `>`, `&`).  Used only to model the textual
output of `json.Marshal`; no claim inspects these strings. -/
def goJSONString (s : String) : String :=
  "\"" ++ String.join (s.data.map (fun c =>
    if c = '"' then "\\\""
    else if c = '\\' then "\\\\"
    else if c = '\n' then "\\n"
    else if c = '\r' then "\\r"
    else if c = '\t' then "\\t"
    else if c.toNat < 32 || c = '<' || c = '>' || c = '&' then
      "\\u00" ++ String.mk [hexDigit (c.toNat / 16), hexDigit (c.toNat % 16)]
    else String.mk [c])) ++ "\""

/-- `json.Marshal` of a `[]string` value. -/
def goJSONStringArray (xs : List String) : String :=
  "[" ++ String.intercalate "," (xs.map goJSONString) ++ "]"

/-- `json.Marshal` of an `InputSpec` (struct tags `name`, `type`,
`constraints`, `source`). -/
def goJSONInputSpec (i : InputSpec) : String :=
  "\x7b\"name\":" ++ goJSONString i.Name ++ ",\"type\":" ++ goJSONString i.Type'
    ++ ",\"constraints\":" ++ goJSONString i.Constraints
    ++ ",\"source\":" ++ goJSONString i.Source ++ "\x7d"

/-- `json.Marshal` of an `OutputSpec` (struct tags `name`, `type`,
`constraints`, `destination`). -/
def goJSONOutputSpec (o : OutputSpec) : String :=
  "\x7b\"name\":" ++ goJSONString o.Name ++ ",\"type\":" ++ goJSONString o.Type'
    ++ ",\"constraints\":" ++ goJSONString o.Constraints
    ++ ",\"destination\":" ++ goJSONString o.Destination ++ "\x7d"

/-- `BuildTemplateMetadata` — builds the JSON string stored in the bd
`--design` field (`templateMetadata` wrapping `templateData`).
`json.Marshal` cannot fail on this struct (strings and slices only), so the
Go error path is dead and the model is total. -/
def BuildTemplateMetadata (task : TaskNode) : String :=
  let filesScope := (parseStringArrayOrNA task.FilesScope).getD []
  let effects := parseEffectsOrNA task.Effects
  "\x7b\"_template\":\x7b\"version\":\"0.2.0\",\"task_id\":" ++ goJSONString task.TaskID
    ++ ",\"files_scope\":" ++ goJSONStringArray filesScope
    ++ ",\"effects\":" ++ goJSONString effects
    ++ ",\"inputs\":" ++ ("[" ++ String.intercalate "," (task.Inputs.map goJSONInputSpec) ++ "]")
    ++ ",\"outputs\":" ++ ("[" ++ String.intercalate "," (task.Outputs.map goJSONOutputSpec) ++ "]")
    ++ "\x7d\x7d"

/-- `FormatAcceptance` — joins acceptance criteria into a markdown
checklist (`"- a\n- b"`; empty input gives `""`). -/
def FormatAcceptance (criteria : List String) : String :=
  String.intercalate "\n" (criteria.map (fun c => "- " ++ c))

/-! ## Command construction (`internal/beads/beads.go`) -/

/-- `Creator` — orchestrates the creation of Beads issues. -/
structure Creator where
  DryRun : Bool := false
  EpicTitle : String := ""
  Filename : String := ""
  deriving DecidableEq, Repr, Inhabited

/-- `BdCommand` — a bd CLI command to be executed. -/
structure BdCommand where
  Args : List String := []
  TaskID : String := ""
  Type' : String := ""
  DepTaskID : String := ""
  DepOnID : String := ""
  deriving DecidableEq, Repr, Inhabited

/-- `truncate` — shortens a string to `maxLen` *bytes* if needed (Go slices
the underlying UTF-8 bytes; we keep whole characters, which agrees with Go
except when the 500-byte boundary would split a multi-byte code point). -/
def truncateBytes : List Char → Nat → List Char
  | [], _ => []
  | c :: cs, budget =>
      if c.utf8Size ≤ budget then c :: truncateBytes cs (budget - c.utf8Size)
      else []

/-- See `truncateBytes`. -/
def truncate (s : String) (maxLen : Nat) : String :=
  if s.utf8ByteSize ≤ maxLen then s else String.mk (truncateBytes s.data maxLen)

/-- `buildTaskCreateArgs` — the arguments for a bd create command for a
single task.  The Go code builds `args` by successive `append`s; the
concatenation below lists the appended segments in source order. -/
def Creator.buildTaskCreateArgs (_c : Creator) (task : TaskNode) (parentID : String) :
    List String :=
  ["create",
   "--title", truncate task.TaskName 500,
   "--type", "task",
   "--description", ComposeDescription task]
  ++ (let acceptance := FormatAcceptance task.Acceptance
      if acceptance ≠ "" then ["--acceptance", acceptance] else [])
  ++ ["--priority", toString (MapPriority task.Priority)]
  ++ (let est := MapEstimate task.Estimate
      if est > 0 then ["--estimate", toString est] else [])
  ++ (if task.Notes ≠ "" then ["--notes", task.Notes] else [])
  ++ (if parentID ≠ "" then ["--parent", parentID] else [])
  ++ ["--labels", "taskval-managed", "--silent"]

/-- `resolveEpicTitle` — determines the epic title using the resolution
order from the spec: explicit override, first milestone name, filename,
stdin fallback. -/
def Creator.resolveEpicTitle (c : Creator) (graph : TaskGraph) : String :=
  if c.EpicTitle ≠ "" then c.EpicTitle
  else if graph.milestoneList.length > 0 then
    "Task Graph: " ++ (graph.milestoneList.headD default).Name
  else if c.Filename ≠ "" ∧ c.Filename ≠ "-" then
    "Task Graph: " ++ c.Filename
  else "Task Graph: (stdin)"

/-- `resolveGraphPriority` — picks the highest (numerically smallest)
priority across all tasks, starting from the default medium (2). -/
def Creator.resolveGraphPriority (_c : Creator) (graph : TaskGraph) : Nat :=
  graph.Tasks.foldl (fun best t => min best (MapPriority t.Priority)) 2

/-! ## Kahn's algorithm (shared verbatim between `topologicalSort` in
`beads.go` and `checkDAGAcyclicity` in `semantic.go`)

The Go code keeps two maps, `adj : id → []id` (tasks that depend on a task)
and `inDegree : id → int` (number of resolved dependencies).  They are
modelled as total functions with the Go zero values (`nil`/`0`) as defaults,
updated pointwise; the key set (needed when a loop *ranges* over a map) is
recovered separately from the task list. -/

/-- Pointwise update of a map modelled as a function (`m[k] = v`). -/
def updFn {β : Type} (f : String → β) (k : String) (v : β) : String → β :=
  fun x => if x = k then v else f x

/-- The `task_id`s of a task list, in document order. -/
def taskIDs (tasks : List TaskNode) : List String :=
  tasks.map (·.TaskID)

/-- The key set of the `inDegree`/`adj` maps: each distinct `task_id` once
(both maps are initialised with exactly the task ids as keys). -/
def mapKeys (tasks : List TaskNode) : List String :=
  (taskIDs tasks).dedup

/-- `taskIndex` — the Go map from `task_id` to slice index; on duplicate ids
the later index wins (each loop iteration overwrites), and a missing key
reads as the zero value 0. -/
def taskIndex (tasks : List TaskNode) : String → Nat :=
  tasks.enum.foldl (fun m p => updFn m p.2.TaskID p.1) (fun _ => 0)

/-- One dependency entry of the adjacency/in-degree construction: if `dep`
resolves to a task id, append `t.TaskID` to `adj[dep]` and increment
`inDegree[t.TaskID]`; otherwise skip (`continue`). -/
def adjStep (tasks : List TaskNode) (t : TaskNode)
    (m : (String → List String) × (String → Int)) (dep : String) :
    (String → List String) × (String → Int) :=
  if dep ∈ taskIDs tasks then
    (updFn m.1 dep (m.1 dep ++ [t.TaskID]),
     updFn m.2 t.TaskID (m.2 t.TaskID + 1))
  else m

/-- The two construction loops both `beads.go` and `semantic.go` run before
Kahn's algorithm: for every task `t` (in order) and every entry `dep` of
its parsed dependency list, run `adjStep`. -/
def buildAdjIndeg (tasks : List TaskNode) : (String → List String) × (String → Int) :=
  tasks.foldl
    (fun m t => (depsOf t).foldl (adjStep tasks t) m)
    (fun _ => [], fun _ => 0)

/-- One neighbor visit: decrement `inDegree[neighbor]` and, if it reached
zero, append the neighbor to the queue. -/
def kahnStepF (st : (String → Int) × List String) (w : String) :
    (String → Int) × List String :=
  let d := st.1 w - 1
  (updFn st.1 w d, if d = 0 then st.2 ++ [w] else st.2)

/-- The body of one dequeue: visit each `neighbor` in `adj[id]` in order. -/
def kahnStep (adj : String → List String) (id : String)
    (st : (String → Int) × List String) : (String → Int) × List String :=
  (adj id).foldl kahnStepF st

/-- The Kahn work loop (`for len(queue) > 0`), fuel-indexed to make it a
total function.  Callers pass `queue.length + tasks.length` fuel, which is
proved sufficient below (each map key enters the queue at most once), so the
fuel-exhaustion branch is never taken on the states the program reaches. -/
def kahnLoop (adj : String → List String) :
    Nat → List String → (String → Int) → List String → (String → Int) × List String
  | 0, _, indeg, ordered => (indeg, ordered)
  | _ + 1, [], indeg, ordered => (indeg, ordered)
  | fuel + 1, id :: rest, indeg, ordered =>
      let st := kahnStep adj id (indeg, rest)
      kahnLoop adj fuel st.2 st.1 (ordered ++ [id])

/-- `topologicalSort` (`beads.go`) — returns tasks in dependency order.
The seed queue is built by ranging over `graph.Tasks` (deterministic slice
order), and each dequeued id is resolved to its node through `taskIndex`. -/
def topologicalSort (graph : TaskGraph) : List TaskNode :=
  let tIndex := taskIndex graph.Tasks
  let maps := buildAdjIndeg graph.Tasks
  let queue := (graph.Tasks.filter (fun t => maps.2 t.TaskID = 0)).map (·.TaskID)
  let run := kahnLoop maps.1 (queue.length + graph.Tasks.length) queue maps.2 []
  run.2.map (fun id => graph.Tasks.getD (tIndex id) default)

/-- `BuildGraphCommands` — constructs the bd commands for graph mode:
epic create, task creates in topological order, dependency links, metadata
updates.  The only Go error path (`BuildTemplateMetadata`) is dead (see
there), so the model is total. -/
def Creator.BuildGraphCommands (c : Creator) (graph : TaskGraph) : List BdCommand :=
  let epicArgs : List String :=
    ["create",
     "--title", c.resolveEpicTitle graph,
     "--type", "epic",
     "--priority", toString (c.resolveGraphPriority graph),
     "--labels", "taskval-managed",
     "--silent"]
  let ordered := topologicalSort graph
  [{ Args := epicArgs, Type' := "create-epic" }]
  ++ ordered.map (fun task =>
       { Args := c.buildTaskCreateArgs task "<epic-id>",
         TaskID := task.TaskID, Type' := "create-task" })
  ++ ordered.flatMap (fun task =>
       (depsOf task).map (fun dep =>
         { Args := ["dep", "add", "<" ++ task.TaskID ++ "-id>", "<" ++ dep ++ "-id>"],
           Type' := "dep-add", DepTaskID := task.TaskID, DepOnID := dep }))
  ++ ordered.map (fun task =>
       { Args := ["update", "<" ++ task.TaskID ++ "-id>", "--design",
                  BuildTemplateMetadata task],
         TaskID := task.TaskID, Type' := "update-design" })

/-- `BuildSingleTaskCommands` — constructs the bd commands for single task
mode (create, then metadata update). -/
def Creator.BuildSingleTaskCommands (c : Creator) (task : TaskNode) : List BdCommand :=
  [{ Args := c.buildTaskCreateArgs task "", TaskID := task.TaskID, Type' := "create-task" },
   { Args := ["update", "<" ++ task.TaskID ++ "-id>", "--design", BuildTemplateMetadata task],
     TaskID := task.TaskID, Type' := "update-design" }]

/-- The index of the (first) create-task command for a given template
task id in a command list. -/
def createIdx (cmds : List BdCommand) (id : String) : Option Nat :=
  cmds.findIdx? (fun cmd => cmd.Type' == "create-task" && cmd.TaskID == id)

/-! ## Validation findings (`internal/validator/errors.go`) -/

/-- `SeverityError` (the Go `Severity` type is a string). -/
def SeverityError : String := "ERROR"

/-- `SeverityWarning`. -/
def SeverityWarning : String := "WARNING"

/-- `SeverityInfo`. -/
def SeverityInfo : String := "INFO"

/-- `ValidationError` — a single validation finding. -/
structure ValidationError where
  Rule : String := ""
  Severity : String := ""
  Path : String := ""
  Message : String := ""
  Suggestion : String := ""
  Context : String := ""
  deriving DecidableEq, Repr, Inhabited

/-- `ValidationStats` — summary counts. -/
structure ValidationStats where
  TotalTasks : Nat := 0
  ErrorCount : Nat := 0
  WarningCount : Nat := 0
  InfoCount : Nat := 0
  deriving DecidableEq, Repr, Inhabited

/-- `ValidationResult` — aggregates all findings from a validation run. -/
structure ValidationResult where
  Valid : Bool := false
  Errors : List ValidationError := []
  Stats : ValidationStats := {}
  Graph : Option TaskGraph := none
  deriving DecidableEq, Repr, Inhabited

/-- `AddError` — appends a validation error and updates stats (an ERROR
also clears `Valid`). -/
def ValidationResult.AddError (vr : ValidationResult) (ve : ValidationError) :
    ValidationResult :=
  let vr := { vr with Errors := vr.Errors ++ [ve] }
  if ve.Severity = SeverityError then
    { vr with Stats := { vr.Stats with ErrorCount := vr.Stats.ErrorCount + 1 },
              Valid := false }
  else if ve.Severity = SeverityWarning then
    { vr with Stats := { vr.Stats with WarningCount := vr.Stats.WarningCount + 1 } }
  else if ve.Severity = SeverityInfo then
    { vr with Stats := { vr.Stats with InfoCount := vr.Stats.InfoCount + 1 } }
  else vr

/-- A sequence of `result.AddError(e)` calls, in order.  Each Go check calls
`AddError` once per finding; the checks below are therefore modelled as
functions producing their finding lists (in call order), folded into the
result with `addErrors`. -/
def addErrors (vr : ValidationResult) (errs : List ValidationError) : ValidationResult :=
  errs.foldl ValidationResult.AddError vr

/-! ## Word matching for the content heuristics (`semantic.go`)

`checkGoalQuality` and `checkAcceptanceQuality` use Go regexps of the form
`(?i)\b<literal>\b`.  That matches a case-insensitive occurrence of the
literal whose (word-character) ends are not adjacent to another word
character (`\w` = ASCII letters, digits, underscore).  `containsWordCI`
implements exactly this search. -/

/-- ASCII `\w` as used by Go's `regexp` word boundaries. -/
def isWordChar (c : Char) : Bool :=
  c.isAlpha || c.isDigit || c = '_'

/-- A word boundary exists before/after a literal at a string edge or next
to a non-word character. -/
def boundaryOk : Option Char → Bool
  | none => true
  | some c => !(isWordChar c)

/-- Does the literal match at this position, with word boundaries on both
sides (`prev` is the character just before the position)? -/
def hitAt (w : List Char) (prev : Option Char) (s : List Char) : Bool :=
  boundaryOk prev &&
    (match matchAt w s with
     | some rest => boundaryOk rest.head?
     | none => false)

/-- Scan all positions of `s` for a boundary-delimited match of `w`. -/
def scanWord (w : List Char) : Option Char → List Char → Bool
  | prev, [] => hitAt w prev []
  | prev, c :: s' => hitAt w prev (c :: s') || scanWord w (some c) s'

/-- `(?i)\b<w>\b` matches somewhere in `s` (both sides lower-cased for the
case-insensitive flag). -/
def containsWordCI (w s : String) : Bool :=
  scanWord (toLowerGo w).data none (toLowerGo s).data

/-! ## Tier 2 semantic checks (`internal/validator/semantic.go`) -/

/-- Forbidden words in the GOAL field (`goalForbiddenWords`). -/
def goalForbiddenWords : List String :=
  ["try", "explore", "investigate", "look into"]

/-- The V2 duplicate finding reported at `tasks[i]`, citing a previous
index. -/
def dupIDError (i : Nat) (id : String) (prev : Nat) : ValidationError :=
  { Rule := "V2", Severity := SeverityError,
    Path := "tasks[" ++ toString i ++ "].task_id",
    Message := "Duplicate task_id \x27" ++ id
      ++ "\x27 — first occurrence at tasks[" ++ toString prev ++ "].",
    Suggestion := "Every task_id must be globally unique within the project. Rename one of the duplicates.",
    Context := id }

/-- One iteration of the `checkUniqueTaskIDs` loop: report a duplicate if
the id was already `seen`, then (unconditionally) record the current index
in `seen`. -/
def uniqueStep (st : (String → Option Nat) × List ValidationError)
    (p : Nat × TaskNode) : (String → Option Nat) × List ValidationError :=
  let errs :=
    match st.1 p.2.TaskID with
    | some prev => st.2 ++ [dupIDError p.1 p.2.TaskID prev]
    | none => st.2
  (updFn st.1 p.2.TaskID (some p.1), errs)

/-- `checkUniqueTaskIDs` (V2) — reports each task whose id was already
`seen`; the `seen` map is updated to the *current* index on every iteration
(including duplicates). -/
def checkUniqueTaskIDs (graph : TaskGraph) : List ValidationError :=
  (graph.Tasks.enum.foldl uniqueStep (fun _ => none, [])).2

/-- `checkDependencyReferences` (V4, and the V5 self-dependency check). -/
def checkDependencyReferences (graph : TaskGraph) : List ValidationError :=
  graph.Tasks.enum.flatMap (fun p =>
    match p.2.ParseDependsOn with
    | .error e =>
        [{ Rule := "V4", Severity := SeverityError,
           Path := "tasks[" ++ toString p.1 ++ "].depends_on",
           Message := e,
           Suggestion := "depends_on must be an array of task_id strings or \x7b\"status\": \"N/A\", \"reason\": \"...\"\x7d." }]
    | .ok parsed =>
        (parsed.1.getD []).flatMap (fun dep =>
          (if dep ∈ taskIDs graph.Tasks then []
           else
             [{ Rule := "V4", Severity := SeverityError,
                Path := "tasks[" ++ toString p.1 ++ "].depends_on",
                Message := "Task \x27" ++ p.2.TaskID ++ "\x27 depends on \x27" ++ dep
                  ++ "\x27, but no task with that task_id exists in the graph.",
                Suggestion := "Either add a task with task_id \x27" ++ dep
                  ++ "\x27 to the graph, or remove \x27" ++ dep
                  ++ "\x27 from the depends_on list of task \x27" ++ p.2.TaskID ++ "\x27.",
                Context := dep }])
          ++
          (if dep = p.2.TaskID then
             [{ Rule := "V5", Severity := SeverityError,
                Path := "tasks[" ++ toString p.1 ++ "].depends_on",
                Message := "Task \x27" ++ p.2.TaskID
                  ++ "\x27 depends on itself — this creates a trivial cycle.",
                Suggestion := "Remove the self-reference from depends_on.",
                Context := dep }]
           else [])))

/-- The message/context payload of the V5 cycle finding, as a function of
the cycle-member listing order. -/
def cycleError (cycleMembers : List String) : ValidationError :=
  { Rule := "V5", Severity := SeverityError, Path := "tasks",
    Message := "Dependency graph contains a cycle. " ++ toString cycleMembers.length
      ++ " task(s) are involved: [" ++ String.intercalate ", " cycleMembers
      ++ "]. A valid task graph must be a DAG (Directed Acyclic Graph).",
    Suggestion := "Review the depends_on fields of the listed tasks. Break the cycle by removing one dependency or decomposing a task into sub-tasks.",
    Context := String.intercalate ", " cycleMembers }

/-- `checkDAGAcyclicity` (V5) — Kahn's algorithm over the resolved edges.
The two `for … range` loops over the `inDegree` map (queue seeding, and the
collection of residual-in-degree nodes) iterate in Go's unspecified map
order; `seedOrd` and `memOrd` are those orders, each a permutation of the
map's keys in any real run. -/
def checkDAGAcyclicity (graph : TaskGraph) (seedOrd memOrd : List String) :
    List ValidationError :=
  let maps := buildAdjIndeg graph.Tasks
  let queue := seedOrd.filter (fun id => maps.2 id = 0)
  let run := kahnLoop maps.1 (queue.length + graph.Tasks.length) queue maps.2 []
  let visited := run.2.length
  if visited < graph.Tasks.length then
    [cycleError (memOrd.filter (fun id => run.1 id > 0))]
  else []

/-- `checkGoalQuality` (V6) — forbidden words (errors) and the `"To "`
activity-phrasing heuristic (warning). -/
def checkGoalQuality (graph : TaskGraph) : List ValidationError :=
  graph.Tasks.enum.flatMap (fun p =>
    (goalForbiddenWords.flatMap (fun w =>
      if containsWordCI w p.2.Goal then
        [{ Rule := "V6", Severity := SeverityError,
           Path := "tasks[" ++ toString p.1 ++ "].goal",
           Message := "Goal contains the forbidden word/phrase \x27" ++ w
             ++ "\x27. Goals must describe testable outcomes, not activities or explorations.",
           Suggestion := "Rewrite the goal as a concrete, testable outcome. Instead of \x27" ++ w
             ++ " ...\x27, describe what the system does when the task is complete. Example: \x27The function returns X when given Y.\x27",
           Context := p.2.Goal }]
      else []))
    ++
    (if hasPrefixGo (trimSpaceGo p.2.Goal) "To " then
       [{ Rule := "V6", Severity := SeverityWarning,
          Path := "tasks[" ++ toString p.1 ++ "].goal",
          Message := "Goal starts with \x27To ...\x27 which suggests an activity rather than a testable outcome.",
          Suggestion := "Rewrite as a state-of-the-world assertion. Example: Instead of \x27To add search functionality\x27, write \x27The Search() function returns ranked results from Weaviate hybrid search.\x27",
          Context := p.2.Goal }]
     else []))

/-- The vague-phrase regexps of `checkAcceptanceQuality`, expanded: each
entry lists the literal alternatives of one pattern (`works?`/`looks?`
expand to both spellings). -/
def vagueVariants : List (List String) :=
  [["work correctly", "works correctly"],
   ["is correct"],
   ["is good"],
   ["look right", "looks right"],
   ["properly"],
   ["as expected"],
   ["should work"],
   ["is fine"]]

/-- `vagueNames` — the phrase names reported for the patterns above (same
indexing). -/
def vagueNames : List String :=
  ["works correctly", "is correct", "is good", "looks right",
   "properly", "as expected", "should work", "is fine"]

/-- `checkAcceptanceQuality` (V7) — vague acceptance criteria warnings. -/
def checkAcceptanceQuality (graph : TaskGraph) : List ValidationError :=
  graph.Tasks.enum.flatMap (fun p =>
    p.2.Acceptance.enum.flatMap (fun q =>
      (vagueVariants.zip vagueNames).flatMap (fun pat =>
        if pat.1.any (fun w => containsWordCI w q.2) then
          [{ Rule := "V7", Severity := SeverityWarning,
             Path := "tasks[" ++ toString p.1 ++ "].acceptance[" ++ toString q.1 ++ "]",
             Message := "Acceptance criterion contains the vague phrase \x27" ++ pat.2
               ++ "\x27. Criteria must be independently verifiable with concrete expected values.",
             Suggestion := "Replace with a specific assertion. Example: Instead of \x27it works correctly\x27, write \x27Given input \"test\", the function returns [\"result1\", \"result2\"] with status 200.\x27",
             Context := q.2 }]
        else [])))

/-- `checkContextualFields` (V9) — `depends_on`, `constraints`,
`files_scope` must be present (a `nil` `RawMessage`, i.e. `.absent`, is the
only way the Go `raw == nil` test fires). -/
def checkContextualFields (graph : TaskGraph) : List ValidationError :=
  graph.Tasks.enum.flatMap (fun p =>
    [("depends_on", p.2.DependsOn), ("constraints", p.2.Constraints),
     ("files_scope", p.2.FilesScope)].flatMap (fun f =>
      if f.2 = .absent then
        [{ Rule := "V9", Severity := SeverityWarning,
           Path := "tasks[" ++ toString p.1 ++ "]." ++ f.1,
           Message := "Contextual field \x27" ++ f.1 ++ "\x27 is missing from task \x27"
             ++ p.2.TaskID
             ++ "\x27. Contextual fields should be explicitly present or set to \x7b\"status\": \"N/A\", \"reason\": \"...\"\x7d.",
           Suggestion := "Either provide a value for \x27" ++ f.1
             ++ "\x27 or explicitly mark it as not applicable: \x7b\"status\": \"N/A\", \"reason\": \"your justification here\"\x7d." }]
      else []))

/-- The implementation verbs of `checkFilesScope`. -/
def implVerbs : List String :=
  ["implement", "add", "fix", "create", "build", "write"]

/-- The V10 finding reported at `tasks[i]`. -/
def filesScopeWarning (i : Nat) (id : String) : ValidationError :=
  { Rule := "V10", Severity := SeverityWarning,
    Path := "tasks[" ++ toString i ++ "].files_scope",
    Message := "Task \x27" ++ id
      ++ "\x27 appears to be an implementation task (name starts with an implementation verb) but has no files_scope defined.",
    Suggestion := "Add a files_scope listing the files the agent should create or modify. This prevents unintended changes to other parts of the codebase." }

/-- `checkFilesScope` (V10) — warns when an implementation task (name
starts with an implementation verb, case-insensitively) has neither a
files list nor an N/A marker.  A parse error is skipped (`continue`), and a
decoded list — even an empty one — makes `files` non-nil. -/
def checkFilesScope (graph : TaskGraph) : List ValidationError :=
  graph.Tasks.enum.flatMap (fun p =>
    let nameLower := toLowerGo p.2.TaskName
    let isImplTask := implVerbs.any (fun verb => hasPrefixGo nameLower verb)
    if !isImplTask then []
    else
      match p.2.ParseFilesScope with
      | .error _ => []
      | .ok parsed =>
          if parsed.1 = none ∧ parsed.2 = none then
            [filesScopeWarning p.1 p.2.TaskID]
          else [])

/-- `checkMilestones` — milestone name uniqueness and reference
resolution.  Returns early when the `Milestones` slice is `nil`. -/
def checkMilestones (graph : TaskGraph) : List ValidationError :=
  match graph.Milestones with
  | none => []
  | some ms =>
      let firstLoop :=
        (ms.enum.foldl
          (fun (st : (String → Option Nat) × List ValidationError) p =>
            let dupErrs :=
              match st.1 p.2.Name with
              | some prev =>
                  [{ Rule := "MILESTONE", Severity := SeverityError,
                     Path := "milestones[" ++ toString p.1 ++ "].name",
                     Message := "Duplicate milestone name \x27" ++ p.2.Name
                       ++ "\x27 — first occurrence at milestones[" ++ toString prev ++ "].",
                     Suggestion := "Every milestone name must be unique. Rename one of the duplicates." }]
              | none => []
            let tidErrs := p.2.TaskIDs.flatMap (fun tid =>
              if tid ∈ taskIDs graph.Tasks then []
              else
                [{ Rule := "MILESTONE", Severity := SeverityError,
                   Path := "milestones[" ++ toString p.1 ++ "].task_ids",
                   Message := "Milestone \x27" ++ p.2.Name ++ "\x27 references task_id \x27"
                     ++ tid ++ "\x27, but no task with that ID exists in the graph.",
                   Suggestion := "Add a task with task_id \x27" ++ tid
                     ++ "\x27 or remove it from the milestone." }])
            (updFn st.1 p.2.Name (some p.1), st.2 ++ dupErrs ++ tidErrs))
          (fun _ => none, [])).2
      let secondLoop := ms.enum.flatMap (fun p =>
        p.2.DependsOnMilestones.flatMap (fun dep =>
          if dep ∈ ms.map (·.Name) then []
          else
            [{ Rule := "MILESTONE", Severity := SeverityError,
               Path := "milestones[" ++ toString p.1 ++ "].depends_on_milestones",
               Message := "Milestone \x27" ++ p.2.Name ++ "\x27 depends on milestone \x27"
                 ++ dep ++ "\x27, but no milestone with that name exists.",
               Suggestion := "Add a milestone named \x27" ++ dep
                 ++ "\x27 or remove it from depends_on_milestones." }]))
      firstLoop ++ secondLoop

/-- `(sv *SemanticValidator) ValidateTaskGraph` — sets the task count and
runs the fixed sequence of Tier 2 checks, accumulating their findings via
`AddError` in call order. -/
def semErrs (graph : TaskGraph) (seedOrd memOrd : List String) : List ValidationError :=
  checkUniqueTaskIDs graph
    ++ checkDependencyReferences graph
    ++ checkDAGAcyclicity graph seedOrd memOrd
    ++ checkGoalQuality graph
    ++ checkAcceptanceQuality graph
    ++ checkContextualFields graph
    ++ checkFilesScope graph
    ++ checkMilestones graph

/-- See `semErrs` for the finding order. -/
def semValidateTaskGraph (graph : TaskGraph) (seedOrd memOrd : List String)
    (result : ValidationResult) : ValidationResult :=
  let result := { result with Stats := { result.Stats with TotalTasks := graph.Tasks.length } }
  addErrors result (semErrs graph seedOrd memOrd)

/-! ## Tier 1 conversion (`internal/validator/schema.go`)

The JSON-Schema engine itself is an external library; what the repository
owns is the conversion of its result into `ValidationError`s.  The engine's
`GetDetailedErrors()` map is modelled as a list of `(path, message)` pairs
*in iteration order* (Go map order, unspecified), handed in as input. -/

/-- `generateSchemaSuggestion` — actionable fix advice from the JSON path
and error message. -/
def generateSchemaSuggestion (path msg : String) : String :=
  let lowerMsg := toLowerGo msg
  if containsSub lowerMsg "required" then
    "Add the missing required field at \x27" ++ path ++ "\x27. Check the spec\x27s Quick Reference (Appendix A) for the expected format."
  else if containsSub lowerMsg "pattern" then
    (if containsSub path "task_id" then
      "task_id must be kebab-case (lowercase letters, numbers, hyphens). Example: \x27my-task-name\x27. Pattern: ^[a-z0-9]+(-[a-z0-9]+)*$"
     else
      "The value at \x27" ++ path ++ "\x27 does not match the required pattern. Check the schema for the expected format.")
  else if containsSub lowerMsg "enum" || containsSub lowerMsg "const" then
    "The value at \x27" ++ path ++ "\x27 must be one of the allowed values. Check the schema definition for valid options."
  else if containsSub lowerMsg "maxlength" || containsSub lowerMsg "maximum" then
    "The value at \x27" ++ path ++ "\x27 exceeds the maximum length. Shorten it."
  else if containsSub lowerMsg "minlength" || containsSub lowerMsg "minimum" then
    "The value at \x27" ++ path ++ "\x27 is too short or empty. Provide a meaningful value."
  else if containsSub lowerMsg "minitems" then
    "The array at \x27" ++ path ++ "\x27 must have at least one item. Add the required elements."
  else if containsSub lowerMsg "additional" then
    "The field at \x27" ++ path ++ "\x27 is not recognized. Remove it or check for typos. Valid fields are listed in the schema."
  else if containsSub lowerMsg "type" then
    "The value at \x27" ++ path ++ "\x27 has the wrong type. Check the schema for the expected type (string, array, object, etc.)."
  else if containsSub lowerMsg "oneof" then
    "The value at \x27" ++ path ++ "\x27 must match exactly one of the allowed schemas. Check the spec for valid formats."
  else ""

/-- `convertSchemaErrors` — translates the engine's detailed errors (in map
iteration order) into SCHEMA/ERROR findings. -/
def schemaErrList (findings : List (String × String)) : List ValidationError :=
  findings.map (fun pm =>
    let path := if pm.1 = "" then "$" else pm.1
    { Rule := "SCHEMA", Severity := SeverityError, Path := path,
      Message := pm.2, Suggestion := generateSchemaSuggestion path pm.2 })

/-- See `schemaErrList` for the finding shape. -/
def convertSchemaErrors (findings : List (String × String))
    (result : ValidationResult) : ValidationResult :=
  addErrors result (schemaErrList findings)

/-! ## Orchestrator (`internal/validator/validate.go`) -/

/-- `Mode` — single task vs. full graph (the Go `default` case for an
out-of-range integer mode is unreachable with a two-constructor type). -/
inductive Mode where
  | singleTask
  | taskGraph
  deriving DecidableEq, Repr, Inhabited

/-- What `Validate` observes of its input bytes:

* `schemaFindings` — the detailed errors of the Tier 1 JSON-Schema engine
  for these bytes (empty iff the schema accepts), in map iteration order;
* `parsedTask` / `parsedGraph` — the result of `json.Unmarshal` into the
  document model (`none` models an unmarshal error), for whichever mode is
  used.

Two invocations on the same bytes get the same `parsedTask`/`parsedGraph`
and a `schemaFindings` list with the same *elements*, but Go's map
iteration order — like the `seedOrd`/`memOrd` orders of
`checkDAGAcyclicity` — may differ between the runs. -/
structure InputModel where
  schemaFindings : List (String × String) := []
  parsedTask : Option TaskNode := none
  parsedGraph : Option TaskGraph := none

/-- `Validate` — full Tier 1 + Tier 2 validation.  Tier 2 runs only when
the result is still valid after Tier 1, and the parsed graph is attached
only when the result is still valid after Tier 2. -/
def Validate (inp : InputModel) (mode : Mode) (seedOrd memOrd : List String) :
    Except String ValidationResult :=
  let result : ValidationResult := { Valid := true }
  match mode with
  | .singleTask =>
      let r1 := convertSchemaErrors inp.schemaFindings result
      if r1.Valid then
        match inp.parsedTask with
        | none => .error "parsing task node"
        | some task =>
            let graph : TaskGraph := { Version := "0.1.0", Tasks := [task] }
            let r2 := semValidateTaskGraph graph seedOrd memOrd r1
            .ok (if r2.Valid then { r2 with Graph := some graph } else r2)
      else .ok r1
  | .taskGraph =>
      let r1 := convertSchemaErrors inp.schemaFindings result
      if r1.Valid then
        match inp.parsedGraph with
        | none => .error "parsing task graph"
        | some graph =>
            let r2 := semValidateTaskGraph graph seedOrd memOrd r1
            .ok (if r2.Valid then { r2 with Graph := some graph } else r2)
      else .ok r1

/-! ## Command execution (`internal/beads/exec.go`)

Each loop iteration of `ExecuteCommands` makes exactly one blocking
subprocess invocation (`runBdCommand`).  The external world is modelled by
an *oracle* mapping the invocation number to the subprocess outcome
(captured stdout, or a nonzero exit with captured stderr and the Go error's
text).  For verification the executor also keeps ghost fields — the list of
invocations actually performed and the read/write events on the
substitution table — which do not influence the computation. -/

/-- The outcome of one `bd` subprocess invocation. -/
inductive ExecOutcome where
  | ok (stdout : String)
  | fail (stderr errText : String)
  deriving DecidableEq, Repr, Inhabited

/-- `runBdCommand` — returns the trimmed stdout (the issue ID printed by
`--silent`), or an error carrying the trimmed stderr (falling back to the
Go error text when stderr is blank). -/
def runBdCommand (outcome : ExecOutcome) : Except String String :=
  match outcome with
  | .ok stdout => .ok (trimSpaceGo stdout)
  | .fail stderr errText =>
      let errMsg := trimSpaceGo stderr
      .error (if errMsg = "" then errText else errMsg)

/-- `DepLink` — a dependency relationship between two beads issues. -/
structure DepLink where
  TaskBdID : String := ""
  DepBdID : String := ""
  deriving DecidableEq, Repr, Inhabited

/-- `CreationResult` — the outcome of a beads creation operation.  The Go
`map[string]string` fields are modelled as insertion-ordered association
lists (they are only ever written by key and read by key). -/
structure CreationResult where
  EpicID : String := ""
  EpicTitle : String := ""
  TaskIDs : List (String × String) := []
  TaskTitles : List (String × String) := []
  Commands : List String := []
  Created : Nat := 0
  Deps : Nat := 0
  DepsDetail : List DepLink := []
  deriving DecidableEq, Repr, Inhabited

/-- Go map assignment `m[k] = v` on an association list. -/
def goMapSet (m : List (String × String)) (k v : String) : List (String × String) :=
  if m.any (·.1 == k) then m.map (fun p => if p.1 == k then (k, v) else p)
  else m ++ [(k, v)]

/-- Go map read `m[k]` (missing key gives the zero value `""`). -/
def goMapGet (m : List (String × String)) (k : String) : String :=
  ((m.find? (·.1 == k)).map (·.2)).getD ""

/-- `replaceIDs` — substitutes placeholder IDs in command arguments.  The
Go loop ranges over the `idMap` map (checking `strings.Contains` against
the *original* argument, then `strings.ReplaceAll` on the accumulated
value); the iteration order is modelled as insertion order here. -/
def replaceIDs (args : List String) (idMap : List (String × String)) : List String :=
  args.map (fun a =>
    idMap.foldl (fun acc p => if containsSub a p.1 then replaceAllGo acc p.1 p.2 else acc) a)

/-- The Go loop
`for i, a := range cmd.Args { if a == "--title" && i+1 < len(cmd.Args) { … break } }`:
the value after the first `"--title"` that has a successor. -/
def extractTitle : List String → Option String
  | [] => none
  | "--title" :: v :: _ => some v
  | _ :: rest => extractTitle rest

/-- The executor's state: the result under construction, the placeholder
substitution table, and the ghost instrumentation (performed invocations,
and write/read events on the table tagged with the command index). -/
structure ExecState where
  result : CreationResult := {}
  idMap : List (String × String) := []
  trace : List (List String) := []
  writes : List (String × Nat) := []
  reads : List (String × Nat) := []
  deriving DecidableEq, Repr, Inhabited

/-- The per-command success bookkeeping of `ExecuteCommands` (the
`switch cmd.Type` plus the `result.Commands` append). -/
def execRecord (cmd : BdCommand) (i : Nat) (args : List String) (bdID : String)
    (st : ExecState) : ExecState :=
  let st :=
    if cmd.Type' = "create-epic" then
      { st with
        result := { st.result with
          EpicID := bdID,
          EpicTitle := (extractTitle cmd.Args).getD st.result.EpicTitle,
          Created := st.result.Created + 1 },
        idMap := goMapSet st.idMap "<epic-id>" bdID,
        writes := st.writes ++ [("<epic-id>", i)] }
    else if cmd.Type' = "create-task" then
      let key := "<" ++ cmd.TaskID ++ "-id>"
      { st with
        result := { st.result with
          TaskIDs := goMapSet st.result.TaskIDs cmd.TaskID bdID,
          TaskTitles :=
            match extractTitle cmd.Args with
            | some t => goMapSet st.result.TaskTitles cmd.TaskID t
            | none => st.result.TaskTitles,
          Created := st.result.Created + 1 },
        idMap := goMapSet st.idMap key bdID,
        writes := st.writes ++ [(key, i)] }
    else if cmd.Type' = "dep-add" then
      let k1 := "<" ++ cmd.DepTaskID ++ "-id>"
      let k2 := "<" ++ cmd.DepOnID ++ "-id>"
      { st with
        result := { st.result with
          Deps := st.result.Deps + 1,
          DepsDetail := st.result.DepsDetail
            ++ [{ TaskBdID := goMapGet st.idMap k1, DepBdID := goMapGet st.idMap k2 }] },
        reads := st.reads ++ [(k1, i), (k2, i)] }
    else st
  { st with result := { st.result with
      Commands := st.result.Commands ++ ["bd " ++ String.intercalate " " args] } }

/-- The command loop of `ExecuteCommands`: substitute placeholders, invoke
the subprocess, stop with the contextual error on the first failure,
otherwise record and continue. -/
def execLoop (oracle : Nat → ExecOutcome) :
    List BdCommand → Nat → ExecState → ExecState × Option String
  | [], _, st => (st, none)
  | cmd :: rest, i, st =>
      let args := replaceIDs cmd.Args st.idMap
      let st1 := { st with trace := st.trace ++ [args] }
      match runBdCommand (oracle i) with
      | .error e =>
          (st1, some ("bd command failed: bd " ++ String.intercalate " " args
            ++ "\n  Error: " ++ e ++ "\n  " ++ toString st1.result.Created
            ++ " issues created before failure"))
      | .ok bdID => execLoop oracle rest (i + 1) (execRecord cmd i args bdID st1)

/-- `ExecuteCommands` — runs the bd commands sequentially against the
oracle and builds the `CreationResult`; returns the final state (result
plus ghost instrumentation) and the error of the first failing command, if
any. -/
def ExecuteCommands (oracle : Nat → ExecOutcome) (cmds : List BdCommand) :
    ExecState × Option String :=
  execLoop oracle cmds 0 {}

/-! ## Basic facts about the field mappings -/

/-- `MapPriority` only produces the four bd priorities. -/
theorem MapPriority_mem (p : String) : MapPriority p ∈ [0, 1, 2, 3] := by
  simp only [MapPriority]
  split_ifs <;> simp

/-- A positive estimate is one of the four known durations. -/
theorem MapEstimate_mem_of_pos (e : String) (h : 0 < MapEstimate e) :
    MapEstimate e ∈ [15, 60, 240, 480] := by
  simp only [MapEstimate] at h ⊢
  split_ifs at h ⊢ <;> simp_all

/-- `MapEstimate` is positive exactly on the four known estimate strings
(case-insensitively). -/
theorem MapEstimate_pos_iff (e : String) :
    0 < MapEstimate e ↔ toLowerGo e ∈ ["trivial", "small", "medium", "large"] := by
  simp only [MapEstimate]
  split_ifs with h1 h2 h3 h4 <;> simp_all

/-! ## Fold-min characterization for `resolveGraphPriority` -/

/-- A `foldl min` never exceeds its initial accumulator. -/
theorem foldlMin_le_init {α : Type} (f : α → Nat) :
    ∀ (l : List α) (a : Nat), l.foldl (fun b x => min b (f x)) a ≤ a := by
  intro l
  induction l with
  | nil => intro a; exact Nat.le_refl a
  | cons x xs ih =>
      intro a
      exact Nat.le_trans (ih (min a (f x))) (Nat.min_le_left _ _)

/-- A `foldl min` is below every mapped element. -/
theorem foldlMin_le_mem {α : Type} (f : α → Nat) :
    ∀ (l : List α) (a : Nat) (x : α), x ∈ l → l.foldl (fun b y => min b (f y)) a ≤ f x := by
  intro l
  induction l with
  | nil => intro a x hx; cases hx
  | cons y ys ih =>
      intro a x hx
      rcases List.mem_cons.mp hx with h | h
      · subst h
        exact Nat.le_trans (foldlMin_le_init f ys (min a (f x))) (Nat.min_le_right _ _)
      · exact ih (min a (f y)) x h

/-- A `foldl min` is the initial accumulator or one of the mapped
elements. -/
theorem foldlMin_eq {α : Type} (f : α → Nat) :
    ∀ (l : List α) (a : Nat),
      l.foldl (fun b x => min b (f x)) a = a ∨
        ∃ x ∈ l, l.foldl (fun b x => min b (f x)) a = f x := by
  intro l
  induction l with
  | nil => intro a; exact Or.inl rfl
  | cons y ys ih =>
      intro a
      rw [List.foldl_cons]
      rcases ih (min a (f y)) with h | ⟨x, hx, hfx⟩
      · rcases Nat.le_total a (f y) with hle | hle
        · left
          rw [h, Nat.min_eq_left hle]
        · right
          exact ⟨y, List.mem_cons_self _ _, by rw [h, Nat.min_eq_right hle]⟩
      · exact Or.inr ⟨x, List.mem_cons_of_mem _ hx, hfx⟩

/-- **C10.** The epic create command's `--priority` value is the minimum
over all tasks of the mapped task priority, capped at 2: the epic command
is the head of `BuildGraphCommands` with exactly that priority rendered,
the resolved priority never exceeds 2, an empty graph (or one whose tasks
all map to 2 or more) yields 2, and otherwise the priority is the exact
minimum attained by some task. -/
theorem buildGraphCommands_epic_priority (c : Creator) (graph : TaskGraph) :
    (∃ rest, c.BuildGraphCommands graph
        = { Args := ["create", "--title", c.resolveEpicTitle graph, "--type", "epic",
                     "--priority", toString (c.resolveGraphPriority graph),
                     "--labels", "taskval-managed", "--silent"],
            Type' := "create-epic" } :: rest)
    ∧ c.resolveGraphPriority graph ≤ 2
    ∧ (graph.Tasks = [] → c.resolveGraphPriority graph = 2)
    ∧ (∀ t ∈ graph.Tasks, c.resolveGraphPriority graph ≤ MapPriority t.Priority)
    ∧ (c.resolveGraphPriority graph = 2
        ∨ ∃ t ∈ graph.Tasks, c.resolveGraphPriority graph = MapPriority t.Priority) := by
  refine ⟨⟨_, rfl⟩, ?_, ?_, ?_, ?_⟩
  · exact foldlMin_le_init _ graph.Tasks 2
  · intro h
    unfold Creator.resolveGraphPriority
    rw [h]
    rfl
  · intro t ht
    exact foldlMin_le_mem _ graph.Tasks 2 t ht
  · exact foldlMin_eq _ graph.Tasks 2

/-- **C10 witness** at a concrete two-task graph (one `high` task lowers
the epic priority to 1). -/
theorem buildGraphCommands_epic_priority_witness :
    (let g : TaskGraph :=
      { Version := "0.1.0",
        Tasks := [{ TaskID := "task-a", Priority := "high" },
                  { TaskID := "task-b", Priority := "low" }] }
     ({} : Creator).resolveGraphPriority g = 1
      ∧ (∃ rest, ({} : Creator).BuildGraphCommands g
          = { Args := ["create", "--title", ({} : Creator).resolveEpicTitle g, "--type", "epic",
                       "--priority", toString (({} : Creator).resolveGraphPriority g),
                       "--labels", "taskval-managed", "--silent"],
              Type' := "create-epic" } :: rest)) := by
  refine ⟨by decide, (buildGraphCommands_epic_priority {} _).1⟩

/-- **C8.** The create command contains the `--estimate` flag iff the
task's estimate is, case-insensitively, one of `trivial`/`small`/`medium`/
`large`; when present the flag's value is the mapped minute count (one of
15/60/240/480), and for any other estimate (including `unknown` and the
empty string) the flag is omitted entirely.  The collision hypotheses rule
out the free-text fields accidentally being the literal string
`"--estimate"` (which would make flag membership ambiguous). -/
theorem buildTaskCreateArgs_estimate (c : Creator) (task : TaskNode) (parentID : String)
    (hTitle : truncate task.TaskName 500 ≠ "--estimate")
    (hDesc : ComposeDescription task ≠ "--estimate")
    (hAcc : FormatAcceptance task.Acceptance ≠ "--estimate")
    (hNotes : task.Notes ≠ "--estimate")
    (hParent : parentID ≠ "--estimate") :
    ("--estimate" ∈ c.buildTaskCreateArgs task parentID
        ↔ toLowerGo task.Estimate ∈ ["trivial", "small", "medium", "large"])
    ∧ (0 < MapEstimate task.Estimate →
        ∃ l r, c.buildTaskCreateArgs task parentID
            = l ++ ["--estimate", toString (MapEstimate task.Estimate)] ++ r
          ∧ MapEstimate task.Estimate ∈ [15, 60, 240, 480]) := by
  have hT := Ne.symm hTitle
  have hD := Ne.symm hDesc
  have hA := Ne.symm hAcc
  have hN := Ne.symm hNotes
  have hP := Ne.symm hParent
  have hpr : ("--estimate" : String) ≠ toString (MapPriority task.Priority) := by
    have h := MapPriority_mem task.Priority
    simp only [List.mem_cons, List.not_mem_nil, or_false] at h
    rcases h with h | h | h | h <;> rw [h] <;> decide
  constructor
  · rw [← MapEstimate_pos_iff]
    simp only [Creator.buildTaskCreateArgs]
    split_ifs with h1 h2 h3 h4 <;>
      simp_all [List.mem_append, Nat.pos_iff_ne_zero]
  · intro hpos
    refine ⟨["create", "--title", truncate task.TaskName 500, "--type", "task",
             "--description", ComposeDescription task]
            ++ (if FormatAcceptance task.Acceptance ≠ "" then
                  ["--acceptance", FormatAcceptance task.Acceptance] else [])
            ++ ["--priority", toString (MapPriority task.Priority)],
           (if task.Notes ≠ "" then ["--notes", task.Notes] else [])
            ++ (if parentID ≠ "" then ["--parent", parentID] else [])
            ++ ["--labels", "taskval-managed", "--silent"], ?_,
           MapEstimate_mem_of_pos task.Estimate hpos⟩
    simp only [Creator.buildTaskCreateArgs]
    simp [List.append_assoc, hpos]

/-- **C8 witness** at a concrete task with estimate `"Small"`. -/
theorem buildTaskCreateArgs_estimate_witness :
    (let task : TaskNode :=
       { TaskID := "w-task", TaskName := "Do the thing", Goal := "The thing is done.",
         Estimate := "Small", Priority := "high", Acceptance := ["It returns 42"] }
     (truncate task.TaskName 500 ≠ "--estimate"
        ∧ ComposeDescription task ≠ "--estimate"
        ∧ FormatAcceptance task.Acceptance ≠ "--estimate"
        ∧ task.Notes ≠ "--estimate"
        ∧ ("" : String) ≠ "--estimate")
      ∧ (("--estimate" ∈ ({} : Creator).buildTaskCreateArgs task ""
            ↔ toLowerGo task.Estimate ∈ ["trivial", "small", "medium", "large"])
          ∧ (0 < MapEstimate task.Estimate →
              ∃ l r, ({} : Creator).buildTaskCreateArgs task ""
                  = l ++ ["--estimate", toString (MapEstimate task.Estimate)] ++ r
                ∧ MapEstimate task.Estimate ∈ [15, 60, 240, 480]))) :=
  ⟨⟨by decide, by decide, by decide, by decide, by decide⟩,
   buildTaskCreateArgs_estimate {} _ ""
     (by decide) (by decide) (by decide) (by decide) (by decide)⟩

/-! ## C6: the index cited by a duplicate-id finding -/

/-- The most recent occurrence of `id` strictly before position `i` in
`ids`. -/
def lastBelow (ids : List String) (i : Nat) (id : String) : Option Nat :=
  ((List.range i).filter (fun j => ids[j]? = some id)).getLast?

/-- Spec-side description of the V2 findings (this is the *amended* claim:
the cited index is the most recent previous occurrence, which coincides
with the first occurrence only while there are at most two occurrences):
walking the tasks from position `n`, each task whose id occurs strictly
earlier in `ids` yields one finding citing `lastBelow`. -/
def dupErrsSpec (ids : List String) : Nat → List TaskNode → List ValidationError
  | _, [] => []
  | n, t :: rest =>
      (match lastBelow ids n t.TaskID with
       | some prev => [dupIDError n t.TaskID prev]
       | none => []) ++ dupErrsSpec ids (n + 1) rest

theorem lastBelow_succ (ids : List String) (n : Nat) (id : String) :
    lastBelow ids (n + 1) id
      = if ids[n]? = some id then some n else lastBelow ids n id := by
  unfold lastBelow
  rw [show List.range (n + 1) = List.range n ++ [n] by simpa using List.range_succ n,
      List.filter_append]
  by_cases h : ids[n]? = some id
  · simp [h]
  · simp [h]

theorem lastBelow_zero (ids : List String) (id : String) :
    lastBelow ids 0 id = none := rfl

/-- The `checkUniqueTaskIDs` loop, related to `dupErrsSpec`: if `seen` is
exactly the most-recent-occurrence map for the first `n` positions and the
remaining tasks sit at positions `n, n+1, …` of `ids`, the loop emits the
spec's findings. -/
theorem checkUnique_loop (ids : List String) :
    ∀ (rest : List TaskNode) (n : Nat) (seen : String → Option Nat)
      (errs : List ValidationError),
      (∀ id, seen id = lastBelow ids n id) →
      ids.drop n = taskIDs rest →
      ((List.enumFrom n rest).foldl uniqueStep (seen, errs)).2
        = errs ++ dupErrsSpec ids n rest := by
  intro rest
  induction rest with
  | nil => intro n seen errs _ _; simp [dupErrsSpec]
  | cons t rest ih =>
      intro n seen errs hseen hdrop
      have hget : ids[n]? = some t.TaskID := by
        have h0 : (ids.drop n)[0]? = some t.TaskID := by
          rw [hdrop]
          simp [taskIDs]
        rwa [List.getElem?_drop, Nat.add_zero] at h0
      have hdrop' : ids.drop (n + 1) = taskIDs rest := by
        have h1 : ids.drop (n + 1) = (ids.drop n).drop 1 := by
          rw [List.drop_drop, Nat.add_comm]
        rw [h1, hdrop]
        rfl
      have hseen' : ∀ id, updFn seen t.TaskID (some n) id = lastBelow ids (n + 1) id := by
        intro id
        unfold updFn
        by_cases hid : id = t.TaskID
        · subst hid
          rw [lastBelow_succ, if_pos rfl, if_pos hget]
        · rw [if_neg hid, lastBelow_succ, if_neg (by
            rw [hget]
            intro hcon
            exact hid (Option.some.injEq _ _ ▸ hcon).symm), hseen id]
      rw [show List.enumFrom n (t :: rest) = (n, t) :: List.enumFrom (n + 1) rest by
            simp [List.enumFrom],
          List.foldl_cons]
      rcases hlb : lastBelow ids n t.TaskID with _ | prev
      · have hstep : uniqueStep (seen, errs) (n, t) = (updFn seen t.TaskID (some n), errs) := by
          simp [uniqueStep, hseen t.TaskID, hlb]
        rw [hstep, ih (n + 1) _ _ hseen' hdrop']
        simp [dupErrsSpec, hlb]
      · have hstep : uniqueStep (seen, errs) (n, t)
            = (updFn seen t.TaskID (some n), errs ++ [dupIDError n t.TaskID prev]) := by
          simp [uniqueStep, hseen t.TaskID, hlb]
        rw [hstep, ih (n + 1) _ _ hseen' hdrop']
        simp [dupErrsSpec, hlb, List.append_assoc]

/-- **C6 (amended).** Each task whose `task_id` equals the id of some
earlier task produces exactly one V2 ERROR, and the error cites the *most
recent* previous occurrence of that id (for exactly two occurrences this is
the first occurrence; from the third occurrence on it is not). -/
theorem checkUniqueTaskIDs_mostRecent (graph : TaskGraph) :
    checkUniqueTaskIDs graph = dupErrsSpec (taskIDs graph.Tasks) 0 graph.Tasks := by
  unfold checkUniqueTaskIDs
  have h := checkUnique_loop (taskIDs graph.Tasks) graph.Tasks 0
    (fun _ => none) [] (fun id => (lastBelow_zero _ id).symm) rfl
  simpa [List.enum] using h

/-- **C6 counterexample.**  With three occurrences of the same id, the
finding at `tasks[2]` cites `tasks[1]` — the most recent previous
occurrence — and not `tasks[0]`, the first occurrence, contradicting the
claim that the message identifies the first occurrence "for every number of
duplicate occurrences". -/
theorem checkUniqueTaskIDs_counterexample :
    (checkUniqueTaskIDs { Tasks := [{ TaskID := "a" }, { TaskID := "a" }, { TaskID := "a" }] }).map
        (fun e => e.Message)
      = ["Duplicate task_id \x27a\x27 — first occurrence at tasks[0].",
         "Duplicate task_id \x27a\x27 — first occurrence at tasks[1]."]
    ∧ ¬ (∀ e ∈ checkUniqueTaskIDs
            { Tasks := [{ TaskID := "a" }, { TaskID := "a" }, { TaskID := "a" }] },
          containsSub e.Message "at tasks[0]" = true) := by
  constructor
  · decide
  · decide

/-! ## C7: when the V10 files-scope warning fires -/

/-- Spec-side description of the V10 findings as the code actually behaves
(the *amended* claim): a warning fires iff the task name starts with an
implementation verb **and** `files_scope` is absent or JSON `null`.  In
particular an *empty* files list (`[]`), an N/A marker, or an unparseable
value each suppress the warning. -/
def filesScopeWarnSpec (graph : TaskGraph) : List ValidationError :=
  graph.Tasks.enum.flatMap (fun p =>
    if (implVerbs.any (fun verb => hasPrefixGo (toLowerGo p.2.TaskName) verb))
        ∧ (p.2.FilesScope = RawField.absent ∨ p.2.FilesScope = RawField.nullLit) then
      [filesScopeWarning p.1 p.2.TaskID]
    else [])

/-- **C7 (amended).** The V10 warning fires for exactly the
implementation-verb tasks whose `files_scope` is absent or JSON `null`. -/
theorem checkFilesScope_characterization (graph : TaskGraph) :
    checkFilesScope graph = filesScopeWarnSpec graph := by
  unfold checkFilesScope filesScopeWarnSpec
  congr 1
  funext p
  by_cases himpl : implVerbs.any (fun verb => hasPrefixGo (toLowerGo p.2.TaskName) verb)
  · rw [himpl]
    rcases hfs : p.2.FilesScope with _ | _ | xs | ⟨st, re, raw⟩ | raw <;>
      simp_all [TaskNode.ParseFilesScope, hfs] <;>
      split_ifs <;>
      simp_all
  · simp only [himpl]
    have : (implVerbs.any (fun verb => hasPrefixGo (toLowerGo p.2.TaskName) verb)) = false := by
      simpa using himpl
    simp [this]

/-- **C7 counterexample.**  A task named `"Implement X"` whose
`files_scope` is the *empty* list `[]` — neither a populated list nor an
N/A marker, so the claim demands a V10 warning — produces no finding at
all: the decoded empty list is a non-nil Go slice, which suppresses the
warning. -/
theorem checkFilesScope_counterexample :
    (hasPrefixGo (toLowerGo "Implement X") "implement" = true
      ∧ ({ TaskID := "t1", TaskName := "Implement X",
           FilesScope := RawField.strList [] : TaskNode }).FilesScope
          ≠ RawField.naObj "N/A" "r" "raw"
      ∧ (RawField.strList [] : RawField) ≠ RawField.strList ["a.go"])
    ∧ checkFilesScope
        { Tasks := [{ TaskID := "t1", TaskName := "Implement X",
                      FilesScope := RawField.strList [] }] } = [] := by
  constructor
  · refine ⟨by decide, by decide, by decide⟩
  · decide

/-! ## Accumulation lemmas for `AddError`/`addErrors` -/

theorem AddError_Errors (vr : ValidationResult) (ve : ValidationError) :
    (vr.AddError ve).Errors = vr.Errors ++ [ve] := by
  unfold ValidationResult.AddError
  split_ifs <;> rfl

theorem AddError_Graph (vr : ValidationResult) (ve : ValidationError) :
    (vr.AddError ve).Graph = vr.Graph := by
  unfold ValidationResult.AddError
  split_ifs <;> rfl

theorem AddError_Valid (vr : ValidationResult) (ve : ValidationError) :
    (vr.AddError ve).Valid = (vr.Valid && !(ve.Severity == SeverityError)) := by
  unfold ValidationResult.AddError
  split_ifs with h1 h2 h3 <;> simp_all

theorem AddError_Stats (vr : ValidationResult) (ve : ValidationError) :
    (vr.AddError ve).Stats
      = { TotalTasks := vr.Stats.TotalTasks,
          ErrorCount := vr.Stats.ErrorCount + (if ve.Severity = SeverityError then 1 else 0),
          WarningCount := vr.Stats.WarningCount + (if ve.Severity = SeverityWarning then 1 else 0),
          InfoCount := vr.Stats.InfoCount + (if ve.Severity = SeverityInfo then 1 else 0) } := by
  unfold ValidationResult.AddError
  split_ifs with h1 h2 h3 <;> simp_all [SeverityError, SeverityWarning, SeverityInfo]

theorem addErrors_Errors (errs : List ValidationError) :
    ∀ vr : ValidationResult, (addErrors vr errs).Errors = vr.Errors ++ errs := by
  induction errs with
  | nil => intro vr; simp [addErrors]
  | cons e es ih =>
      intro vr
      show (addErrors (vr.AddError e) es).Errors = _
      rw [ih, AddError_Errors]
      simp

theorem addErrors_Graph (errs : List ValidationError) :
    ∀ vr : ValidationResult, (addErrors vr errs).Graph = vr.Graph := by
  induction errs with
  | nil => intro vr; rfl
  | cons e es ih =>
      intro vr
      show (addErrors (vr.AddError e) es).Graph = _
      rw [ih, AddError_Graph]

theorem addErrors_Valid (errs : List ValidationError) :
    ∀ vr : ValidationResult,
      (addErrors vr errs).Valid = (vr.Valid && errs.all (fun e => !(e.Severity == SeverityError))) := by
  induction errs with
  | nil => intro vr; simp [addErrors]
  | cons e es ih =>
      intro vr
      show (addErrors (vr.AddError e) es).Valid = _
      rw [ih, AddError_Valid]
      simp [Bool.and_assoc]

theorem addErrors_TotalTasks (errs : List ValidationError) :
    ∀ vr : ValidationResult, (addErrors vr errs).Stats.TotalTasks = vr.Stats.TotalTasks := by
  induction errs with
  | nil => intro vr; rfl
  | cons e es ih =>
      intro vr
      show (addErrors (vr.AddError e) es).Stats.TotalTasks = _
      rw [ih, AddError_Stats]

/-- Every schema finding carries rule `SCHEMA` and severity ERROR. -/
theorem schemaErrList_shape (findings : List (String × String)) :
    ∀ e ∈ schemaErrList findings, e.Rule = "SCHEMA" ∧ e.Severity = SeverityError := by
  intro e he
  rcases List.mem_map.mp he with ⟨pm, _, rfl⟩
  exact ⟨rfl, rfl⟩

/-- The bool-level "no ERROR finding" test agrees with the propositional
one. -/
theorem all_noError_iff (errs : List ValidationError) :
    errs.all (fun e => !(e.Severity == SeverityError)) = true
      ↔ ∀ e ∈ errs, e.Severity ≠ SeverityError := by
  simp [List.all_eq_true]

/-! ## C3: Tier 1 failure gates Tier 2 -/

/-- **C3.** If Tier 1 records at least one schema finding, `Validate`
returns (without error) a result all of whose findings have rule `SCHEMA` —
no Tier 2 finding is present, in any mode — and no parsed graph is ever
attached. -/
theorem validate_schema_gate (inp : InputModel) (mode : Mode) (seedOrd memOrd : List String)
    (h : inp.schemaFindings ≠ []) :
    ∃ r, Validate inp mode seedOrd memOrd = .ok r
      ∧ r.Graph = none
      ∧ r.Errors ≠ []
      ∧ ∀ e ∈ r.Errors, e.Rule = "SCHEMA" := by
  have hne : schemaErrList inp.schemaFindings ≠ [] := by
    intro hcon
    exact h (List.map_eq_nil.mp hcon)
  have hvalid : (convertSchemaErrors inp.schemaFindings { Valid := true }).Valid = false := by
    unfold convertSchemaErrors
    rw [addErrors_Valid]
    rcases hsl : schemaErrList inp.schemaFindings with _ | ⟨e, es⟩
    · exact absurd hsl hne
    · have he : e.Severity = SeverityError :=
        (schemaErrList_shape inp.schemaFindings e (hsl ▸ List.mem_cons_self e es)).2
      simp [he]
  have herrs : (convertSchemaErrors inp.schemaFindings { Valid := true }).Errors
      = schemaErrList inp.schemaFindings := by
    unfold convertSchemaErrors
    rw [addErrors_Errors]
    rfl
  have hgraph : (convertSchemaErrors inp.schemaFindings { Valid := true }).Graph = none := by
    unfold convertSchemaErrors
    rw [addErrors_Graph]
  refine ⟨convertSchemaErrors inp.schemaFindings { Valid := true }, ?_, hgraph, ?_, ?_⟩
  · cases mode <;>
      simp only [Validate] <;>
      rw [if_neg (by rw [hvalid]; exact Bool.false_ne_true)]
  · rw [herrs]; exact hne
  · rw [herrs]
    intro e he
    exact (schemaErrList_shape inp.schemaFindings e he).1

/-- **C3 witness** at a concrete failing schema result. -/
theorem validate_schema_gate_witness :
    (({ schemaFindings := [("tasks[0].goal", "missing required field goal")] }
        : InputModel).schemaFindings ≠ [])
    ∧ ∃ r, Validate { schemaFindings := [("tasks[0].goal", "missing required field goal")] }
          .taskGraph [] [] = .ok r
        ∧ r.Graph = none
        ∧ r.Errors ≠ []
        ∧ ∀ e ∈ r.Errors, e.Rule = "SCHEMA" :=
  ⟨by decide,
   validate_schema_gate { schemaFindings := [("tasks[0].goal", "missing required field goal")] }
     .taskGraph [] [] (by decide)⟩

/-! ## C5: graph attached iff no ERROR finding -/

theorem convert_Valid (s : List (String × String)) (res : ValidationResult) :
    (convertSchemaErrors s res).Valid
      = (res.Valid && (schemaErrList s).all (fun e => !(e.Severity == SeverityError))) := by
  unfold convertSchemaErrors
  rw [addErrors_Valid]

theorem convert_Errors (s : List (String × String)) (res : ValidationResult) :
    (convertSchemaErrors s res).Errors = res.Errors ++ schemaErrList s := by
  unfold convertSchemaErrors
  rw [addErrors_Errors]

theorem convert_Graph (s : List (String × String)) (res : ValidationResult) :
    (convertSchemaErrors s res).Graph = res.Graph := by
  unfold convertSchemaErrors
  rw [addErrors_Graph]

theorem semValidate_Errors (g : TaskGraph) (so mo : List String) (res : ValidationResult) :
    (semValidateTaskGraph g so mo res).Errors = res.Errors ++ semErrs g so mo := by
  unfold semValidateTaskGraph
  rw [addErrors_Errors]

theorem semValidate_Graph (g : TaskGraph) (so mo : List String) (res : ValidationResult) :
    (semValidateTaskGraph g so mo res).Graph = res.Graph := by
  unfold semValidateTaskGraph
  rw [addErrors_Graph]

theorem semValidate_Valid (g : TaskGraph) (so mo : List String) (res : ValidationResult) :
    (semValidateTaskGraph g so mo res).Valid
      = (res.Valid && (semErrs g so mo).all (fun e => !(e.Severity == SeverityError))) := by
  unfold semValidateTaskGraph
  rw [addErrors_Valid]

/-- From a false `all no-error` test, extract an ERROR finding. -/
theorem exists_error_of_all_false (errs : List ValidationError)
    (h : errs.all (fun e => !(e.Severity == SeverityError)) = false) :
    ∃ e ∈ errs, e.Severity = SeverityError := by
  by_contra hcon
  push_neg at hcon
  rw [(all_noError_iff errs).mpr hcon] at h
  cases h

/-- The common Tier-2-and-attach tail of both `Validate` branches. -/
theorem validate_tail_iff (r1 : ValidationResult) (g : TaskGraph)
    (so mo : List String) (r : ValidationResult)
    (hr1v : r1.Valid = true)
    (hr1g : r1.Graph = none)
    (hr1e : ∀ e ∈ r1.Errors, e.Severity ≠ SeverityError)
    (h : (if (semValidateTaskGraph g so mo r1).Valid = true
          then { semValidateTaskGraph g so mo r1 with Graph := some g }
          else semValidateTaskGraph g so mo r1) = r) :
    (r.Graph ≠ none ↔ ∀ e ∈ r.Errors, e.Severity ≠ SeverityError) := by
  by_cases hv2 : (semValidateTaskGraph g so mo r1).Valid = true
  · rw [if_pos hv2] at h
    subst h
    have hall : (semErrs g so mo).all (fun e => !(e.Severity == SeverityError)) = true := by
      rw [semValidate_Valid, hr1v, Bool.true_and] at hv2
      exact hv2
    constructor
    · intro _ e he
      simp only [semValidate_Errors] at he
      rcases List.mem_append.mp he with h1 | h2
      · exact hr1e e h1
      · exact (all_noError_iff _).mp hall e h2
    · intro _
      simp
  · rw [if_neg hv2] at h
    subst h
    have hfalse : (semValidateTaskGraph g so mo r1).Valid = false :=
      Bool.eq_false_iff.mpr hv2
    rw [semValidate_Valid, hr1v, Bool.true_and] at hfalse
    rcases exists_error_of_all_false _ hfalse with ⟨e, he, hsev⟩
    constructor
    · intro hg
      exact absurd (semValidate_Graph g so mo r1 ▸ hr1g) hg
    · intro hall
      exact absurd (hall e (by
        rw [semValidate_Errors]
        exact List.mem_append_right _ he)) (by simp [hsev])

/-- **C5.** Whenever `Validate` returns a result, that result carries the
parsed `TaskGraph` (`Graph ≠ none`) exactly when no ERROR-severity finding
was recorded across both tiers; WARNING/INFO findings never block the
attachment. -/
theorem validate_graph_iff_no_error (inp : InputModel) (mode : Mode)
    (seedOrd memOrd : List String) (r : ValidationResult)
    (h : Validate inp mode seedOrd memOrd = .ok r) :
    (r.Graph ≠ none ↔ ∀ e ∈ r.Errors, e.Severity ≠ SeverityError) := by
  have hr1v := convert_Valid inp.schemaFindings { Valid := true }
  have hr1e := convert_Errors inp.schemaFindings { Valid := true }
  have hr1g := convert_Graph inp.schemaFindings { Valid := true }
  by_cases hv : (convertSchemaErrors inp.schemaFindings { Valid := true }).Valid = true
  · have hall1 : ∀ e ∈ schemaErrList inp.schemaFindings, e.Severity ≠ SeverityError := by
      have hv' := hv
      rw [hr1v, Bool.true_and] at hv'
      exact (all_noError_iff _).mp hv'
    have hr1err : ∀ e ∈ (convertSchemaErrors inp.schemaFindings { Valid := true }).Errors,
        e.Severity ≠ SeverityError := by
      intro e he
      rw [hr1e] at he
      rcases List.mem_append.mp he with h1 | h2
      · exact absurd h1 (List.not_mem_nil e)
      · exact hall1 e h2
    cases mode
    · simp only [Validate] at h
      rw [if_pos hv] at h
      cases hpt : inp.parsedTask with
      | none => rw [hpt] at h; cases h
      | some task =>
          rw [hpt] at h
          injection h with h
          exact validate_tail_iff _ _ _ _ _ hv hr1g hr1err h
    · simp only [Validate] at h
      rw [if_pos hv] at h
      cases hpg : inp.parsedGraph with
      | none => rw [hpg] at h; cases h
      | some g =>
          rw [hpg] at h
          injection h with h
          exact validate_tail_iff _ _ _ _ _ hv hr1g hr1err h
  · have hfalse : (convertSchemaErrors inp.schemaFindings { Valid := true }).Valid = false :=
      Bool.eq_false_iff.mpr hv
    rw [hr1v, Bool.true_and] at hfalse
    rcases exists_error_of_all_false _ hfalse with ⟨e, he, hsev⟩
    have hr : r = convertSchemaErrors inp.schemaFindings { Valid := true } := by
      cases mode <;>
        (simp only [Validate] at h
         rw [if_neg hv] at h
         injection h with h
         exact h.symm)
    subst hr
    constructor
    · intro hg
      exact absurd hr1g hg
    · intro hall
      exact absurd (hall e (by rw [hr1e]; exact List.mem_append_right _ he))
        (by simp [hsev])

/-- Decidable equality for `Except`, to state concrete `Validate` runs. -/
instance exceptDecEq {ε α : Type} [DecidableEq ε] [DecidableEq α] :
    DecidableEq (Except ε α) := fun a b =>
  match a, b with
  | .ok x, .ok y =>
      if h : x = y then .isTrue (by rw [h]) else .isFalse (fun hc => h (by injection hc))
  | .error x, .error y =>
      if h : x = y then .isTrue (by rw [h]) else .isFalse (fun hc => h (by injection hc))
  | .ok _, .error _ => .isFalse (by intro hc; cases hc)
  | .error _, .ok _ => .isFalse (by intro hc; cases hc)

/-- The result of a successful `Validate` run (default on the error path),
used to spell out concrete instances. -/
def validateForce (inp : InputModel) (mode : Mode) (seedOrd memOrd : List String) :
    ValidationResult :=
  match Validate inp mode seedOrd memOrd with
  | .ok r => r
  | .error _ => default

/-- A concrete well-formed one-task input used by several witnesses. -/
def wInp : InputModel :=
  { parsedGraph := some
      { Version := "0.1.0",
        Tasks := [{ TaskID := "w-task", TaskName := "Check it", Goal := "It is checked.",
                    DependsOn := .strList [], Constraints := .strList [],
                    FilesScope := .strList ["w.go"], Acceptance := ["Returns 7"] }] } }

/-- **C5 witness** at a concrete one-task graph (which validates cleanly,
so the graph is attached). -/
theorem validate_graph_iff_no_error_witness :
    Validate wInp .taskGraph ["w-task"] ["w-task"]
        = .ok (validateForce wInp .taskGraph ["w-task"] ["w-task"])
      ∧ ((validateForce wInp .taskGraph ["w-task"] ["w-task"]).Graph ≠ none
          ↔ ∀ e ∈ (validateForce wInp .taskGraph ["w-task"] ["w-task"]).Errors,
              e.Severity ≠ SeverityError) :=
  ⟨by decide,
   validate_graph_iff_no_error wInp .taskGraph ["w-task"] ["w-task"]
     (validateForce wInp .taskGraph ["w-task"] ["w-task"]) (by decide)⟩

/-! ## Kahn's algorithm: loop invariants

The program's in-degree counter of a node `v` always equals the number of
adjacency entries pointing at `v` from *not yet processed* keys
(`residSum`); this single algebraic invariant, together with the queue
discipline, yields everything the claims need: the emitted order respects
the edges, a node is left unprocessed only if one of its (transitive)
dependencies is, and the final state does not depend on the unspecified
map-iteration order used to seed the queue. -/

/-- The number of adjacency entries pointing at `v` from keys not yet in
`ordered`. -/
def residSum (adj : String → List String) (keys ordered : List String) (v : String) : Nat :=
  ((keys.filter (fun u => u ∉ ordered)).map (fun u => (adj u).count v)).sum

/-- The keys that are in neither `ordered` nor `queue` (the nodes that may
still be enqueued); together with the queue length this is the loop's
termination measure. -/
def freshCount (keys ordered queue : List String) : Nat :=
  ((keys.toFinset \ ordered.toFinset) \ queue.toFinset).card

/-- The loop invariant of Kahn's algorithm (`kahnLoop`), for fixed
adjacency `adj` and key set `keys`. -/
structure KahnInv (adj : String → List String) (keys : List String)
    (queue : List String) (indeg : String → Int) (ordered : List String) : Prop where
  nodupO : ordered.Nodup
  nodupQ : queue.Nodup
  disjQO : ∀ x ∈ queue, x ∉ ordered
  subO : ∀ x ∈ ordered, x ∈ keys
  subQ : ∀ x ∈ queue, x ∈ keys
  resid : ∀ v, indeg v = (residSum adj keys ordered v : Int)
  ready : ∀ v ∈ keys, indeg v = 0 → v ∈ ordered ∨ v ∈ queue
  qzero : ∀ v ∈ queue, indeg v = 0
  order : ∀ v ∈ ordered, ∀ u, v ∈ adj u →
    u ∈ ordered ∧ ordered.indexOf u < ordered.indexOf v

/-- Extracting an element from a filtered list as a permutation: if `p`
holds at `id` but `q` does not, and they agree elsewhere, filtering by `p`
is filtering by `q` plus the one element `id`. -/
theorem filter_mem_pop {α : Type} [DecidableEq α] :
    ∀ (l : List α), l.Nodup → ∀ id ∈ l, ∀ (p q : α → Bool), p id = true → q id = false →
      (∀ x, x ≠ id → p x = q x) → (l.filter p).Perm (id :: l.filter q) := by
  intro l
  induction l with
  | nil => intro _ id hid; cases hid
  | cons k ks ih =>
      intro hnd id hid p q hp hq hagree
      have hndk := (List.nodup_cons.mp hnd).1
      have hndks := (List.nodup_cons.mp hnd).2
      rcases List.mem_cons.mp hid with rfl | hid'
      · rw [List.filter_cons_of_pos hp, List.filter_cons_of_neg (by rw [hq]; exact Bool.false_ne_true)]
        have : ks.filter p = ks.filter q := by
          apply List.filter_congr
          intro x hx
          exact hagree x (fun hcon => hndk (hcon ▸ hx))
        rw [this]
      · have hkid : k ≠ id := fun hcon => hndk (hcon ▸ hid')
        have hIH := ih hndks id hid' p q hp hq hagree
        cases hpk : p k with
        | true =>
            rw [List.filter_cons_of_pos hpk,
                List.filter_cons_of_pos (by rw [← hagree k hkid]; exact hpk)]
            exact (hIH.cons k).trans (List.Perm.swap id k _)
        | false =>
            rw [List.filter_cons_of_neg (by rw [hpk]; exact Bool.false_ne_true),
                List.filter_cons_of_neg (by rw [← hagree k hkid, hpk]; exact Bool.false_ne_true)]
            exact hIH

/-- Processing one more key splits the residual count. -/
theorem residSum_pop (adj : String → List String) (keys ordered : List String)
    (hk : keys.Nodup) (id : String) (hid : id ∈ keys) (hnid : id ∉ ordered) (v : String) :
    residSum adj keys ordered v
      = residSum adj keys (ordered ++ [id]) v + (adj id).count v := by
  have hperm : (keys.filter (fun u => u ∉ ordered)).Perm
      (id :: keys.filter (fun u => u ∉ ordered ++ [id])) := by
    apply filter_mem_pop keys hk id hid
    · simpa using hnid
    · simp
    · intro x hx
      simp [List.mem_append, hx]
  unfold residSum
  rw [(hperm.map (fun u => (adj u).count v)).sum_eq]
  simp [Nat.add_comm]

/-- A zero residual count kills every single term. -/
theorem residSum_zero_term (adj : String → List String) (keys ordered : List String)
    (v : String) (h : residSum adj keys ordered v = 0)
    (u : String) (hu : u ∈ keys) (hnu : u ∉ ordered) : (adj u).count v = 0 := by
  unfold residSum at h
  rw [List.sum_eq_zero_iff] at h
  exact h _ (List.mem_map.mpr ⟨u, List.mem_filter.mpr ⟨hu, by simpa using hnu⟩, rfl⟩)

/-- A node with zero residual count has all its adjacency predecessors
among the processed keys. -/
theorem residSum_zero_pred (adj : String → List String) (keys ordered : List String)
    (hadj : ∀ u v, v ∈ adj u → u ∈ keys ∧ v ∈ keys)
    (v : String) (h : residSum adj keys ordered v = 0)
    (u : String) (hu : v ∈ adj u) : u ∈ ordered := by
  by_contra hnu
  have := residSum_zero_term adj keys ordered v h u (hadj u v hu).1 hnu
  rw [← List.count_pos_iff_mem] at hu
  omega

/-- The neighbor-visiting fold of one dequeue preserves the queue
discipline and turns the "residual plus pending visits" accounting into the
plain residual accounting for the extended `ordered'`. -/
theorem kahnStep_fold (adj : String → List String) (keys : List String)
    (id : String) (ordered' : List String)
    (hstatic : ∀ v ∈ ordered', residSum adj keys ordered' v = 0 ∧ v ∉ adj id) :
    ∀ (ws : List String) (indeg : String → Int) (queue : List String),
      (∀ w ∈ ws, w ∈ adj id ∧ w ∈ keys) →
      (∀ v, indeg v = (residSum adj keys ordered' v : Int) + (ws.count v : Int)) →
      queue.Nodup →
      (∀ x ∈ queue, x ∉ ordered') →
      (∀ x ∈ queue, x ∈ keys) →
      (∀ v ∈ queue, indeg v = 0) →
      (∀ v ∈ keys, indeg v = 0 → v ∈ ordered' ∨ v ∈ queue) →
      (∀ v, (ws.foldl kahnStepF (indeg, queue)).1 v = (residSum adj keys ordered' v : Int))
      ∧ (ws.foldl kahnStepF (indeg, queue)).2.Nodup
      ∧ (∀ x ∈ (ws.foldl kahnStepF (indeg, queue)).2, x ∉ ordered')
      ∧ (∀ x ∈ (ws.foldl kahnStepF (indeg, queue)).2, x ∈ keys)
      ∧ (∀ v ∈ (ws.foldl kahnStepF (indeg, queue)).2,
          (ws.foldl kahnStepF (indeg, queue)).1 v = 0)
      ∧ (∀ v ∈ keys, (ws.foldl kahnStepF (indeg, queue)).1 v = 0 →
          v ∈ ordered' ∨ v ∈ (ws.foldl kahnStepF (indeg, queue)).2)
      ∧ ((ws.foldl kahnStepF (indeg, queue)).2.length
            + freshCount keys ordered' (ws.foldl kahnStepF (indeg, queue)).2
          = queue.length + freshCount keys ordered' queue) := by
  intro ws
  induction ws with
  | nil =>
      intro indeg queue _ hA hB hC hD hE hF
      refine ⟨fun v => ?_, hB, hC, hD, hE, hF, rfl⟩
      have := hA v
      simpa using this
  | cons w ws ih =>
      intro indeg queue hws hA hB hC hD hE hF
      have hw := hws w (List.mem_cons_self w ws)
      have hwO : w ∉ ordered' := fun hcon => (hstatic w hcon).2 hw.1
      have hAw : indeg w = (residSum adj keys ordered' w : Int) + (ws.count w : Int) + 1 := by
        have := hA w
        rw [List.count_cons_self] at this
        push_cast at this ⊢
        omega
      have hwQ : w ∉ queue := by
        intro hcon
        have := hE w hcon
        omega
      rw [List.foldl_cons]
      have hstepf : kahnStepF (indeg, queue) w
          = (updFn indeg w (indeg w - 1),
             if indeg w - 1 = 0 then queue ++ [w] else queue) := rfl
      rw [hstepf]
      have hA' : ∀ v, updFn indeg w (indeg w - 1) v
          = (residSum adj keys ordered' v : Int) + (ws.count v : Int) := by
        intro v
        unfold updFn
        by_cases hv : v = w
        · subst hv
          rw [if_pos rfl, hAw]
          ring
        · rw [if_neg hv, hA v, List.count_cons_of_ne hv]
      by_cases hd : indeg w - 1 = 0
      · rw [if_pos hd]
        have hwFresh : w ∈ (keys.toFinset \ ordered'.toFinset) \ queue.toFinset := by
          simp only [Finset.mem_sdiff, List.mem_toFinset]
          exact ⟨⟨hw.2, hwO⟩, hwQ⟩
        have hmeasure : (queue ++ [w]).length + freshCount keys ordered' (queue ++ [w])
            = queue.length + freshCount keys ordered' queue := by
          have hset : (keys.toFinset \ ordered'.toFinset) \ (queue ++ [w]).toFinset
              = ((keys.toFinset \ ordered'.toFinset) \ queue.toFinset).erase w := by
            ext a
            simp only [Finset.mem_sdiff, List.mem_toFinset, List.mem_append,
              List.mem_singleton, Finset.mem_erase]
            tauto
          have hcard := Finset.card_erase_add_one hwFresh
          unfold freshCount
          rw [hset]
          simp only [List.length_append, List.length_singleton]
          omega
        have hres := ih (updFn indeg w (indeg w - 1)) (queue ++ [w])
          (fun w' hw' => hws w' (List.mem_cons_of_mem w hw'))
          hA'
          (by simp [List.nodup_append, hB, hwQ])
          (by
            intro x hx
            rcases List.mem_append.mp hx with hx | hx
            · exact hC x hx
            · rw [List.mem_singleton.mp hx]; exact hwO)
          (by
            intro x hx
            rcases List.mem_append.mp hx with hx | hx
            · exact hD x hx
            · rw [List.mem_singleton.mp hx]; exact hw.2)
          (by
            intro v hv
            rcases List.mem_append.mp hv with hv | hv
            · have hne : v ≠ w := fun hcon => hwQ (hcon ▸ hv)
              unfold updFn
              rw [if_neg hne]
              exact hE v hv
            · rw [List.mem_singleton.mp hv]
              unfold updFn
              rw [if_pos rfl]
              exact hd)
          (by
            intro v hv hz
            by_cases hvw : v = w
            · exact Or.inr (List.mem_append_right _ (by rw [hvw]; exact List.mem_singleton_self w))
            · have : indeg v = 0 := by
                have := hz
                unfold updFn at this
                rwa [if_neg hvw] at this
              rcases hF v hv this with h | h
              · exact Or.inl h
              · exact Or.inr (List.mem_append_left _ h))
        refine ⟨hres.1, hres.2.1, hres.2.2.1, hres.2.2.2.1, hres.2.2.2.2.1,
          hres.2.2.2.2.2.1, ?_⟩
        rw [hres.2.2.2.2.2.2, hmeasure]
      · rw [if_neg hd]
        exact ih (updFn indeg w (indeg w - 1)) queue
          (fun w' hw' => hws w' (List.mem_cons_of_mem w hw'))
          hA'
          hB hC hD
          (by
            intro v hv
            have hne : v ≠ w := fun hcon => hwQ (hcon ▸ hv)
            unfold updFn
            rw [if_neg hne]
            exact hE v hv)
          (by
            intro v hv hz
            by_cases hvw : v = w
            · exfalso
              have h2 := hz
              unfold updFn at h2
              rw [if_pos hvw] at h2
              exact hd h2
            · have : indeg v = 0 := by
                have := hz
                unfold updFn at this
                rwa [if_neg hvw] at this
              exact hF v hv this)

/-- `(l ++ [x]).indexOf x = l.length` when `x` is fresh. -/
theorem indexOf_append_self {α : Type} [DecidableEq α] (l : List α) (x : α) (h : x ∉ l) :
    (l ++ [x]).indexOf x = l.length := by
  induction l with
  | nil => simp
  | cons a l ih =>
      have hax : a ≠ x := fun hcon => h (hcon ▸ List.mem_cons_self a l)
      rw [List.cons_append, List.indexOf_cons_ne _ hax,
        ih (fun hc => h (List.mem_cons_of_mem a hc))]
      rfl

/-- One dequeue of the Kahn loop preserves the invariant for the extended
`ordered` list and decreases the termination measure by exactly one. -/
theorem kahn_pop (adj : String → List String) (keys : List String)
    (hkeys : keys.Nodup) (hadj : ∀ u v, v ∈ adj u → u ∈ keys ∧ v ∈ keys)
    (id : String) (rest : List String) (indeg : String → Int) (ordered : List String)
    (inv : KahnInv adj keys (id :: rest) indeg ordered) :
    KahnInv adj keys (kahnStep adj id (indeg, rest)).2 (kahnStep adj id (indeg, rest)).1
        (ordered ++ [id])
    ∧ ((kahnStep adj id (indeg, rest)).2.length
          + freshCount keys (ordered ++ [id]) (kahnStep adj id (indeg, rest)).2 + 1
        = (id :: rest).length + freshCount keys ordered (id :: rest)) := by
  have hidK : id ∈ keys := inv.subQ id (List.mem_cons_self id rest)
  have hidO : id ∉ ordered := inv.disjQO id (List.mem_cons_self id rest)
  have hidrest : id ∉ rest := (List.nodup_cons.mp inv.nodupQ).1
  have hzero : indeg id = 0 := inv.qzero id (List.mem_cons_self id rest)
  have hresid0 : residSum adj keys ordered id = 0 := by
    have := inv.resid id
    omega
  have hnoself : id ∉ adj id := by
    intro hcon
    have := residSum_zero_term adj keys ordered id hresid0 id hidK hidO
    rw [← List.count_pos_iff_mem] at hcon
    omega
  have horder' : ∀ v ∈ ordered ++ [id], ∀ u, v ∈ adj u →
      u ∈ ordered ++ [id]
        ∧ (ordered ++ [id]).indexOf u < (ordered ++ [id]).indexOf v := by
    intro v hv u hu
    rcases List.mem_append.mp hv with hv | hv
    · have hold := inv.order v hv u hu
      refine ⟨List.mem_append_left _ hold.1, ?_⟩
      rw [List.indexOf_append_of_mem hold.1, List.indexOf_append_of_mem hv]
      exact hold.2
    · rw [List.mem_singleton.mp hv] at hu ⊢
      have huO : u ∈ ordered := residSum_zero_pred adj keys ordered hadj id hresid0 u hu
      refine ⟨List.mem_append_left _ huO, ?_⟩
      rw [List.indexOf_append_of_mem huO, indexOf_append_self ordered id hidO]
      exact List.indexOf_lt_length.mpr huO
  have hstatic : ∀ v ∈ ordered ++ [id],
      residSum adj keys (ordered ++ [id]) v = 0 ∧ v ∉ adj id := by
    intro v hv
    constructor
    · unfold residSum
      apply List.sum_eq_zero
      intro x hx
      rcases List.mem_map.mp hx with ⟨u, hu, rfl⟩
      have huF := List.mem_filter.mp hu
      have hnu : u ∉ ordered ++ [id] := by simpa using huF.2
      by_contra hpos
      have hvadj : v ∈ adj u := by
        rw [← List.count_pos_iff_mem]
        omega
      exact hnu (horder' v hv u hvadj).1
    · intro hcon
      rcases List.mem_append.mp hv with hvO | hvid
      · exact hidO (inv.order v hvO id hcon).1
      · rw [List.mem_singleton.mp hvid] at hcon
        exact hnoself hcon
  have hA0 : ∀ v, indeg v
      = (residSum adj keys (ordered ++ [id]) v : Int) + ((adj id).count v : Int) := by
    intro v
    have hpop := residSum_pop adj keys ordered hkeys id hidK hidO v
    have := inv.resid v
    omega
  have hfold := kahnStep_fold adj keys id (ordered ++ [id]) hstatic (adj id) indeg rest
    (fun w hw => ⟨hw, (hadj id w hw).2⟩)
    hA0
    (List.nodup_cons.mp inv.nodupQ).2
    (by
      intro x hx
      intro hcon
      rcases List.mem_append.mp hcon with hc | hc
      · exact inv.disjQO x (List.mem_cons_of_mem id hx) hc
      · exact hidrest (List.mem_singleton.mp hc ▸ hx))
    (fun x hx => inv.subQ x (List.mem_cons_of_mem id hx))
    (fun v hv => inv.qzero v (List.mem_cons_of_mem id hv))
    (by
      intro v hv hz
      rcases inv.ready v hv hz with h | h
      · exact Or.inl (List.mem_append_left _ h)
      · rcases List.mem_cons.mp h with rfl | h
        · exact Or.inl (List.mem_append_right _ (List.mem_singleton_self v))
        · exact Or.inr h)
  have hfresh_eq : freshCount keys (ordered ++ [id]) rest
      = freshCount keys ordered (id :: rest) := by
    unfold freshCount
    congr 1
    ext a
    simp only [Finset.mem_sdiff, List.mem_toFinset, List.mem_append,
      List.mem_singleton, List.mem_cons]
    tauto
  constructor
  · exact
      { nodupO := by
          simp [List.nodup_append, inv.nodupO, hidO]
        nodupQ := hfold.2.1
        disjQO := hfold.2.2.1
        subO := by
          intro x hx
          rcases List.mem_append.mp hx with hx | hx
          · exact inv.subO x hx
          · rw [List.mem_singleton.mp hx]; exact hidK
        subQ := hfold.2.2.2.1
        resid := hfold.1
        ready := hfold.2.2.2.2.2.1
        qzero := hfold.2.2.2.2.1
        order := horder' }
  · show (kahnStep adj id (indeg, rest)).2.length + _ + 1 = _
    unfold kahnStep
    rw [hfold.2.2.2.2.2.2, hfresh_eq]
    simp [Nat.add_comm, Nat.add_assoc, Nat.add_left_comm]

/-- The Kahn loop, run with enough fuel from an invariant state, empties
the queue and preserves the invariant; the processed list only grows. -/
theorem kahnLoop_master (adj : String → List String) (keys : List String)
    (hkeys : keys.Nodup) (hadj : ∀ u v, v ∈ adj u → u ∈ keys ∧ v ∈ keys) :
    ∀ (fuel : Nat) (queue : List String) (indeg : String → Int) (ordered : List String),
      KahnInv adj keys queue indeg ordered →
      queue.length + freshCount keys ordered queue ≤ fuel →
      KahnInv adj keys [] (kahnLoop adj fuel queue indeg ordered).1
          (kahnLoop adj fuel queue indeg ordered).2
      ∧ ordered <+: (kahnLoop adj fuel queue indeg ordered).2 := by
  intro fuel
  induction fuel with
  | zero =>
      intro queue indeg ordered inv hfuel
      have hq : queue = [] := by
        have := Nat.le_zero.mp hfuel
        exact List.length_eq_zero.mp (by omega)
      subst hq
      exact ⟨inv, List.prefix_refl _⟩
  | succ fuel ih =>
      intro queue indeg ordered inv hfuel
      match queue with
      | [] => exact ⟨inv, List.prefix_refl _⟩
      | id :: rest =>
          have hpop := kahn_pop adj keys hkeys hadj id rest indeg ordered inv
          have hrun : kahnLoop adj (fuel + 1) (id :: rest) indeg ordered
              = kahnLoop adj fuel (kahnStep adj id (indeg, rest)).2
                  (kahnStep adj id (indeg, rest)).1 (ordered ++ [id]) := rfl
          rw [hrun]
          have hm := hpop.2
          have hih := ih (kahnStep adj id (indeg, rest)).2 (kahnStep adj id (indeg, rest)).1
            (ordered ++ [id]) hpop.1 (by
              simp only [List.length_cons] at hm
              omega)
          exact ⟨hih.1, ((ordered.prefix_append [id]).trans hih.2)⟩

/-! ## Characterizing the `buildAdjIndeg` construction -/

/-- Adjacency entries persist through one construction step. -/
theorem adjStep_mono (tasks : List TaskNode) (t : TaskNode)
    (m : (String → List String) × (String → Int)) (dep u v : String)
    (h : v ∈ m.1 u) : v ∈ (adjStep tasks t m dep).1 u := by
  unfold adjStep
  split_ifs with hg
  · show v ∈ updFn m.1 dep (m.1 dep ++ [t.TaskID]) u
    unfold updFn
    split_ifs with hu
    · exact List.mem_append_left _ (hu ▸ h)
    · exact h
  · exact h

/-- Adjacency entries persist through one task's dependency fold. -/
theorem adjFold_mono (tasks : List TaskNode) (t : TaskNode) :
    ∀ (deps : List String) (m : (String → List String) × (String → Int)) (u v : String),
      v ∈ m.1 u → v ∈ ((deps.foldl (adjStep tasks t) m).1 u) := by
  intro deps
  induction deps with
  | nil => intro m u v h; exact h
  | cons d ds ih =>
      intro m u v h
      exact ih (adjStep tasks t m d) u v (adjStep_mono tasks t m d u v h)

/-- Adjacency entries persist through the outer task fold. -/
theorem adjOuter_mono (tasks : List TaskNode) :
    ∀ (ts : List TaskNode) (m : (String → List String) × (String → Int)) (u v : String),
      v ∈ m.1 u →
      v ∈ ((ts.foldl (fun m t => (depsOf t).foldl (adjStep tasks t) m) m).1 u) := by
  intro ts
  induction ts with
  | nil => intro m u v h; exact h
  | cons t' ts ih =>
      intro m u v h
      exact ih _ u v (adjFold_mono tasks t' (depsOf t') m u v h)

/-- Processing a task records it in the adjacency list of each of its
resolved dependencies. -/
theorem adjFold_adds (tasks : List TaskNode) (t : TaskNode) :
    ∀ (deps : List String) (m : (String → List String) × (String → Int)) (d : String),
      d ∈ deps → d ∈ taskIDs tasks →
      t.TaskID ∈ ((deps.foldl (adjStep tasks t) m).1 d) := by
  intro deps
  induction deps with
  | nil => intro m d hd; cases hd
  | cons d0 ds ih =>
      intro m d hd hids
      rcases List.mem_cons.mp hd with rfl | hd'
      · apply adjFold_mono tasks t ds (adjStep tasks t m d) d t.TaskID
        unfold adjStep
        rw [if_pos hids]
        show t.TaskID ∈ updFn m.1 d (m.1 d ++ [t.TaskID]) d
        unfold updFn
        rw [if_pos rfl]
        exact List.mem_append_right _ (List.mem_singleton_self _)
      · exact ih (adjStep tasks t m d0) d hd' hids

/-- Completeness of the adjacency construction: every resolved dependency
edge of every task ends up in the map. -/
theorem buildAdj_complete (tasks : List TaskNode) :
    ∀ (ts : List TaskNode) (m : (String → List String) × (String → Int))
      (t : TaskNode) (d : String),
      t ∈ ts → d ∈ depsOf t → d ∈ taskIDs tasks →
      t.TaskID ∈ ((ts.foldl (fun m t => (depsOf t).foldl (adjStep tasks t) m) m).1 d) := by
  intro ts
  induction ts with
  | nil => intro m t d ht; cases ht
  | cons t0 ts ih =>
      intro m t d ht hd hids
      rcases List.mem_cons.mp ht with rfl | ht'
      · exact adjOuter_mono tasks ts _ d t.TaskID (adjFold_adds tasks t (depsOf t) m d hd hids)
      · exact ih _ t d ht' hd hids

/-- Soundness invariant of the adjacency construction: every recorded entry
comes from a resolved dependency edge of some task. -/
def AdjGood (tasks : List TaskNode) (m : (String → List String) × (String → Int)) : Prop :=
  ∀ u v, v ∈ m.1 u →
    u ∈ taskIDs tasks ∧ ∃ t ∈ tasks, t.TaskID = v ∧ u ∈ depsOf t

theorem adjStep_good (tasks : List TaskNode) (t : TaskNode) (ht : t ∈ tasks)
    (m : (String → List String) × (String → Int)) (dep : String) (hdep : dep ∈ depsOf t)
    (hm : AdjGood tasks m) : AdjGood tasks (adjStep tasks t m dep) := by
  intro u v hv
  unfold adjStep at hv
  split_ifs at hv with hg
  · have hv' : v ∈ updFn m.1 dep (m.1 dep ++ [t.TaskID]) u := hv
    unfold updFn at hv'
    split_ifs at hv' with hu
    · subst hu
      rcases List.mem_append.mp hv' with hv2 | hv2
      · exact hm u v hv2
      · rw [List.mem_singleton.mp hv2]
        exact ⟨hg, t, ht, rfl, hdep⟩
    · exact hm u v hv'
  · exact hm u v hv

theorem adjFold_good (tasks : List TaskNode) (t : TaskNode) (ht : t ∈ tasks) :
    ∀ (deps : List String), (∀ d ∈ deps, d ∈ depsOf t) →
      ∀ (m : (String → List String) × (String → Int)), AdjGood tasks m →
      AdjGood tasks (deps.foldl (adjStep tasks t) m) := by
  intro deps
  induction deps with
  | nil => intro _ m hm; exact hm
  | cons d ds ih =>
      intro hsub m hm
      exact ih (fun d' hd' => hsub d' (List.mem_cons_of_mem d hd'))
        _ (adjStep_good tasks t ht m d (hsub d (List.mem_cons_self d ds)) hm)

theorem buildAdj_sound (tasks : List TaskNode) :
    ∀ (ts : List TaskNode), (∀ t ∈ ts, t ∈ tasks) →
      ∀ (m : (String → List String) × (String → Int)), AdjGood tasks m →
      AdjGood tasks (ts.foldl (fun m t => (depsOf t).foldl (adjStep tasks t) m) m) := by
  intro ts
  induction ts with
  | nil => intro _ m hm; exact hm
  | cons t0 ts ih =>
      intro hsub m hm
      exact ih (fun t ht => hsub t (List.mem_cons_of_mem t0 ht)) _
        (adjFold_good tasks t0 (hsub t0 (List.mem_cons_self t0 ts)) (depsOf t0)
          (fun _ hd => hd) m hm)

/-- Incrementing a map at one (distinct) key raises the mapped sum by
exactly one. -/
theorem sum_map_update_add {α : Type} [DecidableEq α] :
    ∀ (keys : List α), keys.Nodup → ∀ (d : α), d ∈ keys → ∀ (f f' : α → Nat),
      f' d = f d + 1 → (∀ u, u ≠ d → f' u = f u) →
      (keys.map f').sum = (keys.map f).sum + 1 := by
  intro keys
  induction keys with
  | nil => intro _ d hd; cases hd
  | cons k ks ih =>
      intro hnd d hd f f' hfd hoth
      have hk := List.nodup_cons.mp hnd
      rcases List.mem_cons.mp hd with rfl | hd'
      · have : ks.map f' = ks.map f := by
          apply List.map_congr_left
          intro u hu
          exact hoth u (fun hcon => hk.1 (hcon ▸ hu))
        simp only [List.map_cons, List.sum_cons, this, hfd]
        omega
      · have hkd : k ≠ d := fun hcon => hk.1 (hcon ▸ hd')
        simp only [List.map_cons, List.sum_cons, hoth k hkd,
          ih hk.2 d hd' f f' hfd hoth]
        omega

/-- With nothing processed, the residual count is the full per-key count
sum. -/
theorem residSum_nil (adj : String → List String) (keys : List String) (v : String) :
    residSum adj keys [] v = ((keys.map (fun u => (adj u).count v)).sum) := by
  unfold residSum
  congr 1
  rw [List.filter_eq_self.mpr]
  intro a _
  simp

/-- The joint accounting invariant of the construction: the in-degree of
`v` equals the total number of adjacency entries pointing at `v`. -/
def AdjCount (keys : List String) (m : (String → List String) × (String → Int)) : Prop :=
  ∀ v, m.2 v = (((keys.map (fun u => (m.1 u).count v)).sum : Nat) : Int)

theorem adjStep_count (tasks : List TaskNode) (keys : List String)
    (hkeys : keys.Nodup) (hsub : ∀ x, x ∈ taskIDs tasks → x ∈ keys)
    (t : TaskNode) (m : (String → List String) × (String → Int)) (dep : String)
    (hm : AdjCount keys m) : AdjCount keys (adjStep tasks t m dep) := by
  unfold adjStep
  split_ifs with hg
  · intro v
    show updFn m.2 t.TaskID (m.2 t.TaskID + 1) v
      = (((keys.map (fun u => ((updFn m.1 dep (m.1 dep ++ [t.TaskID])) u).count v)).sum : Nat) : Int)
    by_cases hv : v = t.TaskID
    · subst hv
      have h1 : updFn m.2 t.TaskID (m.2 t.TaskID + 1) t.TaskID = m.2 t.TaskID + 1 := by
        unfold updFn
        rw [if_pos rfl]
      have h2 : ((updFn m.1 dep (m.1 dep ++ [t.TaskID])) dep).count t.TaskID
          = (m.1 dep).count t.TaskID + 1 := by
        unfold updFn
        rw [if_pos rfl, List.count_append]
        simp
      have h3 : ∀ u, u ≠ dep →
          ((updFn m.1 dep (m.1 dep ++ [t.TaskID])) u).count t.TaskID = (m.1 u).count t.TaskID := by
        intro u hu
        unfold updFn
        rw [if_neg hu]
      have hsum := sum_map_update_add keys hkeys dep (hsub dep hg)
        (fun u => (m.1 u).count t.TaskID)
        (fun u => ((updFn m.1 dep (m.1 dep ++ [t.TaskID])) u).count t.TaskID) h2 h3
      rw [h1, hm t.TaskID, hsum]
      push_cast
      ring
    · have h1 : updFn m.2 t.TaskID (m.2 t.TaskID + 1) v = m.2 v := by
        unfold updFn
        rw [if_neg hv]
      have h4 : keys.map (fun u => ((updFn m.1 dep (m.1 dep ++ [t.TaskID])) u).count v)
          = keys.map (fun u => (m.1 u).count v) := by
        apply List.map_congr_left
        intro u _
        by_cases hu : u = dep
        · subst hu
          unfold updFn
          rw [if_pos rfl, List.count_append]
          simp [hv]
        · unfold updFn
          rw [if_neg hu]
      rw [h1, hm v, h4]
  · exact hm

theorem adjFold_count (tasks : List TaskNode) (keys : List String)
    (hkeys : keys.Nodup) (hsub : ∀ x, x ∈ taskIDs tasks → x ∈ keys) (t : TaskNode) :
    ∀ (deps : List String) (m : (String → List String) × (String → Int)),
      AdjCount keys m → AdjCount keys (deps.foldl (adjStep tasks t) m) := by
  intro deps
  induction deps with
  | nil => intro m hm; exact hm
  | cons d ds ih =>
      intro m hm
      exact ih _ (adjStep_count tasks keys hkeys hsub t m d hm)

theorem buildAdj_count (tasks : List TaskNode) (keys : List String)
    (hkeys : keys.Nodup) (hsub : ∀ x, x ∈ taskIDs tasks → x ∈ keys) :
    ∀ (ts : List TaskNode) (m : (String → List String) × (String → Int)),
      AdjCount keys m →
      AdjCount keys (ts.foldl (fun m t => (depsOf t).foldl (adjStep tasks t) m) m) := by
  intro ts
  induction ts with
  | nil => intro m hm; exact hm
  | cons t0 ts ih =>
      intro m hm
      exact ih _ (adjFold_count tasks keys hkeys hsub t0 (depsOf t0) m hm)

/-- The three facts about `buildAdjIndeg` that the Kahn analysis needs:
soundness of entries, completeness of resolved edges, and the in-degree
accounting. -/
theorem buildAdjIndeg_spec (tasks : List TaskNode) :
    AdjGood tasks (buildAdjIndeg tasks)
    ∧ (∀ t ∈ tasks, ∀ d ∈ depsOf t, d ∈ taskIDs tasks →
        t.TaskID ∈ (buildAdjIndeg tasks).1 d)
    ∧ (∀ v, (buildAdjIndeg tasks).2 v
        = (residSum (buildAdjIndeg tasks).1 (mapKeys tasks) [] v : Int)) := by
  refine ⟨?_, ?_, ?_⟩
  · exact buildAdj_sound tasks tasks (fun _ h => h) _ (fun u v hv => absurd hv (List.not_mem_nil v))
  · intro t ht d hd hids
    exact buildAdj_complete tasks tasks _ t d ht hd hids
  · have hcount := buildAdj_count tasks (mapKeys tasks) (List.nodup_dedup _)
      (fun x hx => List.mem_dedup.mpr hx) tasks
      ((fun _ => [], fun _ => 0) : (String → List String) × (String → Int))
      (fun v => by simp)
    intro v
    rw [residSum_nil]
    exact hcount v

/-! ## The dependency relation and acyclicity -/

/-- The resolved dependency edge relation of a task list: `Edge tasks d v`
holds when some task with id `v` lists `d` in its (parsed) `depends_on` and
`d` resolves to a task id. -/
def Edge (tasks : List TaskNode) (d v : String) : Prop :=
  ∃ t ∈ tasks, t.TaskID = v ∧ d ∈ depsOf t ∧ d ∈ taskIDs tasks

/-- The dependency relation is acyclic: no id reaches itself through a
non-empty chain of resolved dependency edges. -/
def Acyclic (tasks : List TaskNode) : Prop :=
  ∀ v, ¬ Relation.TransGen (Edge tasks) v v

/-- A rank function that strictly increases along the edges certifies
acyclicity (convenient for concrete graphs). -/
theorem acyclic_of_rank (tasks : List TaskNode) (rank : String → Nat)
    (h : ∀ d v, Edge tasks d v → rank d < rank v) : Acyclic tasks := by
  intro v hv
  have hmono : ∀ a b, Relation.TransGen (Edge tasks) a b → rank a < rank b := by
    intro a b hab
    induction hab with
    | single he => exact h _ _ he
    | tail _ he ih => exact Nat.lt_trans ih (h _ _ he)
  exact Nat.lt_irrefl _ (hmono v v hv)

/-- In an acyclic dependency relation, no non-empty set of ids can be
"self-supporting" (each member having a dependency inside the set): with
finitely many ids, following in-set dependencies long enough must revisit
an id, which closes a cycle. -/
theorem acyclic_no_selfsupport (tasks : List TaskNode) (hacyc : Acyclic tasks)
    (S : Finset String) (hne : S.Nonempty)
    (hstep : ∀ v ∈ S, ∃ u ∈ S, Edge tasks u v) : False := by
  classical
  choose f hfS hfE using hstep
  let g : Nat → {x // x ∈ S} := fun n =>
    Nat.rec ⟨hne.choose, hne.choose_spec⟩ (fun _ prev => ⟨f prev.1 prev.2, hfS _ _⟩) n
  have hgE : ∀ n, Edge tasks (g (n + 1)).1 (g n).1 := fun n => hfE _ _
  have hpath : ∀ i j, i < j → Relation.TransGen (Edge tasks) (g j).1 (g i).1 := by
    intro i j hij
    induction hij with
    | refl => exact Relation.TransGen.single (hgE i)
    | @step m _ ih => exact Relation.TransGen.head (hgE m) ih
  have hpigeon : ∃ a ∈ Finset.range (S.card + 1), ∃ b ∈ Finset.range (S.card + 1),
      a ≠ b ∧ (g a).1 = (g b).1 := by
    apply Finset.exists_ne_map_eq_of_card_lt_of_maps_to
    · rw [Finset.card_range]
      exact Nat.lt_succ_self _
    · intro a _
      exact (g a).2
  rcases hpigeon with ⟨a, _, b, _, hab, heq⟩
  rcases Nat.lt_or_ge a b with hlt | hge
  · exact hacyc (g a).1 (heq ▸ hpath a b hlt)
  · have hlt : b < a := Nat.lt_of_le_of_ne hge (fun hc => hab hc.symm)
    exact hacyc (g b).1 (heq.symm ▸ hpath b a hlt)

/-! ## `taskIndex` retrieval -/

/-- The `taskIndex` fold leaves keys outside the processed ids untouched. -/
theorem taskIndex_fold_notmem :
    ∀ (l : List TaskNode) (n : Nat) (m0 : String → Nat) (id : String),
      id ∉ taskIDs l →
      (List.enumFrom n l).foldl (fun m p => updFn m p.2.TaskID p.1) m0 id = m0 id := by
  intro l
  induction l with
  | nil => intro n m0 id _; rfl
  | cons t ts ih =>
      intro n m0 id hid
      have hne : id ≠ t.TaskID := by
        intro hcon
        exact hid (hcon ▸ List.mem_cons_self _ _)
      rw [show List.enumFrom n (t :: ts) = (n, t) :: List.enumFrom (n + 1) ts by
            simp [List.enumFrom],
          List.foldl_cons,
          ih (n + 1) _ id (fun hc => hid (List.mem_cons_of_mem _ hc))]
      unfold updFn
      rw [if_neg hne]

/-- With unique ids, the `taskIndex` fold maps the id of the `i`-th task to
its position. -/
theorem taskIndex_fold_get :
    ∀ (l : List TaskNode), (taskIDs l).Nodup →
      ∀ (n : Nat) (m0 : String → Nat) (i : Nat) (hi : i < l.length),
        (List.enumFrom n l).foldl (fun m p => updFn m p.2.TaskID p.1) m0
            ((l.get ⟨i, hi⟩).TaskID) = n + i := by
  intro l
  induction l with
  | nil => intro _ n m0 i hi; cases hi
  | cons t ts ih =>
      intro hu n m0 i hi
      have hu2 : (t.TaskID :: taskIDs ts).Nodup := by
        rw [taskIDs, List.map_cons] at hu
        exact hu
      have hu' := List.nodup_cons.mp hu2
      rw [show List.enumFrom n (t :: ts) = (n, t) :: List.enumFrom (n + 1) ts by
            simp [List.enumFrom],
          List.foldl_cons]
      match i with
      | 0 =>
          have : (t :: ts).get ⟨0, hi⟩ = t := rfl
          rw [this, taskIndex_fold_notmem ts (n + 1) _ t.TaskID hu'.1]
          unfold updFn
          rw [if_pos rfl]
          simp
      | i + 1 =>
          have hts : i < ts.length := Nat.lt_of_succ_lt_succ hi
          have : (t :: ts).get ⟨i + 1, hi⟩ = ts.get ⟨i, hts⟩ := rfl
          rw [this, ih hu'.2 (n + 1) _ i hts]
          omega

/-- Looking a unique task id up through `taskIndex` and the task slice
returns the task itself. -/
theorem taskIndex_roundtrip (tasks : List TaskNode) (hu : (taskIDs tasks).Nodup)
    (id : String) (hid : id ∈ taskIDs tasks) :
    (tasks.getD (taskIndex tasks id) default).TaskID = id
    ∧ tasks.getD (taskIndex tasks id) default ∈ tasks := by
  rcases List.mem_map.mp hid with ⟨t, ht, rfl⟩
  rcases List.mem_iff_get.mp ht with ⟨⟨i, hi⟩, rfl⟩
  have hfold : taskIndex tasks ((tasks.get ⟨i, hi⟩).TaskID) = i := by
    unfold taskIndex
    have := taskIndex_fold_get tasks hu 0 (fun _ => 0) i hi
    rw [show tasks.enum = List.enumFrom 0 tasks from rfl]
    simpa using this
  rw [hfold, List.getD_eq_getElem _ _ hi]
  exact ⟨by simp, List.getElem_mem _⟩

/-! ## Soundness of `topologicalSort` (C1 core) -/

/-- Under the validated-graph hypotheses, `topologicalSort` emits every
task exactly once, in an order where every resolved dependency precedes its
dependent. -/
theorem topologicalSort_sound (g : TaskGraph)
    (hu : (taskIDs g.Tasks).Nodup)
    (hres : ∀ t ∈ g.Tasks, ∀ d ∈ depsOf t, d ∈ taskIDs g.Tasks)
    (hacyc : Acyclic g.Tasks) :
    ((topologicalSort g).map (·.TaskID)).Nodup
    ∧ (∀ id, id ∈ taskIDs g.Tasks ↔ id ∈ (topologicalSort g).map (·.TaskID))
    ∧ (∀ t ∈ topologicalSort g, t ∈ g.Tasks)
    ∧ (∀ t ∈ g.Tasks, ∀ d ∈ depsOf t,
        ((topologicalSort g).map (·.TaskID)).indexOf d
          < ((topologicalSort g).map (·.TaskID)).indexOf t.TaskID) := by
  have spec := buildAdjIndeg_spec g.Tasks
  set adj := (buildAdjIndeg g.Tasks).1 with hadjdef
  set indeg0 := (buildAdjIndeg g.Tasks).2 with hindegdef
  set keys := mapKeys g.Tasks with hkeysdef
  have hkeys : keys.Nodup := List.nodup_dedup _
  have hmemkeys : ∀ x, x ∈ keys ↔ x ∈ taskIDs g.Tasks := fun x => List.mem_dedup
  have hadj : ∀ u v, v ∈ adj u → u ∈ keys ∧ v ∈ keys := by
    intro u v hv
    rcases spec.1 u v hv with ⟨hu1, t, ht, rfl, _⟩
    exact ⟨(hmemkeys u).mpr hu1, (hmemkeys t.TaskID).mpr (List.mem_map_of_mem _ ht)⟩
  set queue := (g.Tasks.filter (fun t => indeg0 t.TaskID = 0)).map (·.TaskID) with hqdef
  have hqsub : ∀ x ∈ queue, x ∈ taskIDs g.Tasks := by
    intro x hx
    rcases List.mem_map.mp hx with ⟨t, ht, rfl⟩
    exact List.mem_map_of_mem _ (List.mem_of_mem_filter ht)
  have hinv : KahnInv adj keys queue indeg0 [] :=
    { nodupO := List.nodup_nil
      nodupQ := by
        have hsl : queue.Sublist (taskIDs g.Tasks) :=
          List.Sublist.map _ (List.filter_sublist _)
        exact hu.sublist hsl
      disjQO := fun x _ => List.not_mem_nil x
      subO := fun x hx => absurd hx (List.not_mem_nil x)
      subQ := fun x hx => (hmemkeys x).mpr (hqsub x hx)
      resid := spec.2.2
      ready := by
        intro v hv hz
        right
        rcases List.mem_map.mp ((hmemkeys v).mp hv) with ⟨t, ht, rfl⟩
        exact List.mem_map_of_mem _ (List.mem_filter.mpr ⟨ht, by simpa using hz⟩)
      qzero := by
        intro v hv
        rcases List.mem_map.mp hv with ⟨t, ht, rfl⟩
        have := (List.mem_filter.mp ht).2
        simpa using this
      order := fun v hv => absurd hv (List.not_mem_nil v) }
  have hfuel : queue.length + freshCount keys [] queue ≤ queue.length + g.Tasks.length := by
    have h1 : freshCount keys [] queue ≤ keys.toFinset.card := by
      unfold freshCount
      exact Finset.card_le_card ((Finset.sdiff_subset).trans Finset.sdiff_subset)
    have h2 : keys.toFinset.card ≤ keys.length := keys.toFinset_card_le
    have h3 : keys.length ≤ (taskIDs g.Tasks).length := (List.dedup_sublist _).length_le
    have h4 : (taskIDs g.Tasks).length = g.Tasks.length := List.length_map _ _
    omega
  have hmaster := kahnLoop_master adj keys hkeys hadj
    (queue.length + g.Tasks.length) queue indeg0 [] hinv hfuel
  set run := kahnLoop adj (queue.length + g.Tasks.length) queue indeg0 [] with hrundef
  have hF := hmaster.1
  -- every key is processed
  have hcomplete : ∀ k ∈ keys, k ∈ run.2 := by
    by_contra hcon
    push_neg at hcon
    rcases hcon with ⟨k0, hk0, hk0n⟩
    have hne : ((keys.filter (fun k => k ∉ run.2)).toFinset).Nonempty := by
      refine ⟨k0, List.mem_toFinset.mpr (List.mem_filter.mpr ⟨hk0, by simpa using hk0n⟩)⟩
    apply acyclic_no_selfsupport g.Tasks hacyc _ hne
    intro v hv
    have hvf := List.mem_filter.mp (List.mem_toFinset.mp hv)
    have hvK : v ∈ keys := hvf.1
    have hvO : v ∉ run.2 := by simpa using hvf.2
    have hnz : indeg0 ≠ indeg0 ∨ True := Or.inr trivial
    have hzne : run.1 v ≠ 0 := by
      intro hz
      rcases hF.ready v hvK hz with h | h
      · exact hvO h
      · exact absurd h (List.not_mem_nil v)
    have hrpos : residSum adj keys run.2 v ≠ 0 := by
      intro hz
      apply hzne
      rw [hF.resid v, hz]
      rfl
    have hterm : ∃ u ∈ keys.filter (fun u => u ∉ run.2), 0 < (adj u).count v := by
      by_contra hc
      push_neg at hc
      apply hrpos
      unfold residSum
      apply List.sum_eq_zero
      intro x hx
      rcases List.mem_map.mp hx with ⟨u, hu, rfl⟩
      exact Nat.eq_zero_of_le_zero (hc u hu)
    rcases hterm with ⟨u, hu, hcount⟩
    have huf := List.mem_filter.mp hu
    have hvadj : v ∈ adj u := List.count_pos_iff_mem.mp hcount
    rcases spec.1 u v hvadj with ⟨huid, t, ht, htid, hdep⟩
    refine ⟨u, List.mem_toFinset.mpr (List.mem_filter.mpr ⟨huf.1, huf.2⟩), ?_⟩
    exact ⟨t, ht, htid, hdep, huid⟩
  -- the emitted nodes and their ids
  have hrun_eq : topologicalSort g
      = run.2.map (fun id => g.Tasks.getD (taskIndex g.Tasks id) default) := by
    simp only [topologicalSort, hrundef, hqdef, hkeysdef, hindegdef, hadjdef]
  have hids_of : ∀ id ∈ run.2, id ∈ taskIDs g.Tasks :=
    fun id hid => (hmemkeys id).mp (hF.subO id hid)
  have hmap_ids : (topologicalSort g).map (·.TaskID) = run.2 := by
    rw [hrun_eq, List.map_map]
    have : ∀ id ∈ run.2,
        ((fun x => x.TaskID) ∘ fun id => g.Tasks.getD (taskIndex g.Tasks id) default) id
          = id := by
      intro id hid
      exact (taskIndex_roundtrip g.Tasks hu id (hids_of id hid)).1
    rw [List.map_congr_left this]
    simp
  refine ⟨by rw [hmap_ids]; exact hF.nodupO, ?_, ?_, ?_⟩
  · intro id
    rw [hmap_ids]
    constructor
    · intro hid
      exact hcomplete id ((hmemkeys id).mpr hid)
    · exact hids_of id
  · intro t ht
    rw [hrun_eq] at ht
    rcases List.mem_map.mp ht with ⟨id, hid, rfl⟩
    exact (taskIndex_roundtrip g.Tasks hu id (hids_of id hid)).2
  · intro t ht d hd
    rw [hmap_ids]
    have hdid : d ∈ taskIDs g.Tasks := hres t ht d hd
    have hadjmem : t.TaskID ∈ adj d := spec.2.1 t ht d hd hdid
    have htidO : t.TaskID ∈ run.2 :=
      hcomplete t.TaskID ((hmemkeys _).mpr (List.mem_map_of_mem _ ht))
    exact (hF.order t.TaskID htidO d hadjmem).2

/-! ## Position of create-task commands (C1) -/

/-- Searching a block of create-task commands (followed by an arbitrary
tail) for a given id finds it at the id's position within the block. -/
theorem findIdx_create_block (mkA : TaskNode → List String) (id : String) :
    ∀ (l : List TaskNode) (tail : List BdCommand) (n : Nat),
      id ∈ l.map (·.TaskID) →
      List.findIdx? (fun cmd => cmd.Type' == "create-task" && cmd.TaskID == id)
        (l.map (fun task =>
          { Args := mkA task, TaskID := task.TaskID,
            Type' := "create-task" : BdCommand }) ++ tail) n
      = some (n + (l.map (·.TaskID)).indexOf id) := by
  intro l
  induction l with
  | nil => intro tail n hid; simp at hid
  | cons t ts ih =>
      intro tail n hid
      rw [List.map_cons, List.map_cons, List.cons_append, List.findIdx?_cons]
      by_cases h : t.TaskID = id
      · rw [if_pos (by simp [h]), h, List.indexOf_cons_self]
        simp
      · rw [if_neg (by simp [h])]
        have hid' : id ∈ ts.map (·.TaskID) := by
          rcases List.mem_cons.mp hid with he | hm
          · exact absurd he.symm h
          · exact hm
        rw [ih tail (n + 1) hid', List.indexOf_cons_ne _ h]
        exact congrArg some (by omega)

/-- The create-task command of an emitted task sits at index
`1 + position in the topological order` (the epic command occupies index 0,
and the dep-add/update blocks come after all the creates). -/
theorem createIdx_pos (c : Creator) (g : TaskGraph) (id : String)
    (hid : id ∈ (topologicalSort g).map (·.TaskID)) :
    createIdx (c.BuildGraphCommands g) id
      = some (1 + ((topologicalSort g).map (·.TaskID)).indexOf id) := by
  simp only [createIdx, Creator.BuildGraphCommands, List.singleton_append,
    List.cons_append, List.append_assoc]
  rw [List.findIdx?_cons, if_neg (by simp)]
  exact findIdx_create_block _ id (topologicalSort g) _ 1 hid

/-- C1: for a validated graph (unique ids, resolved dependencies, acyclic
dependency relation), every task receives a create-task command, and for
every dependency entry the dependency's create-task command sits at a
strictly smaller index of the `BuildGraphCommands` list than the
dependent's. -/
theorem buildGraphCommands_topological (c : Creator) (g : TaskGraph)
    (hu : (taskIDs g.Tasks).Nodup)
    (hres : ∀ t ∈ g.Tasks, ∀ d ∈ depsOf t, d ∈ taskIDs g.Tasks)
    (hacyc : Acyclic g.Tasks) :
    (∀ t ∈ g.Tasks, ∃ i, createIdx (c.BuildGraphCommands g) t.TaskID = some i)
    ∧ (∀ t ∈ g.Tasks, ∀ d ∈ depsOf t,
        ∃ i j, createIdx (c.BuildGraphCommands g) d = some i
          ∧ createIdx (c.BuildGraphCommands g) t.TaskID = some j
          ∧ i < j) := by
  obtain ⟨hnodup, hiff, hmem, horder⟩ := topologicalSort_sound g hu hres hacyc
  constructor
  · intro t ht
    exact ⟨_, createIdx_pos c g t.TaskID
      ((hiff t.TaskID).mp (List.mem_map_of_mem _ ht))⟩
  · intro t ht d hd
    have htid : t.TaskID ∈ (topologicalSort g).map (·.TaskID) :=
      (hiff t.TaskID).mp (List.mem_map_of_mem _ ht)
    have hdid : d ∈ (topologicalSort g).map (·.TaskID) :=
      (hiff d).mp (hres t ht d hd)
    refine ⟨_, _, createIdx_pos c g d hdid, createIdx_pos c g t.TaskID htid, ?_⟩
    have := horder t ht d hd
    omega

/-- A concrete two-task graph (task-b depends on task-a) for the C1
witness. -/
def wTA : TaskNode :=
  { TaskID := "task-a", TaskName := "Task A", Goal := "A is done.",
    DependsOn := .strList [], Constraints := .strList [],
    FilesScope := .strList ["a.go"], Acceptance := ["A passes"] }

def wTB : TaskNode :=
  { TaskID := "task-b", TaskName := "Task B", Goal := "B is done.",
    DependsOn := .strList ["task-a"], Constraints := .strList [],
    FilesScope := .strList ["b.go"], Acceptance := ["B passes"] }

def wG : TaskGraph := { Version := "0.1.0", Tasks := [wTA, wTB] }

theorem buildGraphCommands_topological_witness :
    ∃ i j, createIdx (({} : Creator).BuildGraphCommands wG) "task-a" = some i
      ∧ createIdx (({} : Creator).BuildGraphCommands wG) "task-b" = some j
      ∧ i < j := by
  have hacyc : Acyclic wG.Tasks := by
    apply acyclic_of_rank wG.Tasks (fun s => if s = "task-a" then 0 else 1)
    intro d v he
    unfold Edge at he
    obtain ⟨t, ht, htv, hdep, hdid⟩ := he
    subst htv
    have ht' : t = wTA ∨ t = wTB := by simpa [wG] using ht
    rcases ht' with rfl | rfl
    · have hnil : depsOf wTA = [] := by decide
      rw [hnil] at hdep
      cases hdep
    · have hone : depsOf wTB = ["task-a"] := by decide
      rw [hone] at hdep
      have hd : d = "task-a" := by simpa using hdep
      subst hd
      decide
  have hmain := buildGraphCommands_topological {} wG (by decide) (by decide) hacyc
  have hBmem : wTB ∈ wG.Tasks := by decide
  have hdep : "task-a" ∈ depsOf wTB := by decide
  rcases hmain.2 wTB hBmem "task-a" hdep with ⟨i, j, hi, hj, hij⟩
  exact ⟨i, j, hi, hj, hij⟩

/-! ## First-failure behaviour of the executor (C2) -/

/-- `execRecord` never touches the ghost invocation trace. -/
theorem execRecord_trace (cmd : BdCommand) (i : Nat) (args : List String)
    (bdID : String) (st : ExecState) :
    (execRecord cmd i args bdID st).trace = st.trace := by
  unfold execRecord
  split_ifs <;> rfl

/-- `execRecord` increments `Created` exactly on the two create command
types. -/
theorem execRecord_created (cmd : BdCommand) (i : Nat) (args : List String)
    (bdID : String) (st : ExecState) :
    (execRecord cmd i args bdID st).result.Created
      = st.result.Created
        + (if (cmd.Type' == "create-epic" || cmd.Type' == "create-task") = true
           then 1 else 0) := by
  unfold execRecord
  split_ifs with h1 h2 h3 <;> simp_all

/-- First-failure behaviour of the execution loop, with the start index and
state generalized: if the invocations for the first `k` commands succeed
and the `k`-th fails, the loop performs exactly `k + 1` invocations, the
last one on the `k`-th command's substituted arguments, counts the create
commands among the first `k`, and stops with the contextual error
message. -/
theorem execLoop_first_failure (oracle : Nat → ExecOutcome) (stderr errText : String) :
    ∀ (k : Nat) (cmds : List BdCommand) (n : Nat) (st : ExecState),
      k < cmds.length →
      (∀ i, i < k → ∃ s, oracle (n + i) = ExecOutcome.ok s) →
      oracle (n + k) = ExecOutcome.fail stderr errText →
      (execLoop oracle cmds n st).1.trace.length = st.trace.length + k + 1
      ∧ (execLoop oracle cmds n st).1.trace.getLast?
          = some (replaceIDs (cmds.getD k default).Args (execLoop oracle cmds n st).1.idMap)
      ∧ (execLoop oracle cmds n st).1.result.Created
          = st.result.Created + ((cmds.take k).filter
              (fun c => c.Type' == "create-epic" || c.Type' == "create-task")).length
      ∧ (execLoop oracle cmds n st).2
          = some ("bd command failed: bd "
              ++ String.intercalate " "
                  (replaceIDs (cmds.getD k default).Args (execLoop oracle cmds n st).1.idMap)
              ++ "\n  Error: "
              ++ (if trimSpaceGo stderr = "" then errText else trimSpaceGo stderr)
              ++ "\n  " ++ toString (execLoop oracle cmds n st).1.result.Created
              ++ " issues created before failure") := by
  intro k
  induction k with
  | zero =>
      intro cmds n st hk hok hfail
      cases cmds with
      | nil => simp at hk
      | cons cmd rest =>
          rw [Nat.add_zero] at hfail
          simp only [execLoop, hfail, runBdCommand]
          refine ⟨by simp, ?_, by simp, ?_⟩
          · simp [List.getLast?_concat]
          · simp
  | succ k ih =>
      intro cmds n st hk hok hfail
      cases cmds with
      | nil => simp at hk
      | cons cmd rest =>
          obtain ⟨s, hs⟩ := hok 0 (Nat.succ_pos k)
          rw [Nat.add_zero] at hs
          have hstep : execLoop oracle (cmd :: rest) n st
              = execLoop oracle rest (n + 1)
                  (execRecord cmd n (replaceIDs cmd.Args st.idMap) (trimSpaceGo s)
                    { st with trace := st.trace ++ [replaceIDs cmd.Args st.idMap] }) := by
            simp only [execLoop, hs, runBdCommand]
          set st' := execRecord cmd n (replaceIDs cmd.Args st.idMap) (trimSpaceGo s)
            { st with trace := st.trace ++ [replaceIDs cmd.Args st.idMap] } with hst'
          have hok' : ∀ i, i < k → ∃ s2, oracle (n + 1 + i) = ExecOutcome.ok s2 := by
            intro i hi
            have h := hok (i + 1) (Nat.succ_lt_succ hi)
            rwa [show n + (i + 1) = n + 1 + i by omega] at h
          have hfail' : oracle (n + 1 + k) = ExecOutcome.fail stderr errText := by
            rwa [show n + (k + 1) = n + 1 + k by omega] at hfail
          have hk' : k < rest.length := Nat.lt_of_succ_lt_succ hk
          obtain ⟨h1, h2, h3, h4⟩ := ih rest (n + 1) st' hk' hok' hfail'
          rw [hstep]
          have htr : st'.trace = st.trace ++ [replaceIDs cmd.Args st.idMap] := by
            rw [hst']
            exact execRecord_trace _ _ _ _ _
          refine ⟨?_, ?_, ?_, ?_⟩
          · rw [h1, htr]
            simp only [List.length_append, List.length_cons, List.length_nil]
            omega
          · rw [List.getD_cons_succ]
            exact h2
          · rw [h3]
            have hrec := execRecord_created cmd n (replaceIDs cmd.Args st.idMap)
              (trimSpaceGo s) { st with trace := st.trace ++ [replaceIDs cmd.Args st.idMap] }
            rw [← hst'] at hrec
            have hrec' : st'.result.Created
                = st.result.Created
                  + (if (cmd.Type' == "create-epic" || cmd.Type' == "create-task") = true
                     then 1 else 0) := hrec
            rw [hrec']
            simp only [List.take_succ_cons, List.filter_cons]
            rcases Bool.eq_false_or_eq_true
                (cmd.Type' == "create-epic" || cmd.Type' == "create-task") with hp | hp <;>
              rw [hp] <;> simp <;> omega
          · rw [List.getD_cons_succ]
            exact h4

/-- C2: on the first subprocess failure (command `k`, zero-based), the
executor performs no invocation beyond the `k`-th (the ghost trace, one
entry per invocation, has length `k + 1`, ending with the failing command's
substituted arguments), the partial result counts exactly the create
commands among the first `k` fully processed commands, and the returned
error names the substituted argument list, the subprocess's (trimmed)
stderr — falling back to the Go error text when blank — and the prior
creation count. -/
theorem executeCommands_first_failure (oracle : Nat → ExecOutcome)
    (cmds : List BdCommand) (k : Nat) (stderr errText : String)
    (hk : k < cmds.length)
    (hok : ∀ i, i < k → ∃ s, oracle i = ExecOutcome.ok s)
    (hfail : oracle k = ExecOutcome.fail stderr errText) :
    (ExecuteCommands oracle cmds).1.trace.length = k + 1
    ∧ (ExecuteCommands oracle cmds).1.trace.getLast?
        = some (replaceIDs (cmds.getD k default).Args (ExecuteCommands oracle cmds).1.idMap)
    ∧ (ExecuteCommands oracle cmds).1.result.Created
        = ((cmds.take k).filter
            (fun c => c.Type' == "create-epic" || c.Type' == "create-task")).length
    ∧ (ExecuteCommands oracle cmds).2
        = some ("bd command failed: bd "
            ++ String.intercalate " "
                (replaceIDs (cmds.getD k default).Args (ExecuteCommands oracle cmds).1.idMap)
            ++ "\n  Error: "
            ++ (if trimSpaceGo stderr = "" then errText else trimSpaceGo stderr)
            ++ "\n  " ++ toString (ExecuteCommands oracle cmds).1.result.Created
            ++ " issues created before failure") := by
  have hok0 : ∀ i, i < k → ∃ s, oracle (0 + i) = ExecOutcome.ok s := by
    intro i hi
    simpa using hok i hi
  have hfail0 : oracle (0 + k) = ExecOutcome.fail stderr errText := by simpa using hfail
  obtain ⟨h1, h2, h3, h4⟩ :=
    execLoop_first_failure oracle stderr errText k cmds 0 {} hk hok0 hfail0
  unfold ExecuteCommands
  exact ⟨by simpa using h1, h2, by simpa using h3, h4⟩

/-- A five-command run whose third invocation fails, for the C2 witness. -/
def wOracle : Nat → ExecOutcome :=
  fun i => if i = 2 then .fail "boom" "exit status 1" else .ok ("bd-" ++ toString i)

def wCmds : List BdCommand :=
  [{ Args := ["create", "--title", "Epic", "--silent"], Type' := "create-epic" },
   { Args := ["create", "--title", "A", "--silent"], TaskID := "task-a",
     Type' := "create-task" },
   { Args := ["create", "--title", "B", "--silent"], TaskID := "task-b",
     Type' := "create-task" },
   { Args := ["dep", "add", "<task-b-id>", "<task-a-id>"], Type' := "dep-add",
     DepTaskID := "task-b", DepOnID := "task-a" },
   { Args := ["update", "<task-a-id>", "--design", "d"], TaskID := "task-a",
     Type' := "update-design" }]

theorem executeCommands_first_failure_witness :
    (ExecuteCommands wOracle wCmds).1.trace.length = 2 + 1
    ∧ (ExecuteCommands wOracle wCmds).1.trace.getLast?
        = some (replaceIDs (wCmds.getD 2 default).Args (ExecuteCommands wOracle wCmds).1.idMap)
    ∧ (ExecuteCommands wOracle wCmds).1.result.Created
        = ((wCmds.take 2).filter
            (fun c => c.Type' == "create-epic" || c.Type' == "create-task")).length
    ∧ (ExecuteCommands wOracle wCmds).2
        = some ("bd command failed: bd "
            ++ String.intercalate " "
                (replaceIDs (wCmds.getD 2 default).Args (ExecuteCommands wOracle wCmds).1.idMap)
            ++ "\n  Error: "
            ++ (if trimSpaceGo "boom" = "" then "exit status 1" else trimSpaceGo "boom")
            ++ "\n  " ++ toString (ExecuteCommands wOracle wCmds).1.result.Created
            ++ " issues created before failure") :=
  executeCommands_first_failure wOracle wCmds 2 "boom" "exit status 1" (by decide)
    (fun i hi => ⟨"bd-" ++ toString i, by
      unfold wOracle
      rw [if_neg (by omega)]⟩)
    (by decide)

/-! ## Write-once discipline of the substitution table (C9) -/

/-- The substitution-table write events of one successfully executed
command (mirrors the `switch` of `ExecuteCommands`). -/
def cmdWrites (cmd : BdCommand) (i : Nat) : List (String × Nat) :=
  if cmd.Type' = "create-epic" then [("<epic-id>", i)]
  else if cmd.Type' = "create-task" then [("<" ++ cmd.TaskID ++ "-id>", i)]
  else []

/-- The substitution-table read events of one successfully executed
command. -/
def cmdReads (cmd : BdCommand) (i : Nat) : List (String × Nat) :=
  if cmd.Type' = "create-epic" then []
  else if cmd.Type' = "create-task" then []
  else if cmd.Type' = "dep-add" then
    [("<" ++ cmd.DepTaskID ++ "-id>", i), ("<" ++ cmd.DepOnID ++ "-id>", i)]
  else []

/-- The event list of a command block whose first command has index `n`. -/
def eventsOf (f : BdCommand → Nat → List (String × Nat))
    (cmds : List BdCommand) (n : Nat) : List (String × Nat) :=
  (List.enumFrom n cmds).flatMap (fun p => f p.2 p.1)

theorem eventsOf_cons (f : BdCommand → Nat → List (String × Nat))
    (cmd : BdCommand) (rest : List BdCommand) (n : Nat) :
    eventsOf f (cmd :: rest) n = f cmd n ++ eventsOf f rest (n + 1) := rfl

theorem eventsOf_append (f : BdCommand → Nat → List (String × Nat))
    (l l' : List BdCommand) (n : Nat) :
    eventsOf f (l ++ l') n = eventsOf f l n ++ eventsOf f l' (n + l.length) := by
  unfold eventsOf
  rw [List.enumFrom_append, List.flatMap_append]

theorem execRecord_writes (cmd : BdCommand) (i : Nat) (args : List String)
    (bdID : String) (st : ExecState) :
    (execRecord cmd i args bdID st).writes = st.writes ++ cmdWrites cmd i := by
  unfold execRecord cmdWrites
  split_ifs <;> simp

theorem execRecord_reads (cmd : BdCommand) (i : Nat) (args : List String)
    (bdID : String) (st : ExecState) :
    (execRecord cmd i args bdID st).reads = st.reads ++ cmdReads cmd i := by
  unfold execRecord cmdReads
  split_ifs <;> simp

/-- Any run of the loop processes some prefix of the commands and records
exactly that prefix's table events. -/
theorem execLoop_events (oracle : Nat → ExecOutcome) :
    ∀ (cmds : List BdCommand) (n : Nat) (st : ExecState),
      ∃ m, m ≤ cmds.length
      ∧ (execLoop oracle cmds n st).1.writes
          = st.writes ++ eventsOf cmdWrites (cmds.take m) n
      ∧ (execLoop oracle cmds n st).1.reads
          = st.reads ++ eventsOf cmdReads (cmds.take m) n := by
  intro cmds
  induction cmds with
  | nil =>
      intro n st
      exact ⟨0, Nat.le_refl 0, by simp [execLoop, eventsOf], by simp [execLoop, eventsOf]⟩
  | cons cmd rest ih =>
      intro n st
      cases hout : runBdCommand (oracle n) with
      | error e =>
          refine ⟨0, Nat.zero_le _, ?_, ?_⟩ <;> simp [execLoop, hout, eventsOf]
      | ok bdID =>
          obtain ⟨m, hm, hw, hr⟩ := ih (n + 1)
            (execRecord cmd n (replaceIDs cmd.Args st.idMap) bdID
              { st with trace := st.trace ++ [replaceIDs cmd.Args st.idMap] })
          have hstep : execLoop oracle (cmd :: rest) n st
              = execLoop oracle rest (n + 1)
                  (execRecord cmd n (replaceIDs cmd.Args st.idMap) bdID
                    { st with trace := st.trace ++ [replaceIDs cmd.Args st.idMap] }) := by
            simp only [execLoop, hout]
          refine ⟨m + 1, Nat.succ_le_succ hm, ?_, ?_⟩
          · rw [hstep, hw, execRecord_writes]
            simp [List.take_succ_cons, eventsOf_cons, List.append_assoc]
          · rw [hstep, hr, execRecord_reads]
            simp [List.take_succ_cons, eventsOf_cons, List.append_assoc]

theorem cmdWrites_index (cmd : BdCommand) (i : Nat) (p : String × Nat)
    (hp : p ∈ cmdWrites cmd i) : p.2 = i := by
  unfold cmdWrites at hp
  split_ifs at hp <;> simp at hp <;> simp [hp]

theorem cmdReads_index (cmd : BdCommand) (i : Nat) (p : String × Nat)
    (hp : p ∈ cmdReads cmd i) : p.2 = i := by
  unfold cmdReads at hp
  split_ifs at hp <;> simp at hp
  rcases hp with hp | hp <;> simp [hp]

/-- Every event of a block carries an index within the block's range. -/
theorem eventsOf_index (f : BdCommand → Nat → List (String × Nat))
    (hf : ∀ cmd i p, p ∈ f cmd i → p.2 = i) :
    ∀ (l : List BdCommand) (n : Nat) (p : String × Nat),
      p ∈ eventsOf f l n → n ≤ p.2 ∧ p.2 < n + l.length := by
  intro l
  induction l with
  | nil =>
      intro n p hp
      simp [eventsOf] at hp
  | cons cmd rest ih =>
      intro n p hp
      rw [eventsOf_cons, List.mem_append] at hp
      rcases hp with hp | hp
      · have h := hf cmd n p hp
        simp only [List.length_cons]
        omega
      · have h := ih (n + 1) p hp
        simp only [List.length_cons]
        omega

/-- A block of commands of non-writing types produces no write events. -/
theorem eventsOf_writes_nil :
    ∀ (l : List BdCommand),
      (∀ cmd ∈ l, cmd.Type' ≠ "create-epic" ∧ cmd.Type' ≠ "create-task") →
      ∀ n, eventsOf cmdWrites l n = [] := by
  intro l
  induction l with
  | nil => intro _ n; rfl
  | cons cmd rest ih =>
      intro h n
      rw [eventsOf_cons, ih (fun c hc => h c (List.mem_cons_of_mem _ hc)) (n + 1)]
      have h1 := h cmd (List.mem_cons_self _ _)
      simp [cmdWrites, h1.1, h1.2]

/-- A block of commands of non-reading types produces no read events. -/
theorem eventsOf_reads_nil :
    ∀ (l : List BdCommand),
      (∀ cmd ∈ l, cmd.Type' ≠ "dep-add") →
      ∀ n, eventsOf cmdReads l n = [] := by
  intro l
  induction l with
  | nil => intro _ n; rfl
  | cons cmd rest ih =>
      intro h n
      rw [eventsOf_cons, ih (fun c hc => h c (List.mem_cons_of_mem _ hc)) (n + 1)]
      have h1 := h cmd (List.mem_cons_self _ _)
      have hz : cmdReads cmd n = [] := by
        unfold cmdReads
        split_ifs <;> first | rfl | exact absurd ‹cmd.Type' = "dep-add"› h1
      simp [hz]

theorem type_ne (cmd : BdCommand) (s t : String) (h : cmd.Type' = s) (hst : s ≠ t) :
    cmd.Type' ≠ t := by
  rw [h]
  exact hst

theorem cmdWrites_epic (cmd : BdCommand) (i : Nat) (h : cmd.Type' = "create-epic") :
    cmdWrites cmd i = [("<epic-id>", i)] := by
  unfold cmdWrites
  rw [if_pos h]

theorem cmdWrites_task (cmd : BdCommand) (i : Nat) (h : cmd.Type' = "create-task") :
    cmdWrites cmd i = [("<" ++ cmd.TaskID ++ "-id>", i)] := by
  unfold cmdWrites
  rw [if_neg (type_ne cmd _ _ h (by decide)), if_pos h]

/-- What a read event reveals about its command. -/
theorem cmdReads_mem (cmd : BdCommand) (i : Nat) (p : String × Nat)
    (hp : p ∈ cmdReads cmd i) :
    cmd.Type' = "dep-add"
    ∧ (p.1 = "<" ++ cmd.DepTaskID ++ "-id>" ∨ p.1 = "<" ++ cmd.DepOnID ++ "-id>")
    ∧ p.2 = i := by
  unfold cmdReads at hp
  split_ifs at hp with a b c
  · cases hp
  · cases hp
  · rcases List.mem_cons.mp hp with h | h
    · exact ⟨c, Or.inl (by rw [h]), by rw [h]⟩
    · rcases List.mem_cons.mp h with h | h
      · exact ⟨c, Or.inr (by rw [h]), by rw [h]⟩
      · cases h
  · cases hp

theorem enumFrom_snd_mem {α : Type} :
    ∀ (l : List α) (n : Nat) (q : Nat × α), q ∈ List.enumFrom n l →
      n ≤ q.1 ∧ q.2 ∈ l := by
  intro l
  induction l with
  | nil => intro n q hq; cases hq
  | cons x xs ih =>
      intro n q hq
      rw [List.enumFrom_cons] at hq
      rcases List.mem_cons.mp hq with rfl | hq
      · exact ⟨Nat.le_refl n, List.mem_cons_self _ _⟩
      · obtain ⟨h1, h2⟩ := ih (n + 1) q hq
        exact ⟨by omega, List.mem_cons_of_mem _ h2⟩

/-- The write events of the create-task block. -/
theorem eventsOf_creates (c : Creator) :
    ∀ (l : List TaskNode) (n : Nat),
      eventsOf cmdWrites (l.map (fun task =>
        { Args := c.buildTaskCreateArgs task "<epic-id>", TaskID := task.TaskID,
          Type' := "create-task" : BdCommand })) n
      = (List.enumFrom n l).map (fun q => ("<" ++ q.2.TaskID ++ "-id>", q.1)) := by
  intro l
  induction l with
  | nil => intro n; rfl
  | cons t ts ih =>
      intro n
      rw [List.map_cons, eventsOf_cons, ih (n + 1), cmdWrites_task _ n rfl,
        List.enumFrom_cons]
      rfl

theorem enumFrom_map_val {α β : Type} (f : α → β) :
    ∀ (l : List α) (n : Nat), (List.enumFrom n l).map (fun q => f q.2) = l.map f := by
  intro l
  induction l with
  | nil => intro n; rfl
  | cons x xs ih =>
      intro n
      rw [List.enumFrom_cons, List.map_cons, ih (n + 1), List.map_cons]

theorem enumFrom_mem_of_mem {α : Type} :
    ∀ (l : List α) (n : Nat) (x : α), x ∈ l →
      ∃ q ∈ List.enumFrom n l, q.2 = x ∧ n ≤ q.1 ∧ q.1 < n + l.length := by
  intro l
  induction l with
  | nil => intro n x hx; cases hx
  | cons y ys ih =>
      intro n x hx
      rcases List.mem_cons.mp hx with rfl | hx
      · refine ⟨(n, x), ?_, rfl, Nat.le_refl n, by simp⟩
        rw [List.enumFrom_cons]
        exact List.mem_cons_self _ _
      · obtain ⟨q, hq, hqx, hq1, hq2⟩ := ih (n + 1) x hx
        refine ⟨q, ?_, hqx, by omega, ?_⟩
        · rw [List.enumFrom_cons]
          exact List.mem_cons_of_mem _ hq
        · simp only [List.length_cons]
          omega

/-- Placeholder wrapping is injective. -/
theorem wrap_inj (a b : String) (h : "<" ++ a ++ "-id>" = "<" ++ b ++ "-id>") :
    a = b := by
  have hd := congrArg String.data h
  simp only [String.data_append] at hd
  exact String.ext (List.append_cancel_left (List.append_cancel_right hd))

/-- The full static write-event list of `BuildGraphCommands`: the epic
placeholder at index 0, then each emitted task's placeholder at its
create-task index. -/
theorem buildGraphCommands_writes (c : Creator) (g : TaskGraph) :
    eventsOf cmdWrites (c.BuildGraphCommands g) 0
      = ("<epic-id>", 0) :: (List.enumFrom 1 (topologicalSort g)).map
          (fun q => ("<" ++ q.2.TaskID ++ "-id>", q.1)) := by
  simp only [Creator.BuildGraphCommands]
  rw [List.append_assoc, List.append_assoc, List.singleton_append,
    eventsOf_cons, eventsOf_append, eventsOf_creates]
  have hdeps : eventsOf cmdWrites
      ((topologicalSort g).flatMap (fun task =>
        (depsOf task).map (fun dep =>
          { Args := ["dep", "add", "<" ++ task.TaskID ++ "-id>", "<" ++ dep ++ "-id>"],
            Type' := "dep-add", DepTaskID := task.TaskID, DepOnID := dep : BdCommand }))
        ++ (topologicalSort g).map (fun task =>
          { Args := ["update", "<" ++ task.TaskID ++ "-id>", "--design",
                     BuildTemplateMetadata task],
            TaskID := task.TaskID, Type' := "update-design" : BdCommand }))
      (0 + 1 + (List.map (fun task =>
        { Args := c.buildTaskCreateArgs task "<epic-id>", TaskID := task.TaskID,
          Type' := "create-task" : BdCommand }) (topologicalSort g)).length) = [] := by
    apply eventsOf_writes_nil
    intro cmd hc
    rcases List.mem_append.mp hc with hc | hc
    · rcases List.mem_flatMap.mp hc with ⟨task, _, hc2⟩
      rcases List.mem_map.mp hc2 with ⟨dep, _, heq⟩
      rw [← heq]
      exact ⟨type_ne _ "dep-add" _ rfl (by decide), type_ne _ "dep-add" _ rfl (by decide)⟩
    · rcases List.mem_map.mp hc with ⟨task, _, heq⟩
      rw [← heq]
      exact ⟨type_ne _ "update-design" _ rfl (by decide),
        type_ne _ "update-design" _ rfl (by decide)⟩
  rw [hdeps, List.append_nil, cmdWrites_epic _ 0 rfl]
  simp

/-- Every read event of `BuildGraphCommands` sits after the whole create
block and reads the placeholder of an emitted task id. -/
theorem buildGraphCommands_reads (c : Creator) (g : TaskGraph)
    (hres : ∀ t ∈ g.Tasks, ∀ d ∈ depsOf t, d ∈ taskIDs g.Tasks)
    (hmem : ∀ t ∈ topologicalSort g, t ∈ g.Tasks)
    (hiff : ∀ id, id ∈ taskIDs g.Tasks ↔ id ∈ (topologicalSort g).map (·.TaskID)) :
    ∀ p ∈ eventsOf cmdReads (c.BuildGraphCommands g) 0,
      1 + (topologicalSort g).length ≤ p.2
      ∧ ∃ tid ∈ (topologicalSort g).map (·.TaskID), p.1 = "<" ++ tid ++ "-id>" := by
  intro p hp
  unfold eventsOf at hp
  obtain ⟨q, hq, hpq⟩ := List.mem_flatMap.mp hp
  obtain ⟨htype, hdisj, hidx⟩ := cmdReads_mem q.2 q.1 p hpq
  simp only [Creator.BuildGraphCommands] at hq
  rw [List.append_assoc, List.append_assoc, List.singleton_append,
    List.enumFrom_cons] at hq
  rcases List.mem_cons.mp hq with hq0 | hq1
  · have hqc := congrArg Prod.snd hq0
    rw [hqc] at htype
    exact absurd htype (type_ne _ "create-epic" _ rfl (by decide))
  · rw [List.enumFrom_append] at hq1
    rcases List.mem_append.mp hq1 with hq2 | hq2
    · have hqc := (enumFrom_snd_mem _ _ _ hq2).2
      rcases List.mem_map.mp hqc with ⟨task, _, heq⟩
      rw [← heq] at htype
      exact absurd htype (type_ne _ "create-task" _ rfl (by decide))
    · have hlow := (enumFrom_snd_mem _ _ _ hq2).1
      have hqc := (enumFrom_snd_mem _ _ _ hq2).2
      rcases List.mem_append.mp hqc with hq3 | hq3
      · rcases List.mem_flatMap.mp hq3 with ⟨task, htask, hq4⟩
        rcases List.mem_map.mp hq4 with ⟨dep, hdep, heq⟩
        rw [← heq] at hdisj
        constructor
        · simp only [List.length_map] at hlow
          omega
        · rcases hdisj with hk | hk
          · exact ⟨task.TaskID, (hiff task.TaskID).mp
              (List.mem_map_of_mem _ (hmem task htask)), hk⟩
          · exact ⟨dep, (hiff dep).mp (hres task (hmem task htask) dep hdep), hk⟩
      · rcases List.mem_map.mp hq3 with ⟨task, _, heq⟩
        rw [← heq] at htype
        exact absurd htype (type_ne _ "update-design" _ rfl (by decide))

/-- C9 (amended with the `"epic"` id exclusion): for a command list built
from a validated graph none of whose task ids is the literal `"epic"`, any
run of `ExecuteCommands` — however far it gets — writes every substitution
key at most once, and every read of a key happens strictly after a write of
that key. -/
theorem executeCommands_write_once (c : Creator) (g : TaskGraph)
    (oracle : Nat → ExecOutcome)
    (hu : (taskIDs g.Tasks).Nodup)
    (hres : ∀ t ∈ g.Tasks, ∀ d ∈ depsOf t, d ∈ taskIDs g.Tasks)
    (hacyc : Acyclic g.Tasks)
    (hne : "epic" ∉ taskIDs g.Tasks) :
    ((ExecuteCommands oracle (c.BuildGraphCommands g)).1.writes.map Prod.fst).Nodup
    ∧ ∀ p ∈ (ExecuteCommands oracle (c.BuildGraphCommands g)).1.reads,
        ∃ q ∈ (ExecuteCommands oracle (c.BuildGraphCommands g)).1.writes,
          q.1 = p.1 ∧ q.2 < p.2 := by
  obtain ⟨hnodup, hiff, hmem, _⟩ := topologicalSort_sound g hu hres hacyc
  set cmds := c.BuildGraphCommands g with hcmds
  obtain ⟨m, hm, hw, hr⟩ := execLoop_events oracle cmds 0 {}
  have hrunw : (ExecuteCommands oracle cmds).1.writes
      = eventsOf cmdWrites (cmds.take m) 0 := by
    unfold ExecuteCommands
    rw [hw]
    rfl
  have hrunr : (ExecuteCommands oracle cmds).1.reads
      = eventsOf cmdReads (cmds.take m) 0 := by
    unfold ExecuteCommands
    rw [hr]
    rfl
  have hsplitw : eventsOf cmdWrites cmds 0
      = eventsOf cmdWrites (cmds.take m) 0
        ++ eventsOf cmdWrites (cmds.drop m) (0 + (cmds.take m).length) := by
    rw [← eventsOf_append, List.take_append_drop]
  have hfullw := buildGraphCommands_writes c g
  have hkeysfull : (eventsOf cmdWrites cmds 0).map Prod.fst
      = "<epic-id>" :: (topologicalSort g).map (fun t => "<" ++ t.TaskID ++ "-id>") := by
    rw [hcmds, hfullw]
    simp only [List.map_cons, List.map_map]
    rw [show ((fun p : String × Nat => p.1)
          ∘ fun q : Nat × TaskNode => ("<" ++ q.2.TaskID ++ "-id>", q.1))
        = fun q : Nat × TaskNode => "<" ++ q.2.TaskID ++ "-id>" from rfl]
    rw [enumFrom_map_val (fun t => "<" ++ t.TaskID ++ "-id>") (topologicalSort g) 1]
  have hkeysnodup : ((eventsOf cmdWrites cmds 0).map Prod.fst).Nodup := by
    rw [hkeysfull]
    refine List.nodup_cons.mpr ⟨?_, ?_⟩
    · intro hc
      rcases List.mem_map.mp hc with ⟨t, ht, hteq⟩
      have : "epic" = t.TaskID := by
        apply wrap_inj
        rw [show ("<epic-id>" : String) = "<" ++ "epic" ++ "-id>" from by decide] at hteq
        exact hteq.symm
      apply hne
      rw [this]
      exact List.mem_map_of_mem _ (hmem t ht)
    · rw [show (topologicalSort g).map (fun t => "<" ++ t.TaskID ++ "-id>")
          = ((topologicalSort g).map (·.TaskID)).map (fun s => "<" ++ s ++ "-id>") from by
            rw [List.map_map]
            rfl]
      exact hnodup.map (fun a b h => wrap_inj a b h)
  refine ⟨?_, ?_⟩
  · rw [hrunw]
    have hpref : (eventsOf cmdWrites (cmds.take m) 0).map Prod.fst <+:
        (eventsOf cmdWrites cmds 0).map Prod.fst := by
      rw [hsplitw, List.map_append]
      exact List.prefix_append _ _
    exact hkeysnodup.sublist hpref.sublist
  · intro p hp
    rw [hrunr] at hp
    have hpfull : p ∈ eventsOf cmdReads cmds 0 := by
      rw [show eventsOf cmdReads cmds 0
          = eventsOf cmdReads (cmds.take m) 0
            ++ eventsOf cmdReads (cmds.drop m) (0 + (cmds.take m).length) from by
          rw [← eventsOf_append, List.take_append_drop]]
      exact List.mem_append_left _ hp
    obtain ⟨hplow, tid, htid, hpkey⟩ :=
      buildGraphCommands_reads c g hres hmem hiff p hpfull
    rcases List.mem_map.mp htid with ⟨t, ht, rfl⟩
    obtain ⟨q, hq, hq2, hq1, hq1top⟩ :=
      enumFrom_mem_of_mem (topologicalSort g) 1 t ht
    have hwmem : ("<" ++ t.TaskID ++ "-id>", q.1) ∈ eventsOf cmdWrites cmds 0 := by
      rw [hcmds, hfullw]
      refine List.mem_cons_of_mem _ ?_
      have : ("<" ++ t.TaskID ++ "-id>", q.1)
          = (fun r : Nat × TaskNode => ("<" ++ r.2.TaskID ++ "-id>", r.1)) q := by
        show ("<" ++ t.TaskID ++ "-id>", q.1) = ("<" ++ q.2.TaskID ++ "-id>", q.1)
        rw [hq2]
      rw [this]
      exact List.mem_map_of_mem _ hq
    have hq1p : q.1 < p.2 := by omega
    have hpup : p.2 < 0 + (cmds.take m).length :=
      (eventsOf_index cmdReads cmdReads_index _ _ _ hp).2
    have hwpre : ("<" ++ t.TaskID ++ "-id>", q.1)
        ∈ eventsOf cmdWrites (cmds.take m) 0 := by
      rw [hsplitw, List.mem_append] at hwmem
      rcases hwmem with h | h
      · exact h
      · have := (eventsOf_index cmdWrites cmdWrites_index _ _ _ h).1
        omega
    rw [hrunw]
    exact ⟨("<" ++ t.TaskID ++ "-id>", q.1), hwpre, hpkey.symm, hq1p⟩

/-- The validated one-task graph whose task id is the literal `"epic"`:
the task placeholder collides with the epic placeholder. -/
def gEpicT : TaskNode :=
  { TaskID := "epic", TaskName := "Task E", Goal := "E is done.",
    DependsOn := .strList [], Constraints := .strList [],
    FilesScope := .strList ["e.go"], Acceptance := ["E passes"] }

def gEpicG : TaskGraph := { Version := "0.1.0", Tasks := [gEpicT] }

/-- C9 counterexample: the graph with task id `"epic"` passes the full
validation, yet its execution writes the key `<epic-id>` twice. -/
theorem executeCommands_write_once_counterexample :
    ((Validate { parsedGraph := some gEpicG } Mode.taskGraph ["epic"] ["epic"]).map
        (fun r => r.Valid) = Except.ok true)
    ∧ ((ExecuteCommands (fun _ => ExecOutcome.ok "bd-1")
          (({} : Creator).BuildGraphCommands gEpicG)).1.writes.map Prod.fst
        = ["<epic-id>", "<epic-id>"])
    ∧ ¬ (((ExecuteCommands (fun _ => ExecOutcome.ok "bd-1")
          (({} : Creator).BuildGraphCommands gEpicG)).1.writes.map Prod.fst).Nodup) := by
  refine ⟨by decide, by decide, by decide⟩

theorem executeCommands_write_once_witness :
    (((ExecuteCommands (fun _ => ExecOutcome.ok "bd-1")
        (({} : Creator).BuildGraphCommands wG)).1.writes.map Prod.fst).Nodup)
    ∧ ∀ p ∈ (ExecuteCommands (fun _ => ExecOutcome.ok "bd-1")
          (({} : Creator).BuildGraphCommands wG)).1.reads,
        ∃ q ∈ (ExecuteCommands (fun _ => ExecOutcome.ok "bd-1")
            (({} : Creator).BuildGraphCommands wG)).1.writes,
          q.1 = p.1 ∧ q.2 < p.2 := by
  have hacyc : Acyclic wG.Tasks := by
    apply acyclic_of_rank wG.Tasks (fun s => if s = "task-a" then 0 else 1)
    intro d v he
    unfold Edge at he
    obtain ⟨t, ht, htv, hdep, hdid⟩ := he
    subst htv
    have ht' : t = wTA ∨ t = wTB := by simpa [wG] using ht
    rcases ht' with rfl | rfl
    · have hnil : depsOf wTA = [] := by decide
      rw [hnil] at hdep
      cases hdep
    · have hone : depsOf wTB = ["task-a"] := by decide
      rw [hone] at hdep
      have hd : d = "task-a" := by simpa using hdep
      subst hd
      decide
  exact executeCommands_write_once {} wG (fun _ => ExecOutcome.ok "bd-1")
    (by decide) (by decide) hacyc (by decide)

/-! ## Determinism of `Validate` up to map-iteration order (C4) -/

theorem addErrors_Stats (errs : List ValidationError) :
    ∀ vr : ValidationResult, (addErrors vr errs).Stats
      = { TotalTasks := vr.Stats.TotalTasks,
          ErrorCount := vr.Stats.ErrorCount
            + errs.countP (fun e => e.Severity == SeverityError),
          WarningCount := vr.Stats.WarningCount
            + errs.countP (fun e => e.Severity == SeverityWarning),
          InfoCount := vr.Stats.InfoCount
            + errs.countP (fun e => e.Severity == SeverityInfo) } := by
  induction errs with
  | nil =>
      intro vr
      simp [addErrors, List.countP_nil]
  | cons e es ih =>
      intro vr
      show (addErrors (vr.AddError e) es).Stats = _
      rw [ih, AddError_Stats]
      simp only [List.countP_cons, ValidationStats.mk.injEq, beq_iff_eq]
      refine ⟨trivial, ?_, ?_, ?_⟩ <;> split_ifs <;> omega

theorem semValidate_Stats (g : TaskGraph) (so mo : List String) (res : ValidationResult) :
    (semValidateTaskGraph g so mo res).Stats
      = { TotalTasks := g.Tasks.length,
          ErrorCount := res.Stats.ErrorCount
            + (semErrs g so mo).countP (fun e => e.Severity == SeverityError),
          WarningCount := res.Stats.WarningCount
            + (semErrs g so mo).countP (fun e => e.Severity == SeverityWarning),
          InfoCount := res.Stats.InfoCount
            + (semErrs g so mo).countP (fun e => e.Severity == SeverityInfo) } := by
  unfold semValidateTaskGraph
  rw [addErrors_Stats]

/-- Lists of findings with the same severities in the same order have the
same error-count test. -/
theorem all_sev_congr :
    ∀ (errs1 errs2 : List ValidationError),
      errs1.map (fun e => e.Severity) = errs2.map (fun e => e.Severity) →
      ∀ (p : String → Bool),
        errs1.all (fun e => p e.Severity) = errs2.all (fun e => p e.Severity) := by
  intro errs1
  induction errs1 with
  | nil =>
      intro errs2 h p
      have : errs2 = [] := by
        cases errs2 with
        | nil => rfl
        | cons x xs => simp at h
      rw [this]
  | cons e es ih =>
      intro errs2 h p
      cases errs2 with
      | nil => simp at h
      | cons x xs =>
          simp only [List.map_cons, List.cons.injEq] at h
          simp only [List.all_cons, h.1, ih xs h.2 p]

/-- Lists of findings with the same severities have the same severity
counts. -/
theorem countP_sev_congr :
    ∀ (errs1 errs2 : List ValidationError),
      errs1.map (fun e => e.Severity) = errs2.map (fun e => e.Severity) →
      ∀ (X : String),
        errs1.countP (fun e => e.Severity == X) = errs2.countP (fun e => e.Severity == X) := by
  intro errs1
  induction errs1 with
  | nil =>
      intro errs2 h X
      have : errs2 = [] := by
        cases errs2 with
        | nil => rfl
        | cons x xs => simp at h
      rw [this]
  | cons e es ih =>
      intro errs2 h X
      cases errs2 with
      | nil => simp at h
      | cons x xs =>
          simp only [List.map_cons, List.cons.injEq] at h
          simp only [List.countP_cons, h.1, ih xs h.2 X]

/-- The Kahn run performed by `checkDAGAcyclicity` for a given seeding
order. -/
def dagRun (g : TaskGraph) (seedOrd : List String) : (String → Int) × List String :=
  let maps := buildAdjIndeg g.Tasks
  let queue := seedOrd.filter (fun id => maps.2 id = 0)
  kahnLoop maps.1 (queue.length + g.Tasks.length) queue maps.2 []

theorem checkDAG_eq_dagRun (g : TaskGraph) (seedOrd memOrd : List String) :
    checkDAGAcyclicity g seedOrd memOrd
      = if (dagRun g seedOrd).2.length < g.Tasks.length then
          [cycleError (memOrd.filter (fun id => (dagRun g seedOrd).1 id > 0))]
        else [] := rfl

/-- The final Kahn invariant of `dagRun`, for any seeding order that is a
permutation of the in-degree map's keys. -/
theorem dagRun_inv (g : TaskGraph) (seedOrd : List String)
    (hseed : seedOrd.Perm (mapKeys g.Tasks)) :
    KahnInv (buildAdjIndeg g.Tasks).1 (mapKeys g.Tasks) []
      (dagRun g seedOrd).1 (dagRun g seedOrd).2 := by
  have spec := buildAdjIndeg_spec g.Tasks
  set adj := (buildAdjIndeg g.Tasks).1 with hadjdef
  set indeg0 := (buildAdjIndeg g.Tasks).2 with hindegdef
  set keys := mapKeys g.Tasks with hkeysdef
  have hkeys : keys.Nodup := List.nodup_dedup _
  have hmemkeys : ∀ x, x ∈ keys ↔ x ∈ taskIDs g.Tasks := fun x => List.mem_dedup
  have hseednd : seedOrd.Nodup := hseed.symm.nodup hkeys
  have hadj : ∀ u v, v ∈ adj u → u ∈ keys ∧ v ∈ keys := by
    intro u v hv
    rcases spec.1 u v hv with ⟨hu1, t, ht, rfl, _⟩
    exact ⟨(hmemkeys u).mpr hu1, (hmemkeys t.TaskID).mpr (List.mem_map_of_mem _ ht)⟩
  set queue := seedOrd.filter (fun id => indeg0 id = 0) with hqdef
  have hinv : KahnInv adj keys queue indeg0 [] :=
    { nodupO := List.nodup_nil
      nodupQ := hseednd.filter _
      disjQO := fun x _ => List.not_mem_nil x
      subO := fun x hx => absurd hx (List.not_mem_nil x)
      subQ := fun x hx => hseed.subset (List.mem_of_mem_filter hx)
      resid := spec.2.2
      ready := by
        intro v hv hz
        right
        exact List.mem_filter.mpr ⟨hseed.symm.subset hv, by simpa using hz⟩
      qzero := by
        intro v hv
        simpa using (List.mem_filter.mp hv).2
      order := fun v hv => absurd hv (List.not_mem_nil v) }
  have hfuel : queue.length + freshCount keys [] queue ≤ queue.length + g.Tasks.length := by
    have h1 : freshCount keys [] queue ≤ keys.toFinset.card := by
      unfold freshCount
      exact Finset.card_le_card ((Finset.sdiff_subset).trans Finset.sdiff_subset)
    have h2 : keys.toFinset.card ≤ keys.length := keys.toFinset_card_le
    have h3 : keys.length ≤ (taskIDs g.Tasks).length := (List.dedup_sublist _).length_le
    have h4 : (taskIDs g.Tasks).length = g.Tasks.length := List.length_map _ _
    omega
  have hmaster := kahnLoop_master adj keys hkeys hadj
    (queue.length + g.Tasks.length) queue indeg0 [] hinv hfuel
  have hrun : dagRun g seedOrd
      = kahnLoop adj (queue.length + g.Tasks.length) queue indeg0 [] := rfl
  rw [hrun]
  exact hmaster.1

/-- After the run, a key has positive residual in-degree iff it was not
processed. -/
theorem dagRun_resid_iff (g : TaskGraph) (seedOrd : List String)
    (hseed : seedOrd.Perm (mapKeys g.Tasks)) :
    ∀ v ∈ mapKeys g.Tasks,
      ((dagRun g seedOrd).1 v > 0 ↔ v ∉ (dagRun g seedOrd).2) := by
  have hF := dagRun_inv g seedOrd hseed
  intro v hv
  constructor
  · intro hpos hvO
    have hz : residSum (buildAdjIndeg g.Tasks).1 (mapKeys g.Tasks)
        (dagRun g seedOrd).2 v = 0 := by
      unfold residSum
      apply List.sum_eq_zero
      intro x hx
      rcases List.mem_map.mp hx with ⟨u, hu, rfl⟩
      have huf := List.mem_filter.mp hu
      by_contra hxne
      have hcount : 0 < ((buildAdjIndeg g.Tasks).1 u).count v := Nat.pos_of_ne_zero hxne
      have hvadj : v ∈ (buildAdjIndeg g.Tasks).1 u := List.count_pos_iff.mp hcount
      have := (hF.order v hvO u hvadj).1
      exact absurd this (by simpa using huf.2)
    rw [hF.resid v, hz] at hpos
    simp at hpos
  · intro hvO
    rcases Int.lt_or_le 0 ((dagRun g seedOrd).1 v) with h | h
    · exact h
    · exfalso
      have hres := hF.resid v
      have hzero : (dagRun g seedOrd).1 v = 0 := by omega
      rcases hF.ready v hv hzero with h2 | h2
      · exact hvO h2
      · exact absurd h2 (List.not_mem_nil v)

/-- Confluence, one direction: every key processed under one seeding order
is processed under any other. -/
theorem dagRun_subset (g : TaskGraph) (s1 s2 : List String)
    (h1 : s1.Perm (mapKeys g.Tasks)) (h2 : s2.Perm (mapKeys g.Tasks)) :
    ∀ v ∈ (dagRun g s1).2, v ∈ (dagRun g s2).2 := by
  have hF1 := dagRun_inv g s1 h1
  have main : ∀ n, ∀ v, (dagRun g s1).2.indexOf v = n →
      v ∈ (dagRun g s1).2 → v ∈ (dagRun g s2).2 := by
    intro n
    induction n using Nat.strong_induction_on with
    | _ n ih =>
        intro v hn hv1
        by_contra hv2
        have hvK : v ∈ mapKeys g.Tasks := hF1.subO v hv1
        have hpos : (dagRun g s2).1 v > 0 := (dagRun_resid_iff g s2 h2 v hvK).mpr hv2
        have hF2 := dagRun_inv g s2 h2
        have hrpos : residSum (buildAdjIndeg g.Tasks).1 (mapKeys g.Tasks)
            (dagRun g s2).2 v ≠ 0 := by
          intro hz
          rw [hF2.resid v, hz] at hpos
          simp at hpos
        have hterm : ∃ u ∈ (mapKeys g.Tasks).filter (fun u => u ∉ (dagRun g s2).2),
            0 < ((buildAdjIndeg g.Tasks).1 u).count v := by
          by_contra hc
          push_neg at hc
          apply hrpos
          unfold residSum
          apply List.sum_eq_zero
          intro x hx
          rcases List.mem_map.mp hx with ⟨u, hu, rfl⟩
          exact Nat.eq_zero_of_le_zero (hc u hu)
        rcases hterm with ⟨u, hu, hcount⟩
        have huf := List.mem_filter.mp hu
        have hvadj : v ∈ (buildAdjIndeg g.Tasks).1 u := List.count_pos_iff.mp hcount
        have hord := hF1.order v hv1 u hvadj
        have hu2 : u ∉ (dagRun g s2).2 := by simpa using huf.2
        exact hu2 (ih _ (hn ▸ hord.2) u rfl hord.1)
  intro v hv
  exact main _ v rfl hv

theorem dagRun_mem_iff (g : TaskGraph) (s1 s2 : List String)
    (h1 : s1.Perm (mapKeys g.Tasks)) (h2 : s2.Perm (mapKeys g.Tasks)) :
    ∀ v, v ∈ (dagRun g s1).2 ↔ v ∈ (dagRun g s2).2 := fun v =>
  ⟨dagRun_subset g s1 s2 h1 h2 v, dagRun_subset g s2 s1 h2 h1 v⟩

theorem dagRun_perm (g : TaskGraph) (s1 s2 : List String)
    (h1 : s1.Perm (mapKeys g.Tasks)) (h2 : s2.Perm (mapKeys g.Tasks)) :
    (dagRun g s1).2.Perm (dagRun g s2).2 :=
  (List.perm_ext_iff_of_nodup (dagRun_inv g s1 h1).nodupO
    (dagRun_inv g s2 h2).nodupO).mpr (dagRun_mem_iff g s1 s2 h1 h2)

/-- The cycle-member listings of two runs are permutations of each
other. -/
theorem dagRun_members_perm (g : TaskGraph) (s1 m1 s2 m2 : List String)
    (hs1 : s1.Perm (mapKeys g.Tasks)) (hm1 : m1.Perm (mapKeys g.Tasks))
    (hs2 : s2.Perm (mapKeys g.Tasks)) (hm2 : m2.Perm (mapKeys g.Tasks)) :
    (m1.filter (fun id => (dagRun g s1).1 id > 0)).Perm
      (m2.filter (fun id => (dagRun g s2).1 id > 0)) := by
  have hcong : m2.filter (fun id => (dagRun g s2).1 id > 0)
      = m2.filter (fun id => (dagRun g s1).1 id > 0) := by
    apply List.filter_congr
    intro x hx
    have hxK : x ∈ mapKeys g.Tasks := hm2.subset hx
    apply decide_eq_decide.mpr
    rw [dagRun_resid_iff g s2 hs2 x hxK, dagRun_resid_iff g s1 hs1 x hxK]
    exact not_congr ((dagRun_mem_iff g s1 s2 hs1 hs2 x).symm)
  rw [hcong]
  exact (hm1.trans hm2.symm).filter _

/-- `checkDAGAcyclicity` under two (legitimate) iteration-order pairs:
either both runs accept, or both emit the V5 finding, listing the same
cycle members up to order. -/
theorem checkDAG_confluent (g : TaskGraph) (s1 m1 s2 m2 : List String)
    (hs1 : s1.Perm (mapKeys g.Tasks)) (hm1 : m1.Perm (mapKeys g.Tasks))
    (hs2 : s2.Perm (mapKeys g.Tasks)) (hm2 : m2.Perm (mapKeys g.Tasks)) :
    (checkDAGAcyclicity g s1 m1 = [] ∧ checkDAGAcyclicity g s2 m2 = [])
    ∨ (∃ mems1 mems2 : List String, mems1.Perm mems2
        ∧ checkDAGAcyclicity g s1 m1 = [cycleError mems1]
        ∧ checkDAGAcyclicity g s2 m2 = [cycleError mems2]) := by
  rw [checkDAG_eq_dagRun g s1 m1, checkDAG_eq_dagRun g s2 m2]
  have hlen : (dagRun g s1).2.length = (dagRun g s2).2.length :=
    (dagRun_perm g s1 s2 hs1 hs2).length_eq
  by_cases h : (dagRun g s1).2.length < g.Tasks.length
  · right
    refine ⟨_, _, dagRun_members_perm g s1 m1 s2 m2 hs1 hm1 hs2 hm2, ?_, ?_⟩
    · rw [if_pos h]
    · rw [if_pos (hlen ▸ h)]
  · left
    constructor
    · rw [if_neg h]
    · rw [if_neg (by omega)]

/-- `semErrs` split around the order-sensitive V5 check. -/
theorem semErrs_decomp (g : TaskGraph) (s m : List String) :
    semErrs g s m
      = (checkUniqueTaskIDs g ++ checkDependencyReferences g)
        ++ (checkDAGAcyclicity g s m
            ++ (checkGoalQuality g ++ (checkAcceptanceQuality g
                ++ (checkContextualFields g ++ (checkFilesScope g
                ++ checkMilestones g))))) := by
  unfold semErrs
  simp only [List.append_assoc]

/-- The graph-attaching step at the end of both `Validate` branches. -/
def attachGraph (graph : TaskGraph) (r2 : ValidationResult) : ValidationResult :=
  if r2.Valid then { r2 with Graph := some graph } else r2

theorem attachGraph_Valid (graph : TaskGraph) (r2 : ValidationResult) :
    (attachGraph graph r2).Valid = r2.Valid := by
  unfold attachGraph
  split_ifs <;> rfl

theorem attachGraph_Stats (graph : TaskGraph) (r2 : ValidationResult) :
    (attachGraph graph r2).Stats = r2.Stats := by
  unfold attachGraph
  split_ifs <;> rfl

theorem attachGraph_Errors (graph : TaskGraph) (r2 : ValidationResult) :
    (attachGraph graph r2).Errors = r2.Errors := by
  unfold attachGraph
  split_ifs <;> rfl

theorem attachGraph_Graph (graph : TaskGraph) (r2 : ValidationResult) :
    (attachGraph graph r2).Graph
      = (if r2.Valid = true then some graph else r2.Graph) := by
  unfold attachGraph
  split_ifs <;> rfl

/-- The no-ERROR test only inspects severities. -/
theorem allNoErr_congr (errs1 errs2 : List ValidationError)
    (h : errs1.map (fun e => e.Severity) = errs2.map (fun e => e.Severity)) :
    errs1.all (fun e => !(e.Severity == SeverityError))
      = errs2.all (fun e => !(e.Severity == SeverityError)) :=
  all_sev_congr errs1 errs2 h (fun s => !(s == SeverityError))

/-- Tier 2 under two legitimate order pairs: the attached results agree on
`Valid`, `Stats` and `Graph`, and their error lists either coincide or
differ in exactly the V5 finding, whose member listings are permutations of
each other. -/
theorem validate_tail_confluent (graph : TaskGraph) (r1 : ValidationResult)
    (s1 m1 s2 m2 : List String)
    (hs1 : s1.Perm (mapKeys graph.Tasks)) (hm1 : m1.Perm (mapKeys graph.Tasks))
    (hs2 : s2.Perm (mapKeys graph.Tasks)) (hm2 : m2.Perm (mapKeys graph.Tasks)) :
    (attachGraph graph (semValidateTaskGraph graph s1 m1 r1)).Valid
      = (attachGraph graph (semValidateTaskGraph graph s2 m2 r1)).Valid
    ∧ (attachGraph graph (semValidateTaskGraph graph s1 m1 r1)).Stats
      = (attachGraph graph (semValidateTaskGraph graph s2 m2 r1)).Stats
    ∧ (attachGraph graph (semValidateTaskGraph graph s1 m1 r1)).Graph
      = (attachGraph graph (semValidateTaskGraph graph s2 m2 r1)).Graph
    ∧ (attachGraph graph (semValidateTaskGraph graph s1 m1 r1)
        = attachGraph graph (semValidateTaskGraph graph s2 m2 r1)
       ∨ ∃ E E' mems1 mems2, mems1.Perm mems2
           ∧ (attachGraph graph (semValidateTaskGraph graph s1 m1 r1)).Errors
              = E ++ cycleError mems1 :: E'
           ∧ (attachGraph graph (semValidateTaskGraph graph s2 m2 r1)).Errors
              = E ++ cycleError mems2 :: E') := by
  rcases checkDAG_confluent graph s1 m1 s2 m2 hs1 hm1 hs2 hm2 with
    ⟨hd1, hd2⟩ | ⟨mems1, mems2, hperm, hd1, hd2⟩
  · have hsem : semErrs graph s1 m1 = semErrs graph s2 m2 := by
      rw [semErrs_decomp, semErrs_decomp, hd1, hd2]
    have heq : semValidateTaskGraph graph s1 m1 r1 = semValidateTaskGraph graph s2 m2 r1 := by
      unfold semValidateTaskGraph
      rw [hsem]
    rw [heq]
    exact ⟨rfl, rfl, rfl, Or.inl rfl⟩
  · have hsevmap : (semErrs graph s1 m1).map (fun e => e.Severity)
        = (semErrs graph s2 m2).map (fun e => e.Severity) := by
      rw [semErrs_decomp, semErrs_decomp, hd1, hd2]
      simp only [List.map_append, List.map_cons, List.map_nil]
      rfl
    have hValid : (semValidateTaskGraph graph s1 m1 r1).Valid
        = (semValidateTaskGraph graph s2 m2 r1).Valid := by
      rw [semValidate_Valid, semValidate_Valid,
        allNoErr_congr _ _ hsevmap]
    have hStats : (semValidateTaskGraph graph s1 m1 r1).Stats
        = (semValidateTaskGraph graph s2 m2 r1).Stats := by
      rw [semValidate_Stats, semValidate_Stats,
        countP_sev_congr _ _ hsevmap SeverityError,
        countP_sev_congr _ _ hsevmap SeverityWarning,
        countP_sev_congr _ _ hsevmap SeverityInfo]
    have hGraphR : (semValidateTaskGraph graph s1 m1 r1).Graph
        = (semValidateTaskGraph graph s2 m2 r1).Graph := by
      rw [semValidate_Graph, semValidate_Graph]
    refine ⟨?_, ?_, ?_, Or.inr
      ⟨r1.Errors ++ (checkUniqueTaskIDs graph ++ checkDependencyReferences graph),
       checkGoalQuality graph ++ (checkAcceptanceQuality graph
         ++ (checkContextualFields graph ++ (checkFilesScope graph
         ++ checkMilestones graph))),
       mems1, mems2, hperm, ?_, ?_⟩⟩
    · rw [attachGraph_Valid, attachGraph_Valid, hValid]
    · rw [attachGraph_Stats, attachGraph_Stats, hStats]
    · rw [attachGraph_Graph, attachGraph_Graph, hValid, hGraphR]
    · rw [attachGraph_Errors, semValidate_Errors, semErrs_decomp, hd1]
      simp [List.append_assoc]
    · rw [attachGraph_Errors, semValidate_Errors, semErrs_decomp, hd2]
      simp [List.append_assoc]

/-- The graph whose Tier 2 run a given mode semantically validates. -/
def modeGraph (inp : InputModel) (mode : Mode) : Option TaskGraph :=
  match mode with
  | .singleTask => inp.parsedTask.map (fun task => { Version := "0.1.0", Tasks := [task] })
  | .taskGraph => inp.parsedGraph

/-- Order-confluence of the Tier 2 checks for one fixed `InputModel`: with
the schema findings held fixed, two runs differing only in the in-degree
map's iteration orders agree on `Valid`, `Stats` and `Graph` and return the
same findings except the V5 member listing. -/
theorem validate_orders_confluent (inp : InputModel) (mode : Mode)
    (s1 m1 s2 m2 : List String)
    (hord : ∀ g, modeGraph inp mode = some g →
      s1.Perm (mapKeys g.Tasks) ∧ m1.Perm (mapKeys g.Tasks)
      ∧ s2.Perm (mapKeys g.Tasks) ∧ m2.Perm (mapKeys g.Tasks)) :
    ((Validate inp mode s1 m1).map (fun r => (r.Valid, r.Stats, r.Graph))
      = (Validate inp mode s2 m2).map (fun r => (r.Valid, r.Stats, r.Graph)))
    ∧ (Validate inp mode s1 m1 = Validate inp mode s2 m2
       ∨ ∃ E E' mems1 mems2, mems1.Perm mems2
           ∧ (Validate inp mode s1 m1).map (fun r => r.Errors)
              = Except.ok (E ++ cycleError mems1 :: E')
           ∧ (Validate inp mode s2 m2).map (fun r => r.Errors)
              = Except.ok (E ++ cycleError mems2 :: E')) := by
  have hattach : ∀ (gr : TaskGraph) (r2 : ValidationResult),
      (if r2.Valid = true then { r2 with Graph := some gr } else r2)
        = attachGraph gr r2 := fun _ _ => rfl
  cases mode with
  | singleTask =>
      by_cases hr1 : (convertSchemaErrors inp.schemaFindings { Valid := true }).Valid = true
      · cases hpt : inp.parsedTask with
        | none =>
            have h1 : ∀ s m, Validate inp Mode.singleTask s m = .error "parsing task node" := by
              intro s m
              simp only [Validate, hr1, hpt, if_true]
            rw [h1, h1]
            exact ⟨rfl, Or.inl rfl⟩
        | some task =>
            obtain ⟨hs1, hm1, hs2, hm2⟩ :=
              hord { Version := "0.1.0", Tasks := [task] } (by simp [modeGraph, hpt])
            have h1 : ∀ s m, Validate inp Mode.singleTask s m
                = Except.ok (attachGraph { Version := "0.1.0", Tasks := [task] }
                    (semValidateTaskGraph { Version := "0.1.0", Tasks := [task] } s m
                      (convertSchemaErrors inp.schemaFindings { Valid := true }))) := by
              intro s m
              simp only [Validate, hr1, hpt, if_true, hattach]
            obtain ⟨hV, hS, hG, hEors⟩ :=
              validate_tail_confluent { Version := "0.1.0", Tasks := [task] }
                (convertSchemaErrors inp.schemaFindings { Valid := true })
                s1 m1 s2 m2 hs1 hm1 hs2 hm2
            rw [h1, h1]
            constructor
            · simp only [Except.map]
              rw [hV, hS, hG]
            · rcases hEors with he | ⟨E, E', mm1, mm2, hp, he1, he2⟩
              · left
                rw [he]
              · right
                exact ⟨E, E', mm1, mm2, hp, by simp only [Except.map]; rw [he1],
                  by simp only [Except.map]; rw [he2]⟩
      · have h1 : ∀ s m, Validate inp Mode.singleTask s m
            = Except.ok (convertSchemaErrors inp.schemaFindings { Valid := true }) := by
          intro s m
          simp only [Validate]
          rw [if_neg hr1]
        rw [h1, h1]
        exact ⟨rfl, Or.inl rfl⟩
  | taskGraph =>
      by_cases hr1 : (convertSchemaErrors inp.schemaFindings { Valid := true }).Valid = true
      · cases hpt : inp.parsedGraph with
        | none =>
            have h1 : ∀ s m, Validate inp Mode.taskGraph s m = .error "parsing task graph" := by
              intro s m
              simp only [Validate, hr1, hpt, if_true]
            rw [h1, h1]
            exact ⟨rfl, Or.inl rfl⟩
        | some graph =>
            obtain ⟨hs1, hm1, hs2, hm2⟩ := hord graph (by simp [modeGraph, hpt])
            have h1 : ∀ s m, Validate inp Mode.taskGraph s m
                = Except.ok (attachGraph graph
                    (semValidateTaskGraph graph s m
                      (convertSchemaErrors inp.schemaFindings { Valid := true }))) := by
              intro s m
              simp only [Validate, hr1, hpt, if_true, hattach]
            obtain ⟨hV, hS, hG, hEors⟩ :=
              validate_tail_confluent graph
                (convertSchemaErrors inp.schemaFindings { Valid := true })
                s1 m1 s2 m2 hs1 hm1 hs2 hm2
            rw [h1, h1]
            constructor
            · simp only [Except.map]
              rw [hV, hS, hG]
            · rcases hEors with he | ⟨E, E', mm1, mm2, hp, he1, he2⟩
              · left
                rw [he]
              · right
                exact ⟨E, E', mm1, mm2, hp, by simp only [Except.map]; rw [he1],
                  by simp only [Except.map]; rw [he2]⟩
      · have h1 : ∀ s m, Validate inp Mode.taskGraph s m
            = Except.ok (convertSchemaErrors inp.schemaFindings { Valid := true }) := by
          intro s m
          simp only [Validate]
          rw [if_neg hr1]
        rw [h1, h1]
        exact ⟨rfl, Or.inl rfl⟩

/-- `List.all` only inspects membership, hence is permutation-invariant. -/
theorem perm_all_eq {α : Type} (p : α → Bool) {l1 l2 : List α} (h : l1.Perm l2) :
    l1.all p = l2.all p := by
  have hiff : l1.all p = true ↔ l2.all p = true := by
    rw [List.all_eq_true, List.all_eq_true]
    exact ⟨fun hh x hx => hh x (h.symm.subset hx), fun hh x hx => hh x (h.subset hx)⟩
  cases h1 : l1.all p <;> cases h2 : l2.all p <;> simp_all

/-- C4 (amended): two `Validate` runs on the same input bytes share the
parsed document, but each Go map iteration — the engine's detailed-errors
map in Tier 1 and the in-degree map in Tier 2 — may enumerate in a
different order, always a permutation of one fixed collection.  The two
runs agree on `Valid`, `Stats` and `Graph`, and their findings agree up to
exactly two order artefacts: an input failing Tier 1 gets the same SCHEMA
findings up to permutation, and a cyclic graph's single V5 finding lists
the same cycle members possibly in a different order; in every other case
the results are identical. -/
theorem validate_deterministic_upto_cycle
    (f1 f2 : List (String × String)) (pt : Option TaskNode) (pg : Option TaskGraph)
    (mode : Mode) (s1 m1 s2 m2 : List String)
    (hf : f1.Perm f2)
    (hord : ∀ g, modeGraph { schemaFindings := f1, parsedTask := pt, parsedGraph := pg }
        mode = some g →
      s1.Perm (mapKeys g.Tasks) ∧ m1.Perm (mapKeys g.Tasks)
      ∧ s2.Perm (mapKeys g.Tasks) ∧ m2.Perm (mapKeys g.Tasks)) :
    ((Validate { schemaFindings := f1, parsedTask := pt, parsedGraph := pg } mode s1 m1).map
        (fun r => (r.Valid, r.Stats, r.Graph))
      = (Validate { schemaFindings := f2, parsedTask := pt, parsedGraph := pg } mode s2 m2).map
        (fun r => (r.Valid, r.Stats, r.Graph)))
    ∧ (Validate { schemaFindings := f1, parsedTask := pt, parsedGraph := pg } mode s1 m1
        = Validate { schemaFindings := f2, parsedTask := pt, parsedGraph := pg } mode s2 m2
       ∨ ((schemaErrList f1).Perm (schemaErrList f2)
          ∧ (Validate { schemaFindings := f1, parsedTask := pt, parsedGraph := pg }
              mode s1 m1).map (fun r => r.Errors) = Except.ok (schemaErrList f1)
          ∧ (Validate { schemaFindings := f2, parsedTask := pt, parsedGraph := pg }
              mode s2 m2).map (fun r => r.Errors) = Except.ok (schemaErrList f2))
       ∨ ∃ E E' mems1 mems2, mems1.Perm mems2
           ∧ (Validate { schemaFindings := f1, parsedTask := pt, parsedGraph := pg }
              mode s1 m1).map (fun r => r.Errors) = Except.ok (E ++ cycleError mems1 :: E')
           ∧ (Validate { schemaFindings := f2, parsedTask := pt, parsedGraph := pg }
              mode s2 m2).map (fun r => r.Errors) = Except.ok (E ++ cycleError mems2 :: E')) := by
  have hpermSchema : (schemaErrList f1).Perm (schemaErrList f2) := hf.map _
  by_cases hr1 : (convertSchemaErrors f1 { Valid := true }).Valid = true
  · -- Tier 1 passes: both findings lists are forced empty, and only the
    -- Tier 2 orders remain.
    have hf1nil : f1 = [] := by
      cases hfc : f1 with
      | nil => rfl
      | cons x xs =>
          exfalso
          rw [convert_Valid] at hr1
          simp only [Bool.and_eq_true] at hr1
          have hall := hr1.2
          rw [hfc] at hall
          have he : (fun pm : String × String =>
              let path := if pm.1 = "" then "$" else pm.1
              ({ Rule := "SCHEMA", Severity := SeverityError, Path := path,
                 Message := pm.2,
                 Suggestion := generateSchemaSuggestion path pm.2 } : ValidationError)) x
              ∈ schemaErrList (x :: xs) :=
            List.mem_map_of_mem _ (List.mem_cons_self x xs)
          have hmem := List.all_eq_true.mp hall _ he
          have hsev := (schemaErrList_shape (x :: xs) _ he).2
          rw [hsev] at hmem
          simp [SeverityError] at hmem
    have hf2nil : f2 = [] := by
      rw [hf1nil] at hf
      exact (List.Perm.nil_eq hf).symm
    subst hf1nil
    subst hf2nil
    obtain ⟨h1, h2⟩ := validate_orders_confluent
      { schemaFindings := [], parsedTask := pt, parsedGraph := pg } mode s1 m1 s2 m2 hord
    exact ⟨h1, h2.imp id Or.inr⟩
  · -- Tier 1 fails in both runs: the results are the converted schema
    -- findings, permutations of each other.
    have hallEq : (schemaErrList f1).all (fun e => !(e.Severity == SeverityError))
        = (schemaErrList f2).all (fun e => !(e.Severity == SeverityError)) :=
      perm_all_eq _ hpermSchema
    have hveq : (convertSchemaErrors f1 { Valid := true }).Valid
        = (convertSchemaErrors f2 { Valid := true }).Valid := by
      rw [convert_Valid, convert_Valid, hallEq]
    have hr2 : ¬((convertSchemaErrors f2 { Valid := true }).Valid = true) := by
      rw [← hveq]
      exact hr1
    have hstats : (convertSchemaErrors f1 { Valid := true }).Stats
        = (convertSchemaErrors f2 { Valid := true }).Stats := by
      unfold convertSchemaErrors
      rw [addErrors_Stats, addErrors_Stats,
        hpermSchema.countP_eq (fun e => e.Severity == SeverityError),
        hpermSchema.countP_eq (fun e => e.Severity == SeverityWarning),
        hpermSchema.countP_eq (fun e => e.Severity == SeverityInfo)]
    cases mode with
    | singleTask =>
        have h1 : ∀ (f : List (String × String)) (s m : List String),
            ¬((convertSchemaErrors f { Valid := true }).Valid = true) →
            Validate { schemaFindings := f, parsedTask := pt, parsedGraph := pg }
              Mode.singleTask s m
              = Except.ok (convertSchemaErrors f { Valid := true }) := by
          intro f s m hfv
          simp only [Validate]
          rw [if_neg hfv]
        rw [h1 f1 s1 m1 hr1, h1 f2 s2 m2 hr2]
        refine ⟨?_, Or.inr (Or.inl ⟨hpermSchema, ?_, ?_⟩)⟩
        · simp only [Except.map]
          rw [hveq, hstats, convert_Graph, convert_Graph]
        · simp only [Except.map]
          rw [convert_Errors]
          simp
        · simp only [Except.map]
          rw [convert_Errors]
          simp
    | taskGraph =>
        have h1 : ∀ (f : List (String × String)) (s m : List String),
            ¬((convertSchemaErrors f { Valid := true }).Valid = true) →
            Validate { schemaFindings := f, parsedTask := pt, parsedGraph := pg }
              Mode.taskGraph s m
              = Except.ok (convertSchemaErrors f { Valid := true }) := by
          intro f s m hfv
          simp only [Validate]
          rw [if_neg hfv]
        rw [h1 f1 s1 m1 hr1, h1 f2 s2 m2 hr2]
        refine ⟨?_, Or.inr (Or.inl ⟨hpermSchema, ?_, ?_⟩)⟩
        · simp only [Except.map]
          rw [hveq, hstats, convert_Graph, convert_Graph]
        · simp only [Except.map]
          rw [convert_Errors]
          simp
        · simp only [Except.map]
          rw [convert_Errors]
          simp

/-- The mutually-dependent two-task graph used to exhibit the
order-sensitivity of the V5 finding. -/
def cycTA : TaskNode :=
  { TaskID := "task-a", TaskName := "Task A", Goal := "A is done.",
    DependsOn := .strList ["task-b"], Constraints := .strList [],
    FilesScope := .strList ["a.go"], Acceptance := ["A passes"] }

def cycTB : TaskNode :=
  { TaskID := "task-b", TaskName := "Task B", Goal := "B is done.",
    DependsOn := .strList ["task-a"], Constraints := .strList [],
    FilesScope := .strList ["b.go"], Acceptance := ["B passes"] }

def gCycG : TaskGraph := { Version := "0.1.0", Tasks := [cycTA, cycTB] }

def cyc2Inp : InputModel := { parsedGraph := some gCycG }

/-- C4 counterexample: the same input bytes, validated twice under two
legitimate iteration orders of the in-degree map (both permutations of its
keys), give different results — the V5 finding lists the cycle members in
different orders. -/
theorem validate_deterministic_counterexample :
    ((["task-a", "task-b"] : List String).Perm (mapKeys gCycG.Tasks)
      ∧ (["task-b", "task-a"] : List String).Perm (mapKeys gCycG.Tasks))
    ∧ Validate cyc2Inp Mode.taskGraph ["task-a", "task-b"] ["task-a", "task-b"]
        ≠ Validate cyc2Inp Mode.taskGraph ["task-b", "task-a"] ["task-b", "task-a"] := by
  refine ⟨⟨by decide, by decide⟩, by decide⟩

theorem validate_deterministic_upto_cycle_witness :
    ((Validate { schemaFindings := [], parsedTask := none, parsedGraph := some gCycG }
        Mode.taskGraph ["task-a", "task-b"] ["task-a", "task-b"]).map
        (fun r => (r.Valid, r.Stats, r.Graph))
      = (Validate { schemaFindings := [], parsedTask := none, parsedGraph := some gCycG }
        Mode.taskGraph ["task-b", "task-a"] ["task-b", "task-a"]).map
        (fun r => (r.Valid, r.Stats, r.Graph)))
    ∧ (Validate { schemaFindings := [], parsedTask := none, parsedGraph := some gCycG }
          Mode.taskGraph ["task-a", "task-b"] ["task-a", "task-b"]
        = Validate { schemaFindings := [], parsedTask := none, parsedGraph := some gCycG }
          Mode.taskGraph ["task-b", "task-a"] ["task-b", "task-a"]
       ∨ ((schemaErrList []).Perm (schemaErrList [])
          ∧ (Validate { schemaFindings := [], parsedTask := none, parsedGraph := some gCycG }
              Mode.taskGraph ["task-a", "task-b"] ["task-a", "task-b"]).map
              (fun r => r.Errors) = Except.ok (schemaErrList [])
          ∧ (Validate { schemaFindings := [], parsedTask := none, parsedGraph := some gCycG }
              Mode.taskGraph ["task-b", "task-a"] ["task-b", "task-a"]).map
              (fun r => r.Errors) = Except.ok (schemaErrList []))
       ∨ ∃ E E' mems1 mems2, mems1.Perm mems2
           ∧ (Validate { schemaFindings := [], parsedTask := none, parsedGraph := some gCycG }
              Mode.taskGraph ["task-a", "task-b"] ["task-a", "task-b"]).map
              (fun r => r.Errors) = Except.ok (E ++ cycleError mems1 :: E')
           ∧ (Validate { schemaFindings := [], parsedTask := none, parsedGraph := some gCycG }
              Mode.taskGraph ["task-b", "task-a"] ["task-b", "task-a"]).map
              (fun r => r.Errors) = Except.ok (E ++ cycleError mems2 :: E')) :=
  validate_deterministic_upto_cycle [] [] none (some gCycG) Mode.taskGraph
    ["task-a", "task-b"] ["task-a", "task-b"] ["task-b", "task-a"] ["task-b", "task-a"]
    (by decide)
    (fun g hg => by
      have hgg : gCycG = g := by simpa [modeGraph] using hg
      subst hgg
      exact ⟨by decide, by decide, by decide, by decide⟩)

end TaskTemplating
